import Mathlib

/-!
# Vyauma Runtime Engine (VRE): shallow embedding and verification

This file embeds the core of the `vyauma-vre` repository in Lean 4:
the value model (`vm/value.rs`), the bounded operand stack (`vm/stack.rs`),
locals/globals/constant pool (`vm/memory.rs`), the opcode set
(`bytecode/opcode.rs`), the capability registry (`capability/registry.rs`),
the virtual machine (`vm/vm.rs`) and the bytecode loader with its CFG-based
stack-height validator (`loader/loader.rs`).

Modelling conventions:
* Machine integers are `Nat` (bytes are `Nat`s that are < 256 in practice);
  the dataflow stack heights are `Int` (the source uses `isize`).
* Rust `Vec` push/pop at the back are modelled by Lean lists with the head as
  the back (top of stack / most recent frame); the state-change buffer keeps
  source order (append at the end).
* `f64` payloads are carried as raw bit patterns (`Nat`); IEEE-754 arithmetic
  and comparison are abstracted into a `NumOps` parameter because no verified
  claim depends on numeric results.  All theorems hold for every `NumOps`.
* Fallible Rust functions that mutate `&mut self` are modelled as functions
  returning the mutated state together with an `Option VreError`, so that
  partial mutations on error paths (which the source keeps) are preserved.
* `HashSet`/`HashMap` iteration order in the loader's fixed-point is not
  deterministic in the source; the model fixes the first-encounter order of
  call targets.  No claim below depends on that order.
* Source loops without a structural termination measure take explicit fuel;
  running out of fuel is a distinguished outcome, never confused with a
  source error.
-/

namespace Vre

/-- The closed error taxonomy of `error.rs` (`VreError`). -/
inductive VreError where
  | invalidMagicNumber
  | invalidBytecodeVersion
  | invalidOpcode (b : Nat)
  | malformedBytecode
  | bytecodeTooShort
  | stackOverflow
  | stackUnderflow
  | invalidStackAccess
  | invalidLocalAccess (idx : Nat)
  | invalidConstantAccess (idx : Nat)
  | divisionByZero
  | invalidJumpTarget (offset : Nat)
  | invalidFunctionIndex (idx : Nat)
  | capabilityNotGranted
  | capabilityDenied
  | securityViolation
  | outOfMemory
  | typeMismatch
  | runtimeFault
  | ioError (msg : String)
  deriving DecidableEq

/-- Opcodes of `bytecode/opcode.rs`.  The `externalCall` variant is used by the
VM, the loader and the tests of this repository, but its declaration is absent
from `opcode.rs` in the source tree.  Modelled from the spec: the spec's opcode
table lists ExternalCall with byte "(reserved)", so the model assigns it the
otherwise unused byte 0xE0. -/
inductive OpCode where
  | push | pop | dup
  | loadLocal | storeLocal
  | add | sub | mul | div | mod | neg
  | equal | notEqual | less | lessEqual | greater | greaterEqual
  | jump | jumpIf | call | ret
  | externalCall
  | nop | halt
  deriving DecidableEq

/-- The reserved byte the model assigns to the ExternalCall opcode. -/
def externalCallByte : Nat := 0xE0

/-- `OpCode::from_u8`. -/
def OpCode.fromU8 (byte : Nat) : Option OpCode :=
  match byte with
  | 0x01 => some .push
  | 0x02 => some .pop
  | 0x03 => some .dup
  | 0x10 => some .loadLocal
  | 0x11 => some .storeLocal
  | 0x20 => some .add
  | 0x21 => some .sub
  | 0x22 => some .mul
  | 0x23 => some .div
  | 0x24 => some .mod
  | 0x25 => some .neg
  | 0x30 => some .equal
  | 0x31 => some .notEqual
  | 0x32 => some .less
  | 0x33 => some .lessEqual
  | 0x34 => some .greater
  | 0x35 => some .greaterEqual
  | 0x40 => some .jump
  | 0x41 => some .jumpIf
  | 0x42 => some .call
  | 0x43 => some .ret
  | 0xE0 => some .externalCall
  | 0xF0 => some .nop
  | 0xFF => some .halt
  | _ => none

/-- Runtime values (`vm/value.rs`).  `num` carries the raw IEEE-754 bit
pattern of the `f64`. -/
inductive Value where
  | null
  | bool (b : Bool)
  | num (bits : Nat)
  | ref (id : Nat)
  deriving DecidableEq

/-- Abstract interface for the `f64` operations the VM uses.  The embedding is
parametric in these operations; no verified claim depends on their results. -/
structure NumOps where
  add : Nat → Nat → Nat
  sub : Nat → Nat → Nat
  mul : Nat → Nat → Nat
  div : Nat → Nat → Nat
  beq : Nat → Nat → Bool
  bne : Nat → Nat → Bool
  blt : Nat → Nat → Bool
  bgt : Nat → Nat → Bool
  isZero : Nat → Bool

/-- An arbitrary instantiation of `NumOps`, used for concrete evaluations. -/
def arbNumOps : NumOps :=
  { add := fun _ _ => 0, sub := fun _ _ => 0, mul := fun _ _ => 0
    div := fun _ _ => 0, beq := fun _ _ => false, bne := fun _ _ => false
    blt := fun _ _ => false, bgt := fun _ _ => false, isZero := fun _ => false }

/-- `VreConfig` (`config.rs`). -/
structure VreConfig where
  maxStackSize : Nat
  maxLocals : Nat
  maxCallDepth : Nat
  deriving DecidableEq

/-- `VreConfig::default`. -/
def VreConfig.default : VreConfig :=
  { maxStackSize := 1024, maxLocals := 256, maxCallDepth := 256 }

/-- The operand stack (`vm/stack.rs`).  List head = top of stack. -/
structure Stack where
  values : List Value
  maxSize : Nat
  deriving DecidableEq

/-- `Stack::new`. -/
def Stack.new (maxSize : Nat) : Stack := { values := [], maxSize := maxSize }

/-- `Stack::push`. -/
def Stack.push (s : Stack) (v : Value) : Except VreError Stack :=
  if s.values.length ≥ s.maxSize then .error .stackOverflow
  else .ok { s with values := v :: s.values }

/-- `Stack::pop`. -/
def Stack.pop (s : Stack) : Except VreError (Value × Stack) :=
  match s.values with
  | [] => .error .stackUnderflow
  | v :: rest => .ok (v, { s with values := rest })

/-- `Stack::peek`. -/
def Stack.peek (s : Stack) : Except VreError Value :=
  match s.values with
  | [] => .error .stackUnderflow
  | v :: _ => .ok v

/-- `Stack::dup` (peek then push). -/
def Stack.dup (s : Stack) : Except VreError Stack :=
  match s.peek with
  | .error e => .error e
  | .ok v => s.push v

/-- Per-frame local variables (`vm/memory.rs`, `Locals`). -/
structure Locals where
  values : List Value
  deriving DecidableEq

/-- `Locals::new`: `size` copies of Null. -/
def Locals.new (size : Nat) : Locals := ⟨List.replicate size .null⟩

/-- `Locals::load`. -/
def Locals.load (l : Locals) (index : Nat) : Except VreError Value :=
  match l.values[index]? with
  | some v => .ok v
  | none => .error (.invalidLocalAccess index)

/-- `Locals::store`. -/
def Locals.store (l : Locals) (index : Nat) (v : Value) : Except VreError Locals :=
  if index ≥ l.values.length then .error (.invalidLocalAccess index)
  else .ok ⟨l.values.set index v⟩

/-- Global variable storage (`vm/memory.rs`, `Globals`). -/
structure Globals where
  values : List Value
  deriving DecidableEq

/-- `Globals::new`. -/
def Globals.new (size : Nat) : Globals := ⟨List.replicate size .null⟩

/-- The read-only constant pool (`vm/memory.rs`, `ConstantPool`). -/
structure ConstantPool where
  values : List Value
  deriving DecidableEq

/-- `ConstantPool::get`. -/
def ConstantPool.get (p : ConstantPool) (index : Nat) : Except VreError Value :=
  match p.values[index]? with
  | some v => .ok v
  | none => .error (.invalidConstantAccess index)

/-- The capability registry (`capability/registry.rs`).  The `HashSet` of
granted ids is modelled as a duplicate-free list. -/
structure CapabilityRegistry where
  granted : List Nat
  deriving DecidableEq

/-- `CapabilityRegistry::new`: deny-all. -/
def CapabilityRegistry.new : CapabilityRegistry := ⟨[]⟩

/-- `CapabilityRegistry::grant`. -/
def CapabilityRegistry.grant (r : CapabilityRegistry) (id : Nat) : CapabilityRegistry :=
  if id ∈ r.granted then r else ⟨id :: r.granted⟩

/-- `CapabilityRegistry::check`: fail-closed. -/
def CapabilityRegistry.check (r : CapabilityRegistry) (rawId : Nat) : Option VreError :=
  if rawId ∈ r.granted then none else some .capabilityDenied

/-- State change events (`vm/vm.rs`, `StateChange`). -/
inductive StateChange where
  | localStore (index : Nat) (value : Value)
  | externalCallRequest (capId : Nat) (args : List Value)
  deriving DecidableEq

/-- A call frame (`vm/vm.rs`, `CallFrame`). -/
structure CallFrame where
  returnIp : Nat
  locals : Locals
  deriving DecidableEq

/-- The virtual machine state (`vm/vm.rs`, `VirtualMachine`).  List head of
`callStack` = most recently pushed frame. -/
structure VM where
  config : VreConfig
  stack : Stack
  globals : Globals
  constants : ConstantPool
  instructions : List Nat
  ip : Nat
  callStack : List CallFrame
  halted : Bool
  stateChanges : List StateChange
  capabilities : CapabilityRegistry
  deriving DecidableEq

/-- `VirtualMachine::new`.  Note: the source initializes `ip: 0` and takes no
entry-point argument. -/
def VM.new (config : VreConfig) (constants : List Value) (instructions : List Nat)
    (globalCount : Nat) : VM :=
  { config := config
    stack := Stack.new config.maxStackSize
    globals := Globals.new globalCount
    constants := ⟨constants⟩
    instructions := instructions
    ip := 0
    callStack := [{ returnIp := 0, locals := Locals.new config.maxLocals }]
    halted := false
    stateChanges := []
    capabilities := CapabilityRegistry.new }

/-- `VirtualMachine::drain_state_changes`. -/
def VM.drainStateChanges (vm : VM) : List StateChange × VM :=
  (vm.stateChanges, { vm with stateChanges := [] })

/-- `VirtualMachine::grant_capability`. -/
def VM.grantCapability (vm : VM) (id : Nat) : VM :=
  { vm with capabilities := vm.capabilities.grant id }

/-- `VirtualMachine::resume`. -/
def VM.resume (vm : VM) : VM := { vm with halted := false }

/-- `VirtualMachine::apply_external_results`: push each result in order. -/
def VM.applyExternalResults (vm : VM) : List Value → VM × Option VreError
  | [] => (vm, none)
  | v :: rest =>
    match vm.stack.push v with
    | .error e => (vm, some e)
    | .ok s' => VM.applyExternalResults { vm with stack := s' } rest

/-- `VirtualMachine::read_u8`: read one byte at `ip`, advance `ip`. -/
def VM.readU8 (vm : VM) : Except VreError (Nat × VM) :=
  match vm.instructions[vm.ip]? with
  | none => .error .bytecodeTooShort
  | some b => .ok (b, { vm with ip := vm.ip + 1 })

/-- Big-endian u32 from four bytes starting at index `j` (out-of-range reads
yield 0; callers establish the bounds first, as the source does). -/
def be32 (bytes : List Nat) (j : Nat) : Nat :=
  ((bytes[j]?).getD 0) * 0x1000000 + ((bytes[j+1]?).getD 0) * 0x10000 +
    ((bytes[j+2]?).getD 0) * 0x100 + ((bytes[j+3]?).getD 0)

/-- `VirtualMachine::read_u32`: read a big-endian u32 at `ip`, advance `ip`. -/
def VM.readU32 (vm : VM) : Except VreError (Nat × VM) :=
  if vm.ip + 4 > vm.instructions.length then .error .bytecodeTooShort
  else .ok (be32 vm.instructions vm.ip, { vm with ip := vm.ip + 4 })

/-- `VirtualMachine::pop_number`: pop, require a Number.  The pop persists
even when the error is TypeMismatch, as in the source (`&mut self`). -/
def VM.popNumber (vm : VM) : VM × Except VreError Nat :=
  match vm.stack.pop with
  | .error e => (vm, .error e)
  | .ok (v, s') =>
    let vm1 := { vm with stack := s' }
    match v with
    | .num n => (vm1, .ok n)
    | _ => (vm1, .error .typeMismatch)

/-- `VirtualMachine::binary_numeric`: pop b, pop a, push `Number (op a b)`. -/
def VM.binaryNumeric (vm : VM) (op : Nat → Nat → Nat) : VM × Option VreError :=
  match vm.popNumber with
  | (vm1, .error e) => (vm1, some e)
  | (vm1, .ok b) =>
    match vm1.popNumber with
    | (vm2, .error e) => (vm2, some e)
    | (vm2, .ok a) =>
      match vm2.stack.push (.num (op a b)) with
      | .error e => (vm2, some e)
      | .ok s' => ({ vm2 with stack := s' }, none)

/-- `VirtualMachine::compare`: pop b, pop a, push `Bool (cmp a b)`. -/
def VM.compare (vm : VM) (cmp : Nat → Nat → Bool) : VM × Option VreError :=
  match vm.popNumber with
  | (vm1, .error e) => (vm1, some e)
  | (vm1, .ok b) =>
    match vm1.popNumber with
    | (vm2, .error e) => (vm2, some e)
    | (vm2, .ok a) =>
      match vm2.stack.push (.bool (cmp a b)) with
      | .error e => (vm2, some e)
      | .ok s' => ({ vm2 with stack := s' }, none)

/-- The argument-collection loop of the ExternalCall arm: pop `n` values,
collecting them in pop order (stack top first). -/
def VM.popArgs : Nat → VM → List Value → VM × Except VreError (List Value)
  | 0, vm, acc => (vm, .ok acc)
  | n + 1, vm, acc =>
    match vm.stack.pop with
    | .error e => (vm, .error e)
    | .ok (v, s') => VM.popArgs n { vm with stack := s' } (acc ++ [v])

/-- One opcode's execution (the body of the `match opcode` in
`VirtualMachine::step`); `vm` has the opcode byte already consumed. -/
def VM.stepOp (ops : NumOps) (op : OpCode) (vm : VM) : VM × Option VreError :=
  match op with
  | .halt => ({ vm with halted := true }, none)
  | .push =>
    match vm.readU8 with
    | .error e => (vm, some e)
    | .ok (index, vm1) =>
      match vm1.constants.get index with
      | .error e => (vm1, some e)
      | .ok v =>
        match vm1.stack.push v with
        | .error e => (vm1, some e)
        | .ok s' => ({ vm1 with stack := s' }, none)
  | .pop =>
    match vm.stack.pop with
    | .error e => (vm, some e)
    | .ok (_, s') => ({ vm with stack := s' }, none)
  | .dup =>
    match vm.stack.dup with
    | .error e => (vm, some e)
    | .ok s' => ({ vm with stack := s' }, none)
  | .loadLocal =>
    match vm.readU8 with
    | .error e => (vm, some e)
    | .ok (index, vm1) =>
      match vm1.callStack with
      | [] => (vm1, some (.invalidLocalAccess index))
      | f :: _ =>
        match f.locals.load index with
        | .error e => (vm1, some e)
        | .ok v =>
          match vm1.stack.push v with
          | .error e => (vm1, some e)
          | .ok s' => ({ vm1 with stack := s' }, none)
  | .storeLocal =>
    match vm.readU8 with
    | .error e => (vm, some e)
    | .ok (index, vm1) =>
      match vm1.stack.pop with
      | .error e => (vm1, some e)
      | .ok (v, s') =>
        let vm2 := { vm1 with stack := s' }
        match vm2.callStack with
        | [] => (vm2, some (.invalidLocalAccess index))
        | f :: rest =>
          match f.locals.store index v with
          | .error e => (vm2, some e)
          | .ok l' =>
            ({ vm2 with
                callStack := { f with locals := l' } :: rest
                stateChanges := vm2.stateChanges ++ [.localStore index v] }, none)
  | .add => vm.binaryNumeric ops.add
  | .sub => vm.binaryNumeric ops.sub
  | .mul => vm.binaryNumeric ops.mul
  | .div =>
    match vm.popNumber with
    | (vm1, .error e) => (vm1, some e)
    | (vm1, .ok b) =>
      if ops.isZero b then (vm1, some .divisionByZero)
      else
        match vm1.popNumber with
        | (vm2, .error e) => (vm2, some e)
        | (vm2, .ok a) =>
          match vm2.stack.push (.num (ops.div a b)) with
          | .error e => (vm2, some e)
          | .ok s' => ({ vm2 with stack := s' }, none)
  | .equal => vm.compare ops.beq
  | .notEqual => vm.compare ops.bne
  | .less => vm.compare ops.blt
  | .greater => vm.compare ops.bgt
  | .externalCall =>
    match vm.readU8 with
    | .error e => (vm, some e)
    | .ok (capId, vm1) =>
      match vm1.readU8 with
      | .error e => (vm1, some e)
      | .ok (argc, vm2) =>
        match VM.popArgs argc vm2 [] with
        | (vm3, .error e) => (vm3, some e)
        | (vm3, .ok collected) =>
          let args := collected.reverse
          match vm3.capabilities.check capId with
          | some e => (vm3, some e)
          | none =>
            ({ vm3 with
                stateChanges := vm3.stateChanges ++ [.externalCallRequest capId args]
                halted := true }, none)
  | .call =>
    match vm.readU32 with
    | .error e => (vm, some e)
    | .ok (target, vm1) =>
      let frame : CallFrame := { returnIp := vm1.ip, locals := Locals.new vm1.config.maxLocals }
      let vm2 := { vm1 with callStack := frame :: vm1.callStack }
      if target ≥ vm2.instructions.length then (vm2, some (.invalidJumpTarget target))
      else ({ vm2 with ip := target }, none)
  | .ret =>
    if vm.callStack.length ≤ 1 then (vm, some .runtimeFault)
    else
      match vm.callStack with
      | [] => (vm, some .runtimeFault)
      | f :: rest =>
        let vm1 := { vm with callStack := rest }
        if f.returnIp > vm1.instructions.length then (vm1, some (.invalidJumpTarget f.returnIp))
        else ({ vm1 with ip := f.returnIp }, none)
  -- the source's `_ => Err(VreError::RuntimeFault)` catch-all: Jump, JumpIf,
  -- Mod, Neg, LessEqual, GreaterEqual and Nop have no arm in the VM dispatch
  | .jump => (vm, some .runtimeFault)
  | .jumpIf => (vm, some .runtimeFault)
  | .mod => (vm, some .runtimeFault)
  | .neg => (vm, some .runtimeFault)
  | .lessEqual => (vm, some .runtimeFault)
  | .greaterEqual => (vm, some .runtimeFault)
  | .nop => (vm, some .runtimeFault)

/-- `VirtualMachine::step`. -/
def VM.step (ops : NumOps) (vm : VM) : VM × Option VreError :=
  match vm.readU8 with
  | .error e => (vm, some e)
  | .ok (b, vm1) =>
    match OpCode.fromU8 b with
    | none => (vm1, some (.invalidOpcode b))
    | some op => VM.stepOp ops op vm1

/-- Outcome of a fuelled `execute()` run. -/
inductive ExecOutcome where
  | ok
  | err (e : VreError)
  | fuelOut
  deriving DecidableEq

/-- `VirtualMachine::execute`, fuelled: `while !halted && ip < len { step()? }`.
`.ok` corresponds to the source's `Ok(())`. -/
def VM.execN (ops : NumOps) : Nat → VM → VM × ExecOutcome
  | 0, vm =>
    if vm.halted = true ∨ vm.instructions.length ≤ vm.ip then (vm, .ok)
    else (vm, .fuelOut)
  | n + 1, vm =>
    if vm.halted = true ∨ vm.instructions.length ≤ vm.ip then (vm, .ok)
    else
      match VM.step ops vm with
      | (vm', none) => VM.execN ops n vm'
      | (vm', some e) => (vm', .err e)

/-! ## The bytecode loader (`loader/loader.rs`) -/
/-- Loader outcome: a source error, or fuel exhaustion of the model (the
source's loops have no fuel; `.noFuel` is never a source behaviour and all
theorems below treat it as a rejection). -/
inductive LoadErr where
  | vre (e : VreError)
  | noFuel
  deriving DecidableEq

/-- Lift a source error into a loader outcome. -/
def liftVre : Except VreError α → Except LoadErr α
  | .error e => .error (.vre e)
  | .ok a => .ok a

/-- The loader output bundle (`LoadedBytecode`). -/
structure LoadedBytecode where
  constants : List Value
  instructions : List Nat
  entryPoint : Nat
  caps : List Nat
  deriving DecidableEq

/-- Per-instruction metadata collected by the loader's first pass
(`InstrMeta`). -/
structure InstrMeta where
  offset : Nat
  opcode : OpCode
  immLen : Nat
  target : Option Nat
  deriving DecidableEq

namespace BytecodeLoader

/-- `BytecodeLoader::read_u8`. -/
def readU8 (bytes : List Nat) (cursor : Nat) : Except VreError (Nat × Nat) :=
  match bytes[cursor]? with
  | none => .error .bytecodeTooShort
  | some v => .ok (v, cursor + 1)

/-- `BytecodeLoader::read_u32` (big-endian). -/
def readU32 (bytes : List Nat) (cursor : Nat) : Except VreError (Nat × Nat) :=
  if cursor + 4 > bytes.length then .error .bytecodeTooShort
  else .ok (be32 bytes cursor, cursor + 4)

/-- Big-endian 64-bit value from eight bytes starting at `j`. -/
def be64 (bytes : List Nat) (j : Nat) : Nat :=
  (be32 bytes j) * 0x100000000 + be32 bytes (j + 4)

/-- `BytecodeLoader::read_f64`: the eight payload bytes, kept as a raw bit
pattern. -/
def readF64 (bytes : List Nat) (cursor : Nat) : Except VreError (Nat × Nat) :=
  if cursor + 8 > bytes.length then .error .bytecodeTooShort
  else .ok (be64 bytes cursor, cursor + 8)

/-- `BytecodeLoader::read_constant`. -/
def readConstant (bytes : List Nat) (cursor : Nat) : Except VreError (Value × Nat) := do
  let (tag, c1) ← readU8 bytes cursor
  match tag with
  | 0x00 => .ok (.null, c1)
  | 0x01 =>
    let (b, c2) ← readU8 bytes c1
    .ok (.bool (b != 0), c2)
  | 0x02 =>
    let (n, c2) ← readF64 bytes c1
    .ok (.num n, c2)
  | 0xFF =>
    let (id, c2) ← readU32 bytes c1
    .ok (.ref id, c2)
  | _ => .error .malformedBytecode

/-- The constant-reading loop of `load`. -/
def readConstants (bytes : List Nat) : Nat → Nat → Except VreError (List Value × Nat)
  | 0, cursor => .ok ([], cursor)
  | n + 1, cursor => do
    let (v, c1) ← readConstant bytes cursor
    let (vs, c2) ← readConstants bytes n c1
    .ok (v :: vs, c2)

/-- Everything `load` parses before the instruction analysis: magic, version,
reserved byte, entry point, constants, and the instruction slice.  The
lenient path of `load_with_opt_in` repeats exactly this sequence inline
(lines 477–498 of the source), so both call this definition. -/
structure ParsedTop where
  entryPoint : Nat
  constants : List Value
  instructions : List Nat
  deriving DecidableEq

/-- The shared header/constant/instruction parsing (see `ParsedTop`). -/
def parseTop (bytes : List Nat) : Except VreError ParsedTop := do
  let (magic, c1) ← readU32 bytes 0
  if magic ≠ 0x56594D41 then throw .invalidMagicNumber
  let (major, c2) ← readU8 bytes c1
  let (_minor, c3) ← readU8 bytes c2
  let (_patch, c4) ← readU8 bytes c3
  if major ≠ 1 then throw .invalidBytecodeVersion
  let (_reserved, c5) ← readU8 bytes c4
  let (entryPoint, c6) ← readU32 bytes c5
  let (constantCount, c7) ← readU32 bytes c6
  let (constants, c8) ← readConstants bytes constantCount c7
  let (instructionLen, c9) ← readU32 bytes c8
  if c9 + instructionLen > bytes.length then throw .bytecodeTooShort
  .ok { entryPoint := entryPoint, constants := constants,
        instructions := (bytes.drop c9).take instructionLen }

/-- Pass 1 of `analyze_instructions_cfg`: linear decode of the instruction
stream into `InstrMeta`s.  `idx` is the current offset; the fuel only bounds
the iteration count (each step consumes at least one byte, so
`instructions.length + 1` always suffices). -/
def decodeInstrsAux (instructions : List Nat) :
    Nat → Nat → Except LoadErr (List InstrMeta)
  | 0, _ => .error .noFuel
  | fuel + 1, idx =>
    match instructions[idx]? with
    | none => .ok []
    | some b =>
      match OpCode.fromU8 b with
      | none => .error (.vre .malformedBytecode)
      | some op =>
        match op with
        | .push | .loadLocal | .storeLocal =>
          if idx + 1 < instructions.length then
            match decodeInstrsAux instructions fuel (idx + 2) with
            | .error e => .error e
            | .ok rest => .ok (⟨idx, op, 1, none⟩ :: rest)
          else .error (.vre .malformedBytecode)
        | .externalCall =>
          if idx + 2 < instructions.length then
            match decodeInstrsAux instructions fuel (idx + 3) with
            | .error e => .error e
            | .ok rest => .ok (⟨idx, op, 2, none⟩ :: rest)
          else .error (.vre .malformedBytecode)
        | .jump | .jumpIf | .call =>
          if idx + 5 ≤ instructions.length then
            match decodeInstrsAux instructions fuel (idx + 5) with
            | .error e => .error e
            | .ok rest => .ok (⟨idx, op, 4, some (be32 instructions (idx + 1))⟩ :: rest)
          else .error (.vre .malformedBytecode)
        | _ =>
          match decodeInstrsAux instructions fuel (idx + 1) with
          | .error e => .error e
          | .ok rest => .ok (⟨idx, op, 0, none⟩ :: rest)

/-- Pass 1, from offset 0 with sufficient fuel. -/
def decodeInstrs (instructions : List Nat) : Except LoadErr (List InstrMeta) :=
  decodeInstrsAux instructions (instructions.length + 1) 0

/-- The `offset_to_idx` map: index of the instruction starting at offset `t`
(offsets are strictly increasing, so the first match is the only one). -/
def offIdx (metas : List InstrMeta) (t : Nat) : Option Nat :=
  match metas with
  | [] => none
  | m :: rest => if m.offset = t then some 0 else (offIdx rest t).map (· + 1)

/-- Pass 2: successors of instruction `i` (with metadata `m`).  The source
looks the fall-through offset `metas[i+1].offset` up in `offset_to_idx`,
which yields `i+1`. -/
def nodeSuccs (metas : List InstrMeta) (i : Nat) (m : InstrMeta) :
    Except VreError (List Nat) :=
  let ft : List Nat := if i + 1 < metas.length then [i + 1] else []
  match m.opcode with
  | .halt | .nop => .ok []
  | .jump =>
    match m.target with
    | none => .ok []
    | some t =>
      match offIdx metas t with
      | none => .error (.invalidJumpTarget t)
      | some ti => .ok [ti]
  | .call =>
    match m.target with
    | none => .ok []
    | some t =>
      match offIdx metas t with
      | none => .error (.invalidJumpTarget t)
      | some ti => .ok (ti :: ft)
  | .jumpIf =>
    match m.target with
    | none => .ok ft
    | some t =>
      match offIdx metas t with
      | none => .error (.invalidJumpTarget t)
      | some ti => .ok (ti :: ft)
  | .ret => .ok []
  | _ => .ok ft

/-- Pass 2, over all instructions from index `i`. -/
def buildSuccsFrom (metas : List InstrMeta) :
    Nat → List InstrMeta → Except VreError (List (List Nat))
  | _, [] => .ok []
  | i, m :: rest =>
    match nodeSuccs metas i m with
    | .error e => .error e
    | .ok s =>
      match buildSuccsFrom metas (i + 1) rest with
      | .error e => .error e
      | .ok ss => .ok (s :: ss)

/-- Pass 2, whole successor table. -/
def buildSuccs (metas : List InstrMeta) : Except VreError (List (List Nat)) :=
  buildSuccsFrom metas 0 metas

/-- The keys of the `call_targets` map: targets of Call instructions that
have a following instruction, in first-encounter order without duplicates
(the source's `HashSet` iteration order is not deterministic; no claim
depends on this order). -/
def callTargetOffsetsAux (metas : List InstrMeta) :
    Nat → List InstrMeta → List Nat → List Nat
  | _, [], acc => acc
  | i, m :: rest, acc =>
    let acc' :=
      match m.opcode, m.target with
      | .call, some t =>
        if i + 1 < metas.length then (if t ∈ acc then acc else acc ++ [t]) else acc
      | _, _ => acc
    callTargetOffsetsAux metas (i + 1) rest acc'

/-- The pending call-target set's initial contents. -/
def callTargetOffsets (metas : List InstrMeta) : List Nat :=
  callTargetOffsetsAux metas 0 metas []

/-- Summaries: association list from callee entry offset to net stack delta
(the source's `HashMap<usize, isize>`; keys are never overwritten). -/
def lookupSum : List (Nat × Int) → Nat → Option Int
  | [], _ => none
  | (k, v) :: rest, t => if k = t then some v else lookupSum rest t

/-- One successor update of the worklist dataflow: first visit stores the
height and enqueues; a revisit merges by minimum and re-enqueues on change. -/
def updateSucc (heights : List (Option Int)) (queue : List Nat) (nh : Int)
    (s : Nat) : List (Option Int) × List Nat :=
  match (heights[s]?).join with
  | none => (heights.set s (some nh), queue ++ [s])
  | some existing =>
    let merged := min existing nh
    if merged ≠ existing then (heights.set s (some merged), queue ++ [s])
    else (heights, queue)

/-- Propagate the new height `nh` to each successor in order. -/
def updateSuccs (nh : Int) : List Nat → List (Option Int) × List Nat →
    List (Option Int) × List Nat
  | [], st => st
  | s :: rest, (heights, queue) => updateSuccs nh rest (updateSucc heights queue nh s)

/-- The per-opcode effect of the callee-local dataflow (Pass 3, both the
normal and the fallback attempt — the fallback passes the pending snapshot
`pendSnap`, the normal pass passes `[]` so its intra-pending arm never
fires, mirroring the source's two copies that differ just there).
`none` = the attempt is *complex*; otherwise the new height and whether the
instruction is a Return (whose height is collected). -/
def localEffect (summaries : List (Nat × Int)) (pendSnap : List Nat)
    (m : InstrMeta) (h : Int) : Option (Int × Bool) :=
  match m.opcode with
  | .push => some (h + 1, false)
  | .pop => if h ≤ 0 then none else some (h - 1, false)
  | .dup => if h ≤ 0 then none else some (h + 1, false)
  | .loadLocal => some (h + 1, false)
  | .storeLocal => if h ≤ 0 then none else some (h - 1, false)
  | .add | .sub | .mul | .div | .mod
  | .equal | .notEqual | .less | .lessEqual | .greater | .greaterEqual =>
    if h < 2 then none else some (h - 1, false)
  | .externalCall => none
  | .call =>
    match m.target with
    | some t =>
      match lookupSum summaries t with
      | some d => some (h + d, false)
      | none => if t ∈ pendSnap then some (h, false) else none
    | none => none
  | .jump | .jumpIf => some (h, false)
  | .ret => some (h, true)
  | _ => some (h, false)

/-- Outcome of a callee-local dataflow attempt. -/
inductive LocalOut where
  | complexOut
  | okOut (returns : List Int) (heights : List (Option Int))
  | fuelGone
  deriving DecidableEq

/-- The callee-local breadth-first dataflow of Pass 3 (one attempt).  The
queue is the source's `VecDeque` (pop front, push back); `returns` collects
the heights observed at Return instructions. -/
def localFlow (metas : List InstrMeta) (succs : List (List Nat))
    (summaries : List (Nat × Int)) (pendSnap : List Nat) :
    Nat → List (Option Int) → List Nat → List Int → LocalOut
  | 0, _, _, _ => .fuelGone
  | fuel + 1, heights, queue, returns =>
    match queue with
    | [] => .okOut returns heights
    | j :: qrest =>
      match (heights[j]?).join, metas[j]? with
      | some h, some m =>
        match localEffect summaries pendSnap m h with
        | none => .complexOut
        | some (nh, isRet) =>
          let returns' := if isRet then returns ++ [nh] else returns
          let (heights', queue') := updateSuccs nh ((succs[j]?).getD []) (heights, qrest)
          localFlow metas succs summaries pendSnap fuel heights' queue' returns'
      | _, _ => .fuelGone

/-- One sweep over a snapshot of pending call targets: skip already
summarized targets and targets at no instruction boundary (removing them
from pending), run a local attempt for the rest, and record a summary when
at least one Return was reached, all at the same height, without a complex
marker.  Returns the updated summaries, pending set and progress flag. -/
def sweepAux (metas : List InstrMeta) (succs : List (List Nat)) (F : Nat)
    (pendForCalls : List Nat) :
    List Nat → List (Nat × Int) → List Nat → Bool →
    Option (List (Nat × Int) × List Nat × Bool)
  | [], sums, pend, prog => some (sums, pend, prog)
  | t :: ts, sums, pend, prog =>
    if (lookupSum sums t).isSome then
      sweepAux metas succs F pendForCalls ts sums (pend.erase t) prog
    else
      match offIdx metas t with
      | none => sweepAux metas succs F pendForCalls ts sums (pend.erase t) prog
      | some tIdx =>
        match localFlow metas succs sums pendForCalls F
            ((List.replicate metas.length (none : Option Int)).set tIdx (some 0))
            [tIdx] [] with
        | .fuelGone => none
        | .complexOut => sweepAux metas succs F pendForCalls ts sums pend prog
        | .okOut returns _ =>
          match returns with
          | [] => sweepAux metas succs F pendForCalls ts sums pend prog
          | r0 :: _ =>
            if returns.all (fun r => r == r0) then
              sweepAux metas succs F pendForCalls ts ((t, r0) :: sums) (pend.erase t) true
            else sweepAux metas succs F pendForCalls ts sums pend prog

/-- The inner fallback fixed point (`while progress2`): sweeps that treat
calls between pending targets as no net change, iterated until no new
summary is recorded. -/
def fbLoop (metas : List InstrMeta) (succs : List (List Nat)) (F : Nat) :
    Nat → List (Nat × Int) → List Nat → Option (List (Nat × Int) × List Nat)
  | 0, _, _ => none
  | n + 1, sums, pend =>
    match sweepAux metas succs F pend pend sums pend false with
    | none => none
    | some (sums', pend', prog) =>
      if prog then fbLoop metas succs F n sums' pend' else some (sums', pend')

/-- The outer fixed point (`while progress`): per iteration, snapshot the
pending set, run the fallback block (when pending is nonempty), then a
normal sweep (no intra-pending calls) over the snapshot. -/
def fixLoop (metas : List InstrMeta) (succs : List (List Nat)) (F : Nat) :
    Nat → List (Nat × Int) → List Nat → Option (List (Nat × Int) × List Nat)
  | 0, _, _ => none
  | n + 1, sums, pend =>
    let snap := pend
    match (if pend.isEmpty then some (sums, pend) else fbLoop metas succs F F sums pend) with
    | none => none
    | some (sums2, pend2) =>
      match sweepAux metas succs F [] snap sums2 pend2 false with
      | none => none
      | some (sums3, pend3, prog) =>
        if prog then fixLoop metas succs F n sums3 pend3 else some (sums3, pend3)

/-- The per-opcode effect of the global dataflow (Pass 4): may reject, and
for ExternalCall reads the capability id and argument count from the
instruction bytes, recording the id. -/
def globalEffect (summaries : List (Nat × Int)) (instructions : List Nat)
    (m : InstrMeta) (h : Int) : Except VreError (Int × Option Nat) :=
  match m.opcode with
  | .push => .ok (h + 1, none)
  | .pop => if h ≤ 0 then .error .malformedBytecode else .ok (h - 1, none)
  | .dup => if h ≤ 0 then .error .malformedBytecode else .ok (h + 1, none)
  | .loadLocal => .ok (h + 1, none)
  | .storeLocal => if h ≤ 0 then .error .malformedBytecode else .ok (h - 1, none)
  | .add | .sub | .mul | .div | .mod
  | .equal | .notEqual | .less | .lessEqual | .greater | .greaterEqual =>
    if h < 2 then .error .malformedBytecode else .ok (h - 1, none)
  | .externalCall =>
    if m.offset + 2 ≥ instructions.length then .error .malformedBytecode
    else
      let capId := (instructions[m.offset + 1]?).getD 0
      let argc : Int := ((instructions[m.offset + 2]?).getD 0 : Nat)
      if h < argc then .error .malformedBytecode
      else .ok (h - argc, some capId)
  | .call =>
    match m.target with
    | some t =>
      match lookupSum summaries t with
      | some d => .ok (h + d, none)
      | none => .error .malformedBytecode
    | none => .error .malformedBytecode
  | .jump | .jumpIf => .ok (h, none)
  | .ret => .ok (h, none)
  | _ => .ok (h, none)

/-- Outcome of the global dataflow. -/
inductive GlobalOut where
  | gerr (e : VreError)
  | gok (caps : List Nat) (heights : List (Option Int))
  | gfuel
  deriving DecidableEq

/-- Pass 4: the global worklist dataflow from instruction 0 at height 0. -/
def globalFlow (metas : List InstrMeta) (succs : List (List Nat))
    (summaries : List (Nat × Int)) (instructions : List Nat) :
    Nat → List (Option Int) → List Nat → List Nat → GlobalOut
  | 0, _, _, _ => .gfuel
  | fuel + 1, heights, queue, caps =>
    match queue with
    | [] => .gok caps heights
    | i :: qrest =>
      match (heights[i]?).join, metas[i]? with
      | some h, some m =>
        match globalEffect summaries instructions m h with
        | .error e => .gerr e
        | .ok (nh, capOpt) =>
          let caps' :=
            match capOpt with
            | some c => if c ∈ caps then caps else caps ++ [c]
            | none => caps
          let (heights', queue') := updateSuccs nh ((succs[i]?).getD []) (heights, qrest)
          globalFlow metas succs summaries instructions fuel heights' queue' caps'
      | _, _ => .gfuel

/-- `BytecodeLoader::analyze_instructions_cfg`: decode, successor map,
callee summarization, then the global dataflow; yields the referenced
capability ids. -/
def analyzeInstructionsCfg (F : Nat) (instructions : List Nat) :
    Except LoadErr (List Nat) :=
  match decodeInstrs instructions with
  | .error e => .error e
  | .ok metas =>
    match buildSuccs metas with
    | .error e => .error (.vre e)
    | .ok succs =>
      match fixLoop metas succs F F [] (callTargetOffsets metas) with
      | none => .error .noFuel
      | some (sums, _pend) =>
        if metas.isEmpty then .ok []
        else
          match globalFlow metas succs sums instructions F
              ((List.replicate metas.length (none : Option Int)).set 0 (some 0)) [0] [] with
          | .gerr e => .error (.vre e)
          | .gfuel => .error .noFuel
          | .gok caps _ => .ok caps

/-- `BytecodeLoader::load` (strict). -/
def load (F : Nat) (bytes : List Nat) : Except LoadErr LoadedBytecode :=
  if bytes.length < 16 then .error (.vre .bytecodeTooShort)
  else
    match parseTop bytes with
    | .error e => .error (.vre e)
    | .ok pt =>
      match analyzeInstructionsCfg F pt.instructions with
      | .error e => .error e
      | .ok caps =>
        .ok { constants := pt.constants, instructions := pt.instructions,
              entryPoint := pt.entryPoint, caps := caps }

/-- `BytecodeLoader::weak_scan_for_caps`: immediate-length and opcode checks
only, collecting ExternalCall capability ids. -/
def weakScanAux (instructions : List Nat) :
    Nat → Nat → List Nat → Except LoadErr (List Nat)
  | 0, _, _ => .error .noFuel
  | fuel + 1, idx, caps =>
    match instructions[idx]? with
    | none => .ok caps
    | some b =>
      match OpCode.fromU8 b with
      | none => .error (.vre .malformedBytecode)
      | some op =>
        match op with
        | .push | .loadLocal | .storeLocal =>
          if idx + 1 < instructions.length then weakScanAux instructions fuel (idx + 2) caps
          else .error (.vre .malformedBytecode)
        | .externalCall =>
          if idx + 2 < instructions.length then
            let capId := (instructions[idx + 1]?).getD 0
            weakScanAux instructions fuel (idx + 3)
              (if capId ∈ caps then caps else caps ++ [capId])
          else .error (.vre .malformedBytecode)
        | .jump | .jumpIf | .call =>
          if idx + 5 ≤ instructions.length then weakScanAux instructions fuel (idx + 5) caps
          else .error (.vre .malformedBytecode)
        | _ => weakScanAux instructions fuel (idx + 1) caps

/-- `weak_scan_for_caps` from offset 0 with sufficient fuel. -/
def weakScan (instructions : List Nat) : Except LoadErr (List Nat) :=
  weakScanAux instructions (instructions.length + 1) 0 []

/-- `BytecodeLoader::load_with_opt_in`: strict load, else (for any strict
error, when opted in) the lenient reparse that skips CFG construction and
dataflow. -/
def loadWithOptIn (F : Nat) (bytes : List Nat) (allowOptIn : Bool) :
    Except LoadErr (LoadedBytecode × Bool) :=
  match load F bytes with
  | .ok lb => .ok (lb, false)
  | .error e =>
    if allowOptIn then
      match parseTop bytes with
      | .error e2 => .error (.vre e2)
      | .ok pt =>
        match weakScan pt.instructions with
        | .error e2 => .error e2
        | .ok caps =>
          .ok ({ constants := pt.constants, instructions := pt.instructions,
                 entryPoint := pt.entryPoint, caps := caps }, true)
    else .error e

end BytecodeLoader

/-! ## Concrete programs used by the claim theorems -/
/-- The IEEE-754 bit pattern of 42.0. -/
def bits42 : Nat := 0x4045000000000000

/-- C8's scenario: constants `[Number 42.0]`, instructions
`01 00 11 00 FF`, zero globals, one local. -/
def c8Vm : VM :=
  VM.new { maxStackSize := 1024, maxLocals := 1, maxCallDepth := 256 }
    [Value.num bits42] [0x01, 0x00, 0x11, 0x00, 0xFF] 0

/-- A VM whose next instruction is Jump 0 (then Halt). -/
def c3Vm : VM := VM.new VreConfig.default [] [0x40, 0, 0, 0, 0, 0xFF] 0

/-- A second Jump-first VM (different target bytes) for the witness. -/
def c3Vm' : VM := VM.new VreConfig.default [] [0x40, 0, 0, 0, 2, 0xFF] 0

/-- A bytecode buffer with a valid header, entry point 2 and instructions
`Nop; Nop; Halt`. -/
def c4Bytes : List Nat :=
  [0x56, 0x59, 0x4D, 0x41, 1, 0, 0, 0, 0, 0, 0, 2, 0, 0, 0, 0,
   0, 0, 0, 3, 0xF0, 0xF0, 0xFF]

/-- The bundle the strict loader returns for `c4Bytes`. -/
def c4Bundle : LoadedBytecode :=
  (BytecodeLoader.load 100 c4Bytes).toOption.getD ⟨[], [], 0, []⟩

/-- A VM at maximum configured call depth (`max_call_depth = 1`, so the root
frame alone reaches it) whose next instruction is Call 0. -/
def c5Vm : VM :=
  VM.new { maxStackSize := 1024, maxLocals := 0, maxCallDepth := 1 } []
    [0x42, 0, 0, 0, 0, 0xFF] 0

/-- A VM whose next instruction is a Call with an out-of-range target. -/
def c10Vm : VM :=
  VM.new VreConfig.default [] [0x42, 0, 0, 0, 9, 0xFF] 0

/-- Push 42.0; StoreLocal 0; Pop — the Pop faults with StackUnderflow after
one LocalStore event was recorded. -/
def c7Vm : VM :=
  VM.new { maxStackSize := 1024, maxLocals := 1, maxCallDepth := 256 }
    [Value.num bits42] [0x01, 0x00, 0x11, 0x00, 0x02] 0

/-- The C2 program family: Push `c`; JumpIf 7; Pop; Halt (offset 7 is the
Pop), with an empty constant pool. -/
def c2Program (c : Nat) : List Nat :=
  [0x56, 0x59, 0x4D, 0x41, 1, 0, 0, 0, 0, 0, 0, 0, 0, 0, 0, 0,
   0, 0, 0, 9, 0x01, c, 0x41, 0, 0, 0, 7, 0x02, 0xFF]

/-- C9's witness buffer: valid header, no constants, a single Call whose
target 0xFFFFFFFF is not an instruction offset. -/
def c9Bytes : List Nat :=
  [0x56, 0x59, 0x4D, 0x41, 1, 0, 0, 0, 0, 0, 0, 0, 0, 0, 0, 0,
   0, 0, 0, 5, 0x42, 0xFF, 0xFF, 0xFF, 0xFF]

/-! ## Step anatomy: which parts of the state a step can touch -/
/-- `vm'` differs from `vm` at most in the operand stack and `ip`. -/
def Quiet (vm vm' : VM) : Prop :=
  vm' = { vm with stack := vm'.stack, ip := vm'.ip }

/-- What any single `stepOp` preserves: instructions, config and the
capability registry are untouched; events are only appended, and an appended
ExternalCallRequest's capability is granted; an error never changes
`halted`; the call stack never becomes empty. -/
def StepInv (vm : VM) (r : VM × Option VreError) : Prop :=
  r.1.instructions = vm.instructions ∧
  r.1.config = vm.config ∧
  r.1.capabilities = vm.capabilities ∧
  (∃ evs, r.1.stateChanges = vm.stateChanges ++ evs ∧
    ∀ cap args, StateChange.externalCallRequest cap args ∈ evs →
      cap ∈ vm.capabilities.granted) ∧
  (r.2.isSome = true → r.1.halted = vm.halted) ∧
  (r.1.callStack = [] → vm.callStack = [])

/-- What a whole (fuelled) `execute()` run preserves. -/
def ExecInv (vm : VM) (r : VM × ExecOutcome) : Prop :=
  r.1.instructions = vm.instructions ∧
  r.1.config = vm.config ∧
  r.1.capabilities = vm.capabilities ∧
  (∃ evs, r.1.stateChanges = vm.stateChanges ++ evs ∧
    ∀ cap args, StateChange.externalCallRequest cap args ∈ evs →
      cap ∈ vm.capabilities.granted) ∧
  (∀ e, r.2 = .err e → r.1.halted = false) ∧
  (vm.callStack ≠ [] → r.1.callStack ≠ [])

/-! ## C6: ExternalCall semantics and the capability gate -/
/-- A VM whose next instruction is `ExternalCall cap_id := 42, argc := 0`,
with capability 42 granted. -/
def c6Vm : VM :=
  (VM.new VreConfig.default [] [0xE0, 42, 0] 0).grantCapability 42

/-- Decidable equality for loader results (used by concrete evaluations). -/
instance {ε α : Type} [DecidableEq ε] [DecidableEq α] : DecidableEq (Except ε α) := fun a b =>
  match a, b with
  | .error x, .error y =>
    if h : x = y then .isTrue (by rw [h]) else .isFalse (by simp [h])
  | .error _, .ok _ => .isFalse (by simp)
  | .ok _, .error _ => .isFalse (by simp)
  | .ok x, .ok y =>
    if h : x = y then .isTrue (by rw [h]) else .isFalse (by simp [h])

/-! ## C1 infrastructure, part 1: what a successful decode guarantees -/
/-- Per-instruction well-formedness established by Pass-1 decoding: the
immediate length, bounds and (for jump-like opcodes) the recorded target. -/
def ImmOk (ins : List Nat) (m : InstrMeta) : Prop :=
  match m.opcode with
  | .push | .loadLocal | .storeLocal =>
    m.immLen = 1 ∧ m.offset + 1 < ins.length ∧ m.target = none
  | .externalCall =>
    m.immLen = 2 ∧ m.offset + 2 < ins.length ∧ m.target = none
  | .jump | .jumpIf | .call =>
    m.immLen = 4 ∧ m.offset + 5 ≤ ins.length ∧ m.target = some (be32 ins (m.offset + 1))
  | _ => m.immLen = 0 ∧ m.offset < ins.length ∧ m.target = none

/-- The decode loop's contract from offset `idx` on: metas tile the stream
contiguously, each starting with a valid opcode byte and well-formed
immediates, until the end of the stream. -/
def DecodedFrom (ins : List Nat) : Nat → List InstrMeta → Prop
  | idx, [] => ins.length ≤ idx
  | idx, m :: rest =>
    m.offset = idx ∧
    (∃ b, ins[idx]? = some b ∧ OpCode.fromU8 b = some m.opcode) ∧
    ImmOk ins m ∧
    DecodedFrom ins (idx + 1 + m.immLen) rest

/-- The per-index facts the runtime simulation needs about instruction `i`. -/
def MetaAt (ins : List Nat) (metas : List InstrMeta) (i : Nat) (m : InstrMeta) : Prop :=
  (∃ b, ins[m.offset]? = some b ∧ OpCode.fromU8 b = some m.opcode) ∧
  ImmOk ins m ∧
  m.offset + 1 + m.immLen ≤ ins.length ∧
  (∀ m', metas[i + 1]? = some m' → m'.offset = m.offset + 1 + m.immLen) ∧
  (metas[i + 1]? = none → m.offset + 1 + m.immLen = ins.length)

/-- The fall-through successor list the source builds. -/
def ftList (metas : List InstrMeta) (i : Nat) : List Nat :=
  if i + 1 < metas.length then [i + 1] else []

/-- Exact description of the successor list of instruction `i` (given its
target, for jump-like opcodes, is present — which decode guarantees). -/
def NodeSuccsSpec (metas : List InstrMeta) (i : Nat) (m : InstrMeta)
    (sl : List Nat) : Prop :=
  match m.opcode with
  | .halt | .nop | .ret => sl = []
  | .jump => ∃ t ti, m.target = some t ∧
      BytecodeLoader.offIdx metas t = some ti ∧ sl = [ti]
  | .jumpIf | .call => ∃ t ti, m.target = some t ∧
      BytecodeLoader.offIdx metas t = some ti ∧ sl = ti :: ftList metas i
  | _ => sl = ftList metas i

/-- What a successfully built successor table satisfies. -/
def SuccsOk (ins : List Nat) (metas : List InstrMeta)
    (succs : List (List Nat)) : Prop :=
  succs.length = metas.length ∧
  ∀ i m, metas[i]? = some m → ImmOk ins m →
    ∃ sl, succs[i]? = some sl ∧ NodeSuccsSpec metas i m sl

/-! ## C1 infrastructure, part 2: dataflow certificates -/
open BytecodeLoader

/-- The believed stack height the analysis records for node `j` (if any). -/
def certHt (H : List (Option Int)) (j : Nat) : Option Int := (H[j]?).join

/-- Every CFG successor of node `j` is believed at most `nh`. -/
def SuccsLe (succs : List (List Nat)) (H : List (Option Int)) (j : Nat)
    (nh : Int) : Prop :=
  ∀ s ∈ (succs[j]?).getD [], ∃ h', certHt H s = some h' ∧ h' ≤ nh

/-- A fixed point of one callee-local dataflow attempt: at every believed
node the local effect is defined and bounds every successor's belief. -/
def LocalCert (metas : List InstrMeta) (succs : List (List Nat))
    (sums : List (Nat × Int)) (snap : List Nat) (H : List (Option Int)) : Prop :=
  ∀ j h m, certHt H j = some h → metas[j]? = some m →
    ∃ nh isRet, localEffect sums snap m h = some (nh, isRet) ∧
      SuccsLe succs H j nh

/-- A fixed point of the global dataflow (Pass 4). -/
def GlobalCert (metas : List InstrMeta) (succs : List (List Nat))
    (sums : List (Nat × Int)) (ins : List Nat) (H : List (Option Int)) : Prop :=
  ∀ j h m, certHt H j = some h → metas[j]? = some m →
    ∃ nh cap, globalEffect sums ins m h = .ok (nh, cap) ∧
      SuccsLe succs H j nh

/-- Summary-map extension: recorded summaries are preserved with their
values (keys are never overwritten by the loader). -/
def SubSums (a b : List (Nat × Int)) : Prop :=
  ∀ t d, lookupSum a t = some d → lookupSum b t = some d

/-- The invariant carried through the callee-local worklist loop. -/
def LInv (metas : List InstrMeta) (succs : List (List Nat))
    (sums : List (Nat × Int)) (snap : List Nat)
    (H : List (Option Int)) (q : List Nat) (rets : List Int) : Prop :=
  H.length = metas.length ∧
  (∀ j h, certHt H j = some h → 0 ≤ h) ∧
  (∀ r ∈ rets, 0 ≤ r) ∧
  (∀ j h, certHt H j = some h → j ∈ q ∨
    ∃ m nh isRet, metas[j]? = some m ∧
      localEffect sums snap m h = some (nh, isRet) ∧ SuccsLe succs H j nh) ∧
  (∀ j h m, certHt H j = some h → metas[j]? = some m → m.opcode = .ret →
    j ∈ q ∨ h ∈ rets)

/-- The invariant carried through the global worklist loop. -/
def GInv (metas : List InstrMeta) (succs : List (List Nat))
    (sums : List (Nat × Int)) (ins : List Nat)
    (H : List (Option Int)) (q : List Nat) : Prop :=
  H.length = metas.length ∧
  (∀ j h, certHt H j = some h → j ∈ q ∨
    ∃ m nh cap, metas[j]? = some m ∧
      globalEffect sums ins m h = .ok (nh, cap) ∧ SuccsLe succs H j nh)

/-- Well-formedness of the summary map: every recorded summary is
nonnegative and certified by a terminated, single-height callee-local
dataflow attempt whose summary map at recording time embeds in the current
one. -/
def SumsWf (metas : List InstrMeta) (succs : List (List Nat))
    (sums : List (Nat × Int)) : Prop :=
  ∀ t d, lookupSum sums t = some d →
    0 ≤ d ∧
    ∃ rsums rsnap tIdx H,
      offIdx metas t = some tIdx ∧
      H.length = metas.length ∧
      LocalCert metas succs rsums rsnap H ∧
      (∀ j h, certHt H j = some h → 0 ≤ h) ∧
      (∀ j h m, certHt H j = some h → metas[j]? = some m → m.opcode = .ret →
        h = d) ∧
      (∃ h0, certHt H tIdx = some h0 ∧ h0 ≤ 0) ∧
      SubSums rsums sums

/-! ## C1 infrastructure, part 3: the runtime simulation argument -/
/-- Everything a successful load establishes about an instruction stream. -/
structure LoadCtx where
  ins : List Nat
  metas : List InstrMeta
  succs : List (List Nat)
  gsums : List (Nat × Int)
  Hg : List (Option Int)

/-- The loader's guarantees, bundled. -/
def LoadCtx.Ok (C : LoadCtx) : Prop :=
  DecodedFrom C.ins 0 C.metas ∧
  SuccsOk C.ins C.metas C.succs ∧
  SumsWf C.metas C.succs C.gsums ∧
  C.Hg.length = C.metas.length ∧
  GlobalCert C.metas C.succs C.gsums C.ins C.Hg ∧
  (∃ h0, certHt C.Hg 0 = some h0 ∧ h0 ≤ 0)

/-- One ghost analysis context for an active frame: a certified height
vector, the operand-stack length at the context's entry, and — for a
summarized callee — the summary value (`none` marks the root context). -/
structure Ctx where
  H : List (Option Int)
  base : Nat
  mode : Option Int

/-- Validity of one ghost context. -/
def CtxOk (C : LoadCtx) (c : Ctx) : Prop :=
  c.H.length = C.metas.length ∧
  match c.mode with
  | none => c.H = C.Hg ∧ c.base = 0
  | some d =>
    0 ≤ d ∧
    ∃ rsums rsnap,
      LocalCert C.metas C.succs rsums rsnap c.H ∧
      SubSums rsums C.gsums ∧
      (∀ j h m, certHt c.H j = some h → C.metas[j]? = some m →
        m.opcode = .ret → h = d) ∧
      (∀ j h, certHt c.H j = some h → 0 ≤ h)

/-- The return obligation recorded for a frame: its return ip either ends
the stream, or resumes the outer context at a believed, globally analyzed
node whose belief is covered by the callee's entry stack plus summary. -/
def RetLink (C : LoadCtx) (inner outer : Ctx) (d : Int) (r : Nat) : Prop :=
  r = C.ins.length ∨
  ∃ j' m' h', C.metas[j']? = some m' ∧ m'.offset = r ∧
    certHt outer.H j' = some h' ∧
    (outer.base : Int) + h' ≤ (inner.base : Int) + d ∧
    (∃ hg, certHt C.Hg j' = some hg)

/-- The ghost chain matching the call stack (innermost first): the root
context is global; each further level is a summarized callee whose frame
carries a valid return obligation into the enclosing context. -/
def Chain (C : LoadCtx) : List Ctx → List CallFrame → Prop
  | [c], [_] => CtxOk C c ∧ c.mode = none
  | c :: c2 :: cs, f :: fs =>
    CtxOk C c ∧ (∃ d, c.mode = some d ∧ RetLink C c c2 d f.returnIp) ∧
    Chain C (c2 :: cs) fs
  | _, _ => False

/-- The innermost context covers the current instruction pointer. -/
def Cur (C : LoadCtx) (c : Ctx) (vm : VM) : Prop :=
  ∃ j m h, C.metas[j]? = some m ∧ m.offset = vm.ip ∧
    certHt c.H j = some h ∧
    (c.base : Int) + h ≤ (vm.stack.values.length : Int) ∧
    (∃ hg, certHt C.Hg j = some hg)

/-- The simulation invariant: the loaded stream is installed, and the VM is
halted, past the end, or certified by a ghost chain whose innermost context
covers the current ip. -/
def SimInv (C : LoadCtx) (vm : VM) : Prop :=
  vm.instructions = C.ins ∧
  (vm.halted = true ∨ C.ins.length ≤ vm.ip ∨
    ∃ c cs, Chain C (c :: cs) vm.callStack ∧ Cur C c vm)

/-- What the innermost certificate promises about the current opcode: the
guards its effect implies, phrased per opcode. -/
def OpGuard (C : LoadCtx) (c : Ctx) (m : InstrMeta) (h nh : Int) : Prop :=
  match m.opcode with
  | .push | .loadLocal => nh = h + 1
  | .pop | .storeLocal => 1 ≤ h ∧ nh = h - 1
  | .dup => 1 ≤ h ∧ nh = h + 1
  | .add | .sub | .mul | .div | .mod
  | .equal | .notEqual | .less | .lessEqual | .greater | .greaterEqual =>
    2 ≤ h ∧ nh = h - 1
  | .externalCall =>
    c.mode = none ∧ m.offset + 2 < C.ins.length ∧
    (((C.ins[m.offset + 2]?).getD 0 : Nat) : Int) ≤ h ∧
    nh = h - (((C.ins[m.offset + 2]?).getD 0 : Nat) : Int)
  | .call => ∃ t D, m.target = some t ∧ lookupSum C.gsums t = some D ∧
      0 ≤ D ∧ nh ≤ h + D
  | .ret => nh = h ∧ (∀ d, c.mode = some d → h = d)
  | _ => nh = h

/-- The context shared by every per-opcode simulation step. -/
def AtNode (C : LoadCtx) (c : Ctx) (cs : List Ctx) (vm : VM) (j : Nat)
    (m : InstrMeta) (h : Int) : Prop :=
  vm.instructions = C.ins ∧
  Chain C (c :: cs) vm.callStack ∧
  C.metas[j]? = some m ∧
  m.offset = vm.ip ∧
  certHt c.H j = some h ∧
  (c.base : Int) + h ≤ (vm.stack.values.length : Int) ∧
  (∃ hg, certHt C.Hg j = some hg)

/-- A minimal strictly accepted buffer: empty constant pool, one Halt. -/
def c1Bytes : List Nat :=
  [0x56, 0x59, 0x4D, 0x41, 1, 0, 0, 0, 0, 0, 0, 0, 0, 0, 0, 0, 0, 0, 0, 1,
   0xFF]

def c1Lb : LoadedBytecode :=
  { constants := [], instructions := [0xFF], entryPoint := 0, caps := [] }

/-! ## Helper lemmas about the VM's immediate reads -/
theorem VM.readU8_ok (vm : VM) {b : Nat} (h : vm.instructions[vm.ip]? = some b) :
    vm.readU8 = .ok (b, { vm with ip := vm.ip + 1 }) := by
  unfold VM.readU8
  rw [h]

theorem VM.readU32_ok (vm : VM) (h : vm.ip + 4 ≤ vm.instructions.length) :
    vm.readU32 = .ok (be32 vm.instructions vm.ip, { vm with ip := vm.ip + 4 }) := by
  unfold VM.readU32
  rw [if_neg (by omega)]

/-- One step at a known opcode byte dispatches to `stepOp` past the byte. -/
theorem VM.step_eq (ops : NumOps) (vm : VM) {b : Nat} {op : OpCode}
    (hb : vm.instructions[vm.ip]? = some b) (hop : OpCode.fromU8 b = some op) :
    VM.step ops vm = VM.stepOp ops op { vm with ip := vm.ip + 1 } := by
  unfold VM.step
  rw [VM.readU8_ok vm hb]
  show (match OpCode.fromU8 b with
    | none => ({ vm with ip := vm.ip + 1 }, some (VreError.invalidOpcode b))
    | some op => VM.stepOp ops op { vm with ip := vm.ip + 1 }) = _
  rw [hop]

theorem Quiet.refl (vm : VM) : Quiet vm vm := rfl

theorem Quiet.trans {a b c : VM} (h1 : Quiet a b) (h2 : Quiet b c) : Quiet a c := by
  unfold Quiet at *
  rw [h2, h1]

theorem Quiet.of_stack (vm : VM) (s : Stack) : Quiet vm { vm with stack := s } := rfl

theorem readU8_quiet {vm : VM} {b : Nat} {vm' : VM} (h : vm.readU8 = .ok (b, vm')) :
    Quiet vm vm' := by
  unfold VM.readU8 at h
  split at h
  · exact absurd h (by simp)
  · injection h with h'
    injection h' with hb hvm
    rw [← hvm]
    rfl

theorem readU32_quiet {vm : VM} {t : Nat} {vm' : VM} (h : vm.readU32 = .ok (t, vm')) :
    Quiet vm vm' := by
  unfold VM.readU32 at h
  split at h
  · exact absurd h (by simp)
  · injection h with h'
    injection h' with hb hvm
    rw [← hvm]
    rfl

theorem popNumber_quiet (vm : VM) : Quiet vm vm.popNumber.1 := by
  unfold VM.popNumber
  split
  · exact .refl vm
  next v s' h =>
    split
    · exact .of_stack vm s'
    · exact .of_stack vm s'

theorem popNumber_pair_quiet {vm vm' : VM} {r : Except VreError Nat}
    (h : vm.popNumber = (vm', r)) : Quiet vm vm' := by
  have := popNumber_quiet vm
  rw [h] at this
  exact this

theorem binaryNumeric_quiet (vm : VM) (f : Nat → Nat → Nat) :
    Quiet vm (vm.binaryNumeric f).1 := by
  unfold VM.binaryNumeric
  split
  next vm1 e h1 => exact popNumber_pair_quiet h1
  next vm1 b h1 =>
    have q1 : Quiet vm vm1 := popNumber_pair_quiet h1
    split
    next vm2 e h2 => exact q1.trans (popNumber_pair_quiet h2)
    next vm2 a h2 =>
      have q2 : Quiet vm vm2 := q1.trans (popNumber_pair_quiet h2)
      split
      · exact q2
      · exact q2.trans (.of_stack vm2 _)

theorem compare_quiet (vm : VM) (f : Nat → Nat → Bool) :
    Quiet vm (vm.compare f).1 := by
  unfold VM.compare
  split
  next vm1 e h1 => exact popNumber_pair_quiet h1
  next vm1 b h1 =>
    have q1 : Quiet vm vm1 := popNumber_pair_quiet h1
    split
    next vm2 e h2 => exact q1.trans (popNumber_pair_quiet h2)
    next vm2 a h2 =>
      have q2 : Quiet vm vm2 := q1.trans (popNumber_pair_quiet h2)
      split
      · exact q2
      · exact q2.trans (.of_stack vm2 _)

theorem popArgs_quiet (n : Nat) (vm : VM) (acc : List Value) :
    Quiet vm (VM.popArgs n vm acc).1 := by
  induction n generalizing vm acc with
  | zero => exact .refl vm
  | succ k ih =>
    unfold VM.popArgs
    split
    · exact .refl vm
    next v s' h =>
      exact (Quiet.of_stack vm s').trans (ih { vm with stack := s' } (acc ++ [v]))

theorem popArgs_pair_quiet {n : Nat} {vm : VM} {acc : List Value} {vm' : VM}
    {r : Except VreError (List Value)} (h : VM.popArgs n vm acc = (vm', r)) :
    Quiet vm vm' := by
  have := popArgs_quiet n vm acc
  rw [h] at this
  exact this

theorem stepInv_of_quiet {vm vm' : VM} (h : Quiet vm vm') (e : Option VreError) :
    StepInv vm (vm', e) := by
  rw [h]
  exact ⟨rfl, rfl, rfl, ⟨[], by simp, by simp⟩, fun _ => rfl, fun hc => hc⟩

theorem VM.stepOp_inv (ops : NumOps) (op : OpCode) (vm : VM) :
    StepInv vm (VM.stepOp ops op vm) := by
  cases op with
  | halt =>
    exact ⟨rfl, rfl, rfl, ⟨[], by simp [VM.stepOp], by simp⟩, by simp [VM.stepOp], fun hc => hc⟩
  | push =>
    simp only [VM.stepOp]
    split
    · exact stepInv_of_quiet (.refl vm) _
    next index vm1 h1 =>
      have q1 : Quiet vm vm1 := readU8_quiet h1
      split
      · exact stepInv_of_quiet q1 _
      next v h2 =>
        split
        · exact stepInv_of_quiet q1 _
        next s' h3 => exact stepInv_of_quiet (q1.trans (.of_stack vm1 s')) _
  | pop =>
    simp only [VM.stepOp]
    split
    · exact stepInv_of_quiet (.refl vm) _
    next v s' h => exact stepInv_of_quiet (.of_stack vm s') _
  | dup =>
    simp only [VM.stepOp]
    split
    · exact stepInv_of_quiet (.refl vm) _
    next s' h => exact stepInv_of_quiet (.of_stack vm s') _
  | loadLocal =>
    simp only [VM.stepOp]
    split
    · exact stepInv_of_quiet (.refl vm) _
    next index vm1 h1 =>
      have q1 : Quiet vm vm1 := readU8_quiet h1
      split
      · exact stepInv_of_quiet q1 _
      next f tail h2 =>
        split
        · exact stepInv_of_quiet q1 _
        next v h3 =>
          split
          · exact stepInv_of_quiet q1 _
          next s' h4 => exact stepInv_of_quiet (q1.trans (.of_stack vm1 s')) _
  | storeLocal =>
    simp only [VM.stepOp]
    split
    · exact stepInv_of_quiet (.refl vm) _
    next index vm1 h1 =>
      have q1 : Quiet vm vm1 := readU8_quiet h1
      split
      · exact stepInv_of_quiet q1 _
      next v s' h2 =>
        have q2 : Quiet vm { vm1 with stack := s' } := q1.trans (.of_stack vm1 s')
        split
        · exact stepInv_of_quiet q2 _
        next f rest h3 =>
          split
          · exact stepInv_of_quiet q2 _
          next l' h4 =>
            rw [show vm1 = _ from q1]
            refine ⟨rfl, rfl, rfl, ⟨[.localStore index v], by simp, ?_⟩, by simp, by simp⟩
            intro cap args hmem
            simp at hmem
  | add => exact stepInv_of_quiet (binaryNumeric_quiet vm ops.add) _
  | sub => exact stepInv_of_quiet (binaryNumeric_quiet vm ops.sub) _
  | mul => exact stepInv_of_quiet (binaryNumeric_quiet vm ops.mul) _
  | div =>
    simp only [VM.stepOp]
    split
    next vm1 e h1 => exact stepInv_of_quiet (popNumber_pair_quiet h1) _
    next vm1 b h1 =>
      have q1 : Quiet vm vm1 := popNumber_pair_quiet h1
      split
      · exact stepInv_of_quiet q1 _
      · split
        next vm2 e h2 => exact stepInv_of_quiet (q1.trans (popNumber_pair_quiet h2)) _
        next vm2 a h2 =>
          have q2 : Quiet vm vm2 := q1.trans (popNumber_pair_quiet h2)
          split
          · exact stepInv_of_quiet q2 _
          next s' h3 => exact stepInv_of_quiet (q2.trans (.of_stack vm2 s')) _
  | equal => exact stepInv_of_quiet (compare_quiet vm ops.beq) _
  | notEqual => exact stepInv_of_quiet (compare_quiet vm ops.bne) _
  | less => exact stepInv_of_quiet (compare_quiet vm ops.blt) _
  | greater => exact stepInv_of_quiet (compare_quiet vm ops.bgt) _
  | externalCall =>
    simp only [VM.stepOp]
    split
    · exact stepInv_of_quiet (.refl vm) _
    next capId vm1 h1 =>
      have q1 : Quiet vm vm1 := readU8_quiet h1
      split
      · exact stepInv_of_quiet q1 _
      next argc vm2 h2 =>
        have q2 : Quiet vm vm2 := q1.trans (readU8_quiet h2)
        split
        next vm3 e h3 => exact stepInv_of_quiet (q2.trans (popArgs_pair_quiet h3)) _
        next vm3 collected h3 =>
          have q3 : Quiet vm vm3 := q2.trans (popArgs_pair_quiet h3)
          split
          next e h4 => exact stepInv_of_quiet q3 _
          next h4 =>
            have hgrant : capId ∈ vm.capabilities.granted := by
              have hcaps : vm3.capabilities = vm.capabilities := by rw [q3]
              unfold CapabilityRegistry.check at h4
              rw [hcaps] at h4
              split at h4
              · assumption
              · exact absurd h4 (by simp)
            rw [show vm3 = _ from q3]
            refine ⟨rfl, rfl, rfl,
              ⟨[.externalCallRequest capId collected.reverse], by simp, ?_⟩, by simp, by simp⟩
            intro cap args hmem
            simp at hmem
            rw [hmem.1]
            exact hgrant
  | call =>
    simp only [VM.stepOp]
    split
    · exact stepInv_of_quiet (.refl vm) _
    next target vm1 h1 =>
      have q1 : Quiet vm vm1 := readU32_quiet h1
      split
      next hlen =>
        rw [show vm1 = _ from q1]
        exact ⟨rfl, rfl, rfl, ⟨[], by simp, by simp⟩, fun _ => rfl, by simp⟩
      next hlen =>
        rw [show vm1 = _ from q1]
        exact ⟨rfl, rfl, rfl, ⟨[], by simp, by simp⟩, by simp, by simp⟩
  | ret =>
    simp only [VM.stepOp]
    split
    next hd => exact stepInv_of_quiet (.refl vm) _
    next hd =>
      split
      · exact stepInv_of_quiet (.refl vm) _
      next f rest hc =>
        have hrest : rest ≠ [] := by
          intro hr
          rw [hc, hr] at hd
          simp at hd
        split
        next hret =>
          refine ⟨rfl, rfl, rfl, ⟨[], by simp, by simp⟩, fun _ => rfl, fun hre => absurd hre hrest⟩
        next hret =>
          refine ⟨rfl, rfl, rfl, ⟨[], by simp, by simp⟩, by simp, fun hre => absurd hre hrest⟩
  | jump => exact stepInv_of_quiet (.refl vm) _
  | jumpIf => exact stepInv_of_quiet (.refl vm) _
  | mod => exact stepInv_of_quiet (.refl vm) _
  | neg => exact stepInv_of_quiet (.refl vm) _
  | lessEqual => exact stepInv_of_quiet (.refl vm) _
  | greaterEqual => exact stepInv_of_quiet (.refl vm) _
  | nop => exact stepInv_of_quiet (.refl vm) _

/-- Composition: a quiet prefix does not disturb `StepInv`. -/
theorem stepInv_comp {vm vm1 : VM} {r : VM × Option VreError}
    (q : Quiet vm vm1) (h : StepInv vm1 r) : StepInv vm r := by
  obtain ⟨hi, hc, hcap, ⟨evs, hevs, hgr⟩, hh, hcs⟩ := h
  have e1 : vm1.instructions = vm.instructions := by rw [q]
  have e2 : vm1.config = vm.config := by rw [q]
  have e3 : vm1.capabilities = vm.capabilities := by rw [q]
  have e4 : vm1.stateChanges = vm.stateChanges := by rw [q]
  have e5 : vm1.halted = vm.halted := by rw [q]
  have e6 : vm1.callStack = vm.callStack := by rw [q]
  refine ⟨by rw [hi, e1], by rw [hc, e2], by rw [hcap, e3],
    ⟨evs, by rw [hevs, e4], fun cap args hm => ?_⟩,
    fun hs => by rw [hh hs, e5], fun hcs' => by rw [← e6]; exact hcs hcs'⟩
  have := hgr cap args hm
  rw [e3] at this
  exact this

theorem VM.step_inv (ops : NumOps) (vm : VM) : StepInv vm (VM.step ops vm) := by
  unfold VM.step
  split
  · exact stepInv_of_quiet (.refl vm) _
  next b vm1 h1 =>
    have q1 : Quiet vm vm1 := readU8_quiet h1
    split
    · exact stepInv_of_quiet q1 _
    next op h2 => exact stepInv_comp q1 (VM.stepOp_inv ops op vm1)

theorem execInv_stop (vm : VM) (o : ExecOutcome) (ho : ∀ e, o ≠ .err e) :
    ExecInv vm (vm, o) :=
  ⟨rfl, rfl, rfl, ⟨[], by simp, by simp⟩, fun e he => absurd he (ho e), fun h => h⟩

theorem VM.execN_inv (ops : NumOps) (n : Nat) (vm : VM) :
    ExecInv vm (VM.execN ops n vm) := by
  induction n generalizing vm with
  | zero =>
    unfold VM.execN
    split
    · exact execInv_stop vm .ok (by intro e he; cases he)
    · exact execInv_stop vm .fuelOut (by intro e he; cases he)
  | succ k ih =>
    unfold VM.execN
    split
    · exact execInv_stop vm .ok (by intro e he; cases he)
    next hrun =>
      have hhalt : vm.halted = false := by
        cases hb : vm.halted
        · rfl
        · exact absurd (Or.inl hb) hrun
      split
      next vm' hstep =>
        have hs : StepInv vm (vm', none) := by
          have := VM.step_inv ops vm
          rw [hstep] at this
          exact this
        obtain ⟨hi, hc, hcap, ⟨evs1, hevs1, hgr1⟩, _, hcs⟩ := hs
        obtain ⟨hi', hc', hcap', ⟨evs2, hevs2, hgr2⟩, hh', hcs'⟩ := ih vm'
        refine ⟨by rw [hi', hi], by rw [hc', hc], by rw [hcap', hcap],
          ⟨evs1 ++ evs2, by rw [hevs2, hevs1, List.append_assoc], fun cap args hm => ?_⟩,
          hh', fun hne => hcs' (fun hnil => hne (hcs hnil))⟩
        rcases List.mem_append.mp hm with hm1 | hm2
        · exact hgr1 cap args hm1
        · have := hgr2 cap args hm2
          rw [hcap] at this
          exact this
      next vm' e hstep =>
        have hs : StepInv vm (vm', some e) := by
          have := VM.step_inv ops vm
          rw [hstep] at this
          exact this
        obtain ⟨hi, hc, hcap, hev, hh, hcs⟩ := hs
        refine ⟨hi, hc, hcap, hev, fun e' he' => ?_, fun hne hnil => hne (hcs hnil)⟩
        rw [hh (by simp), hhalt]

/-! ## Argument collection for ExternalCall -/
theorem popArgs_ok (n : Nat) (vm : VM) (acc : List Value)
    (h : n ≤ vm.stack.values.length) :
    VM.popArgs n vm acc =
      ({ vm with stack := { vm.stack with values := vm.stack.values.drop n } },
        .ok (acc ++ vm.stack.values.take n)) := by
  induction n generalizing vm acc with
  | zero =>
    unfold VM.popArgs
    simp
  | succ k ih =>
    unfold VM.popArgs
    rcases hv : vm.stack.values with _ | ⟨v, rest⟩
    · rw [hv] at h
      simp at h
    · have hpop : vm.stack.pop = .ok (v, { vm.stack with values := rest }) := by
        unfold Stack.pop
        rw [hv]
      rw [hpop]
      have hk : k ≤ rest.length := by
        rw [hv] at h
        simpa using h
      refine (ih { vm with stack := { vm.stack with values := rest } } (acc ++ [v]) hk).trans ?_
      simp [hv]

theorem popArgs_underflow (n : Nat) (vm : VM) (acc : List Value)
    (h : vm.stack.values.length < n) :
    (VM.popArgs n vm acc).2 = .error .stackUnderflow := by
  induction n generalizing vm acc with
  | zero => simp at h
  | succ k ih =>
    unfold VM.popArgs
    rcases hv : vm.stack.values with _ | ⟨v, rest⟩
    · have hpop : vm.stack.pop = .error .stackUnderflow := by
        unfold Stack.pop
        rw [hv]
      rw [hpop]
    · have hpop : vm.stack.pop = .ok (v, { vm.stack with values := rest }) := by
        unfold Stack.pop
        rw [hv]
      rw [hpop]
      refine ih { vm with stack := { vm.stack with values := rest } } (acc ++ [v]) ?_
      rw [hv] at h
      simpa using h

/-! ## C4: `VirtualMachine::new` and the entry point -/
/-- C4 counterexample: a strictly loaded bundle with `entry_point = 2`, yet
`VirtualMachine::new` (which takes no entry point) initializes `ip = 0`, so
execution does not begin at the bundle's nonzero entry point. -/
theorem c4_counterexample :
    BytecodeLoader.load 100 c4Bytes = .ok c4Bundle ∧
    c4Bundle.entryPoint = 2 ∧
    (VM.new VreConfig.default c4Bundle.constants c4Bundle.instructions 0).ip = 0 ∧
    (VM.new VreConfig.default c4Bundle.constants c4Bundle.instructions 0).ip ≠
      c4Bundle.entryPoint := by
  refine ⟨rfl, rfl, rfl, by decide⟩

/-- C4 (amended): `VirtualMachine::new` ignores the bundle's entry point and
always initializes `ip = 0`, together with an empty operand stack, a single
root frame with fresh locals, `halted = false` and an empty state-change
buffer. -/
theorem c4_new_initial_state (cfg : VreConfig) (consts : List Value)
    (instrs : List Nat) (g : Nat) :
    (VM.new cfg consts instrs g).ip = 0 ∧
    (VM.new cfg consts instrs g).stack.values = [] ∧
    (VM.new cfg consts instrs g).stack.maxSize = cfg.maxStackSize ∧
    (VM.new cfg consts instrs g).callStack =
      [{ returnIp := 0, locals := Locals.new cfg.maxLocals }] ∧
    (VM.new cfg consts instrs g).halted = false ∧
    (VM.new cfg consts instrs g).stateChanges = [] :=
  ⟨rfl, rfl, rfl, rfl, rfl, rfl⟩

/-! ## C3: the Jump opcode in the VM dispatch -/
/-- C3 counterexample: at a state whose next opcode byte is Jump (0x40) with
in-stream target 0, a single step returns RuntimeFault (Jump has no arm in
the VM dispatch) instead of setting `ip` to the target. -/
theorem c3_counterexample :
    VM.step arbNumOps c3Vm = ({ c3Vm with ip := 1 }, some .runtimeFault) := rfl

/-- C3 (amended): whenever the next opcode byte is Jump (0x40), `step`
returns RuntimeFault, advancing `ip` by exactly the opcode byte and leaving
everything else (stack, call stack, events) unchanged: Jump is unimplemented
in this VM's dispatch. -/
theorem c3_jump_runtime_fault (ops : NumOps) (vm : VM)
    (h : vm.instructions[vm.ip]? = some 0x40) :
    VM.step ops vm = ({ vm with ip := vm.ip + 1 }, some .runtimeFault) := by
  rw [VM.step_eq ops vm h rfl]
  rfl

/-- C3 witness: the amended theorem at a concrete machine. -/
theorem c3_witness :
    VM.step arbNumOps c3Vm' = ({ c3Vm' with ip := 1 }, some .runtimeFault) :=
  c3_jump_runtime_fault arbNumOps c3Vm' rfl

/-! ## C10: Call with out-of-bounds target is not atomic -/
/-- C10: a Call whose 4-byte big-endian target is out of bounds returns
InvalidJumpTarget(target), but only after pushing the new call frame (with
`return_ip` past the immediates) and advancing `ip` past the immediates: the
error is not atomic with respect to the call stack. -/
theorem c10_call_error_not_atomic (ops : NumOps) (vm : VM) (t : Nat)
    (hb : vm.instructions[vm.ip]? = some 0x42)
    (hlen : vm.ip + 5 ≤ vm.instructions.length)
    (ht : t = be32 vm.instructions (vm.ip + 1))
    (hout : vm.instructions.length ≤ t) :
    VM.step ops vm =
      ({ vm with
          ip := vm.ip + 5
          callStack :=
            { returnIp := vm.ip + 5, locals := Locals.new vm.config.maxLocals }
              :: vm.callStack }, some (.invalidJumpTarget t)) := by
  rw [VM.step_eq ops vm hb rfl]
  show VM.stepOp ops .call { vm with ip := vm.ip + 1 } = _
  unfold VM.stepOp
  rw [VM.readU32_ok { vm with ip := vm.ip + 1 } (by simp; omega)]
  show (if be32 vm.instructions (vm.ip + 1) ≥ vm.instructions.length then _ else _) = _
  rw [if_pos (show be32 vm.instructions (vm.ip + 1) ≥ vm.instructions.length from ht ▸ hout)]
  subst ht
  rfl

/-- C10 witness: the theorem at a concrete machine (instructions of length 6,
Call target 9). -/
theorem c10_witness :
    VM.step arbNumOps c10Vm =
      ({ c10Vm with
          ip := 5
          callStack :=
            { returnIp := 5, locals := Locals.new c10Vm.config.maxLocals }
              :: c10Vm.callStack }, some (.invalidJumpTarget 9)) :=
  c10_call_error_not_atomic arbNumOps c10Vm 9 rfl (by decide) (by decide) (by decide)

/-! ## C8: StoreLocal records a LocalStore event -/
/-- C8: with constant pool `[Number 42.0]` and instructions
`01 00 11 00 FF`, execution succeeds, the VM is halted, and draining the
state changes yields exactly `[LocalStore { index := 0, value := Number 42.0 }]`
(for every instantiation of the abstract float operations). -/
theorem c8_store_local_event (ops : NumOps) :
    (VM.execN ops 10 c8Vm).2 = .ok ∧
    (VM.execN ops 10 c8Vm).1.halted = true ∧
    ((VM.execN ops 10 c8Vm).1.drainStateChanges).1 =
      [StateChange.localStore 0 (Value.num bits42)] :=
  ⟨rfl, rfl, rfl⟩

/-! ## C5: Call and the configured maximum call depth -/
/-- C5 counterexample: with `max_call_depth = 1` and the call stack already
holding one frame (= the maximum), the next Call does *not* return
StackOverflow — it succeeds and pushes a second frame. -/
theorem c5_counterexample :
    c5Vm.callStack.length = c5Vm.config.maxCallDepth ∧
    (VM.step arbNumOps c5Vm).2 = none ∧
    (VM.step arbNumOps c5Vm).1.callStack.length = 2 := ⟨rfl, rfl, rfl⟩

/-- C5 (amended): the Call arm performs no call-depth check at all — at any
depth, a Call with an in-range target succeeds and pushes a new frame (so
the depth may exceed `max_call_depth` and Call never returns StackOverflow);
the call stack does, however, never become empty during execution (depth
stays at least 1). -/
theorem c5_call_unchecked_depth (ops : NumOps) :
    (∀ vm t, vm.instructions[vm.ip]? = some 0x42 →
      vm.ip + 5 ≤ vm.instructions.length →
      t = be32 vm.instructions (vm.ip + 1) →
      t < vm.instructions.length →
      VM.step ops vm =
        ({ vm with
            ip := t
            callStack :=
              { returnIp := vm.ip + 5, locals := Locals.new vm.config.maxLocals }
                :: vm.callStack }, none)) ∧
    (∀ n vm, vm.callStack ≠ [] → (VM.execN ops n vm).1.callStack ≠ []) := by
  constructor
  · intro vm t hb hlen ht hin
    rw [VM.step_eq ops vm hb rfl]
    show VM.stepOp ops .call { vm with ip := vm.ip + 1 } = _
    unfold VM.stepOp
    rw [VM.readU32_ok { vm with ip := vm.ip + 1 } (by simp; omega)]
    show (if be32 vm.instructions (vm.ip + 1) ≥ vm.instructions.length then _ else _) = _
    rw [if_neg (by omega)]
    subst ht
    rfl
  · intro n vm hne
    exact (VM.execN_inv ops n vm).2.2.2.2.2 hne

/-- C5 witness: the first part of the amended theorem at a concrete machine
(the `c5Vm` of the counterexample, whose Call target is 0). -/
theorem c5_witness :
    VM.step arbNumOps c5Vm =
      ({ c5Vm with
          ip := 0
          callStack :=
            { returnIp := 5, locals := Locals.new c5Vm.config.maxLocals }
              :: c5Vm.callStack }, none) :=
  (c5_call_unchecked_depth arbNumOps).1 c5Vm 0 rfl (by decide) (by decide) (by decide)

/-! ## C7: errors, `halted`, and the event buffer -/
/-- C7 counterexample: `Push 42.0; StoreLocal 0; Pop` faults with
StackUnderflow; the event recorded before the fault is preserved (drain still
returns it), but the VM is *not* left halted: `halted = false`. -/
theorem c7_counterexample :
    (VM.execN arbNumOps 10 c7Vm).2 = .err .stackUnderflow ∧
    (VM.execN arbNumOps 10 c7Vm).1.halted = false ∧
    ((VM.execN arbNumOps 10 c7Vm).1.drainStateChanges).1 =
      [StateChange.localStore 0 (Value.num bits42)] := ⟨rfl, rfl, rfl⟩

/-- C7 (amended): every error aborts `execute()` with the event buffer
recorded up to the fault preserved (the state changes are only ever
appended, so a later drain returns everything recorded before the error),
but the VM is left with `halted = false`, not in a halted state. -/
theorem c7_error_preserves_events (ops : NumOps) (n : Nat) (vm vm' : VM)
    (e : VreError) (h : VM.execN ops n vm = (vm', .err e)) :
    vm'.halted = false ∧ ∃ evs, vm'.stateChanges = vm.stateChanges ++ evs := by
  have hi := VM.execN_inv ops n vm
  rw [h] at hi
  obtain ⟨_, _, _, ⟨evs, hevs, _⟩, hh, _⟩ := hi
  exact ⟨hh e rfl, ⟨evs, hevs⟩⟩

/-- C7 witness: the amended theorem at a single-Pop program. -/
theorem c7_witness :
    (VM.execN arbNumOps 5 (VM.new VreConfig.default [] [0x02] 0)).1.halted = false ∧
    ∃ evs, (VM.execN arbNumOps 5 (VM.new VreConfig.default [] [0x02] 0)).1.stateChanges =
      (VM.new VreConfig.default [] [0x02] 0).stateChanges ++ evs :=
  c7_error_preserves_events arbNumOps 5 _ _ .stackUnderflow rfl

/-- C6: ExternalCall pops `argc` values (StackUnderflow when fewer are
stacked), reverses them into argument order, then performs the
fail-closed capability check (CapabilityDenied without recording an event
or halting when the id is not granted); only after the check succeeds is an
ExternalCallRequest appended and `halted` set, and no result is pushed.
Moreover, over any run: the registry is never changed by execution, and
every ExternalCallRequest in the log either predates the run or names a
granted capability — i.e. it was preceded by a successful check. -/
theorem c6_external_call (ops : NumOps) :
    (∀ vm cap argc, vm.instructions[vm.ip]? = some externalCallByte →
      vm.instructions[vm.ip + 1]? = some cap →
      vm.instructions[vm.ip + 2]? = some argc →
      vm.stack.values.length < argc →
      (VM.step ops vm).2 = some .stackUnderflow) ∧
    (∀ vm cap argc, vm.instructions[vm.ip]? = some externalCallByte →
      vm.instructions[vm.ip + 1]? = some cap →
      vm.instructions[vm.ip + 2]? = some argc →
      argc ≤ vm.stack.values.length →
      cap ∉ vm.capabilities.granted →
      VM.step ops vm =
        ({ vm with
            ip := vm.ip + 3
            stack := { vm.stack with values := vm.stack.values.drop argc } },
          some .capabilityDenied)) ∧
    (∀ vm cap argc, vm.instructions[vm.ip]? = some externalCallByte →
      vm.instructions[vm.ip + 1]? = some cap →
      vm.instructions[vm.ip + 2]? = some argc →
      argc ≤ vm.stack.values.length →
      cap ∈ vm.capabilities.granted →
      VM.step ops vm =
        ({ vm with
            ip := vm.ip + 3
            stack := { vm.stack with values := vm.stack.values.drop argc }
            stateChanges := vm.stateChanges ++
              [.externalCallRequest cap (vm.stack.values.take argc).reverse]
            halted := true }, none)) ∧
    (∀ n vm, (VM.execN ops n vm).1.capabilities = vm.capabilities ∧
      ∀ ev ∈ (VM.execN ops n vm).1.stateChanges, ev ∈ vm.stateChanges ∨
        ∀ cap args, ev = .externalCallRequest cap args →
          cap ∈ vm.capabilities.granted) := by
  refine ⟨?_, ?_, ?_, ?_⟩
  · intro vm cap argc h0 h1 h2 hlt
    have h2' : vm.instructions[vm.ip + 1 + 1]? = some argc := h2
    rw [VM.step_eq ops vm h0 rfl]
    simp only [VM.stepOp, VM.readU8]
    simp only [h1, h2']
    rcases hp : VM.popArgs argc { vm with ip := vm.ip + 1 + 1 + 1 } [] with ⟨vm3, r3⟩
    have hr : r3 = .error .stackUnderflow := by
      have := popArgs_underflow argc { vm with ip := vm.ip + 1 + 1 + 1 } [] hlt
      rw [hp] at this
      exact this
    simp only [hp, hr]
  · intro vm cap argc h0 h1 h2 hlen hcap
    have h2' : vm.instructions[vm.ip + 1 + 1]? = some argc := h2
    rw [VM.step_eq ops vm h0 rfl]
    simp only [VM.stepOp, VM.readU8]
    simp only [h1, h2']
    rw [popArgs_ok argc { vm with ip := vm.ip + 1 + 1 + 1 } [] hlen]
    simp only [CapabilityRegistry.check]
    rw [if_neg hcap]
  · intro vm cap argc h0 h1 h2 hlen hcap
    have h2' : vm.instructions[vm.ip + 1 + 1]? = some argc := h2
    rw [VM.step_eq ops vm h0 rfl]
    simp only [VM.stepOp, VM.readU8]
    simp only [h1, h2']
    rw [popArgs_ok argc { vm with ip := vm.ip + 1 + 1 + 1 } [] hlen]
    simp only [CapabilityRegistry.check]
    rw [if_pos hcap]
    simp
  · intro n vm
    obtain ⟨_, _, hcap, ⟨evs, hevs, hgr⟩, _, _⟩ := VM.execN_inv ops n vm
    refine ⟨hcap, fun ev hev => ?_⟩
    rw [hevs] at hev
    rcases List.mem_append.mp hev with hl | hr
    · exact Or.inl hl
    · exact Or.inr (fun cap args he => hgr cap args (he ▸ hr))

/-- C6 witness: the success case of the theorem at `c6Vm`
(ExternalCall 42 with no arguments and capability 42 granted). -/
theorem c6_witness :
    VM.step arbNumOps c6Vm =
      ({ c6Vm with
          ip := 3
          stack := { c6Vm.stack with values := c6Vm.stack.values.drop 0 }
          stateChanges := c6Vm.stateChanges ++
            [.externalCallRequest 42 (c6Vm.stack.values.take 0).reverse]
          halted := true }, none) :=
  (c6_external_call arbNumOps).2.2.1 c6Vm 42 0 rfl rfl rfl (by decide) (by decide)

/-! ## C2: JumpIf's stack effect in the loader's dataflow -/
set_option maxRecDepth 4000 in
/-- C2 counterexample: `Push 0; JumpIf 7; Pop; Halt` (offset 7 is the Pop, a
valid decoded-instruction offset, and the Push's single value is the only
one ever stacked) is *accepted* by the strict loader — not rejected with
MalformedBytecode — because the dataflow gives JumpIf stack effect 0. -/
theorem c2_counterexample :
    BytecodeLoader.load 12 (c2Program 0) =
      .ok ⟨[], [0x01, 0, 0x41, 0, 0, 0, 7, 0x02, 0xFF], 0, []⟩ := by decide

set_option maxRecDepth 4000 in
/-- C2 (amended): in the loader's stack-height dataflow (every
callee-local pass and the global pass) a JumpIf instruction has stack
effect 0 — the condition is not modelled as consumed — and consequently the
claim's example program shape `Push c; JumpIf 7; Pop; Halt` is accepted by
strict `load` (the Pop is satisfied by the value JumpIf left in place). -/
theorem c2_jumpif_effect_zero :
    (∀ sums pend (m : InstrMeta) (h : Int), m.opcode = .jumpIf →
      BytecodeLoader.localEffect sums pend m h = some (h, false)) ∧
    (∀ sums ins (m : InstrMeta) (h : Int), m.opcode = .jumpIf →
      BytecodeLoader.globalEffect sums ins m h = .ok (h, none)) ∧
    BytecodeLoader.load 12 (c2Program 5) =
      .ok ⟨[], [0x01, 5, 0x41, 0, 0, 0, 7, 0x02, 0xFF], 0, []⟩ := by
  refine ⟨?_, ?_, by decide⟩
  · intro sums pend m h hop
    unfold BytecodeLoader.localEffect
    rw [hop]
  · intro sums ins m h hop
    unfold BytecodeLoader.globalEffect
    rw [hop]

/-- C2 witness: the amended theorem at concrete inputs. -/
theorem c2_witness :
    BytecodeLoader.localEffect [] [] ⟨2, .jumpIf, 4, some 7⟩ 1 = some (1, false) ∧
    BytecodeLoader.globalEffect [] [] ⟨2, .jumpIf, 4, some 7⟩ 1 = .ok (1, none) ∧
    BytecodeLoader.load 12 (c2Program 5) =
      .ok ⟨[], [0x01, 5, 0x41, 0, 0, 0, 7, 0x02, 0xFF], 0, []⟩ :=
  ⟨c2_jumpif_effect_zero.1 [] [] ⟨2, .jumpIf, 4, some 7⟩ 1 rfl,
   c2_jumpif_effect_zero.2.1 [] [] ⟨2, .jumpIf, 4, some 7⟩ 1 rfl,
   c2_jumpif_effect_zero.2.2⟩

/-! ## C9: the lenient opt-in loader path -/
/-- Whenever Pass-1 decoding succeeds, the weak scan also succeeds (it
checks exactly the same opcode validity and immediate lengths). -/
theorem weakScan_ok_of_decode (ins : List Nat) (fuel : Nat) :
    ∀ idx metas caps0, BytecodeLoader.decodeInstrsAux ins fuel idx = .ok metas →
      ∃ caps, BytecodeLoader.weakScanAux ins fuel idx caps0 = .ok caps := by
  induction fuel with
  | zero =>
    intro idx metas caps0 h
    exact absurd h (by simp [BytecodeLoader.decodeInstrsAux])
  | succ k ih =>
    intro idx metas caps0 h
    unfold BytecodeLoader.decodeInstrsAux at h
    unfold BytecodeLoader.weakScanAux
    rcases hb : ins[idx]? with _ | b
    · exact ⟨caps0, rfl⟩
    · rw [hb] at h
      dsimp only at h ⊢
      rcases hop : OpCode.fromU8 b with _ | op
      · rw [hop] at h
        exact absurd h (by simp)
      · rw [hop] at h
        cases op <;> dsimp only at h ⊢ <;>
          first
            | (split at h
               case isTrue hc =>
                 rw [if_pos hc]
                 split at h
                 · exact absurd h (by simp)
                 next rest hrec => exact ih _ rest _ hrec
               case isFalse hc => exact absurd h (by simp))
            | (split at h
               · exact absurd h (by simp)
               next rest hrec => exact ih _ rest _ hrec)

/-- In a successfully built successor table, every Call's target is the
offset of a decoded instruction. -/
theorem buildSuccsFrom_ok_call_target (metas : List InstrMeta) :
    ∀ i l ss, BytecodeLoader.buildSuccsFrom metas i l = .ok ss →
      ∀ m ∈ l, m.opcode = .call → ∀ t, m.target = some t →
        (BytecodeLoader.offIdx metas t).isSome := by
  intro i l
  induction l generalizing i with
  | nil =>
    intro ss h m hm
    simp at hm
  | cons m0 rest ih =>
    intro ss h m hm hcall t ht
    unfold BytecodeLoader.buildSuccsFrom at h
    split at h
    · exact absurd h (by simp)
    next s hs =>
      split at h
      · exact absurd h (by simp)
      next ss' hss =>
        rcases List.mem_cons.mp hm with rfl | hm'
        · obtain ⟨off, opc, il, tg⟩ := m
          cases hcall
          cases ht
          simp only [BytecodeLoader.nodeSuccs] at hs
          split at hs
          · exact absurd hs (by simp)
          next ti hti =>
            rw [hti]
            rfl
        · exact ih (i + 1) ss' hss m hm' hcall t ht

/-- C9: for every byte buffer whose header and constants parse and whose
instruction stream decodes (correct opcodes and immediate lengths), but
which contains a Call whose target is not a decoded-instruction offset:
strict `load` fails; `load_with_opt_in` with the flag set succeeds with
`lenient_used = true` and a bundle whose constants, instructions and entry
point match the buffer; with the flag unset the strict error is returned. -/
theorem c9_lenient_opt_in (F : Nat) (bytes : List Nat)
    (pt : BytecodeLoader.ParsedTop) (metas : List InstrMeta) (m : InstrMeta) (t : Nat)
    (hmin : 16 ≤ bytes.length)
    (hpt : BytecodeLoader.parseTop bytes = .ok pt)
    (hdec : BytecodeLoader.decodeInstrs pt.instructions = .ok metas)
    (hm : m ∈ metas) (hcall : m.opcode = .call) (htgt : m.target = some t)
    (hbad : BytecodeLoader.offIdx metas t = none) :
    (∃ e, BytecodeLoader.load F bytes = .error e ∧
      BytecodeLoader.loadWithOptIn F bytes false = .error e) ∧
    (∃ caps, BytecodeLoader.loadWithOptIn F bytes true =
      .ok ({ constants := pt.constants, instructions := pt.instructions,
             entryPoint := pt.entryPoint, caps := caps }, true)) := by
  have hsuccs : ∃ e', BytecodeLoader.buildSuccs metas = .error e' := by
    rcases hb : BytecodeLoader.buildSuccs metas with e' | ss
    · exact ⟨e', rfl⟩
    · have := buildSuccsFrom_ok_call_target metas 0 metas ss hb m hm hcall t htgt
      rw [hbad] at this
      simp at this
  obtain ⟨e', hb⟩ := hsuccs
  have hana : BytecodeLoader.analyzeInstructionsCfg F pt.instructions = .error (.vre e') := by
    unfold BytecodeLoader.analyzeInstructionsCfg
    rw [hdec]
    dsimp only
    rw [hb]
  have hload : BytecodeLoader.load F bytes = .error (.vre e') := by
    unfold BytecodeLoader.load
    rw [if_neg (by omega), hpt]
    dsimp only
    rw [hana]
  have hweak : ∃ caps, BytecodeLoader.weakScan pt.instructions = .ok caps :=
    weakScan_ok_of_decode pt.instructions (pt.instructions.length + 1) 0 metas [] hdec
  obtain ⟨caps, hw⟩ := hweak
  refine ⟨⟨.vre e', hload, ?_⟩, ⟨caps, ?_⟩⟩
  · unfold BytecodeLoader.loadWithOptIn
    simp [hload]
  · unfold BytecodeLoader.loadWithOptIn
    simp [hload, hpt, hw]

theorem decodedFrom_of_decodeAux (ins : List Nat) :
    ∀ fuel idx metas, BytecodeLoader.decodeInstrsAux ins fuel idx = .ok metas →
      DecodedFrom ins idx metas := by
  intro fuel
  induction fuel with
  | zero =>
    intro idx metas h
    exact absurd h (by simp [BytecodeLoader.decodeInstrsAux])
  | succ k ih =>
    intro idx metas h
    unfold BytecodeLoader.decodeInstrsAux at h
    rcases hb : ins[idx]? with _ | b
    · rw [hb] at h
      injection h with h'
      rw [← h']
      have : ¬ idx < ins.length := by
        intro hlt
        rw [List.getElem?_eq_getElem hlt] at hb
        cases hb
      exact Nat.le_of_not_lt this
    · rw [hb] at h
      dsimp only at h
      have hidx : idx < ins.length := by
        by_contra hge
        rw [List.getElem?_eq_none (Nat.le_of_not_lt hge)] at hb
        cases hb
      rcases hop : OpCode.fromU8 b with _ | op
      · rw [hop] at h
        exact absurd h (by simp)
      · rw [hop] at h
        cases op <;> dsimp only at h <;>
          first
            | (split at h
               case isTrue hc =>
                 split at h
                 · exact absurd h (by simp)
                 next rest hrec =>
                   injection h with h'
                   rw [← h']
                   exact ⟨rfl, ⟨b, hb, hop⟩, ⟨rfl, hc, rfl⟩, ih _ rest hrec⟩
               case isFalse hc => exact absurd h (by simp))
            | (split at h
               · exact absurd h (by simp)
               next rest hrec =>
                 injection h with h'
                 rw [← h']
                 exact ⟨rfl, ⟨b, hb, hop⟩, ⟨rfl, hidx, rfl⟩, ih _ rest hrec⟩)

theorem immOk_end_le (ins : List Nat) (m : InstrMeta) (h : ImmOk ins m) :
    m.offset + 1 + m.immLen ≤ ins.length := by
  unfold ImmOk at h
  rcases hop : m.opcode <;> rw [hop] at h <;> obtain ⟨h1, h2, h3⟩ := h <;> rw [h1] <;> omega

theorem decodedFrom_metaAt (ins : List Nat) :
    ∀ metas idx, DecodedFrom ins idx metas →
      ∀ i m, metas[i]? = some m → MetaAt ins metas i m := by
  intro metas
  induction metas with
  | nil =>
    intro idx hd i m hm
    simp at hm
  | cons m0 rest ih =>
    intro idx hd i m hm
    obtain ⟨hoff, hbyte, himm, hrest⟩ := hd
    cases i with
    | zero =>
      rw [List.getElem?_cons_zero] at hm
      injection hm with hm
      subst hm
      subst hoff
      refine ⟨hbyte, himm, immOk_end_le ins m0 himm, ?_, ?_⟩
      · intro m' hm'
        rw [List.getElem?_cons_succ] at hm'
        cases rest with
        | nil => simp at hm'
        | cons r0 rtail =>
          rw [List.getElem?_cons_zero] at hm'
          injection hm' with hm'
          subst hm'
          exact hrest.1
      · intro hnone
        rw [List.getElem?_cons_succ] at hnone
        cases rest with
        | nil => exact Nat.le_antisymm (immOk_end_le ins m0 himm) hrest
        | cons r0 rtail => simp at hnone
    | succ j =>
      rw [List.getElem?_cons_succ] at hm
      have := ih (idx + 1 + m0.immLen) hrest j m hm
      obtain ⟨hb, hi, he, hnext, hend⟩ := this
      exact ⟨hb, hi, he,
        fun m' hm' => hnext m' (by rw [List.getElem?_cons_succ] at hm'; exact hm'),
        fun hn => hend (by rw [List.getElem?_cons_succ] at hn; exact hn)⟩

/-- Soundness of the offset-to-index lookup. -/
theorem offIdx_sound (t : Nat) :
    ∀ metas j, BytecodeLoader.offIdx metas t = some j →
      ∃ m, metas[j]? = some m ∧ m.offset = t := by
  intro metas
  induction metas with
  | nil =>
    intro j h
    simp [BytecodeLoader.offIdx] at h
  | cons m0 rest ih =>
    intro j h
    unfold BytecodeLoader.offIdx at h
    split at h
    · injection h with h'
      exact ⟨m0, by rw [← h']; exact List.getElem?_cons_zero, by assumption⟩
    · rcases ho : BytecodeLoader.offIdx rest t with _ | j'
      · rw [ho] at h
        cases h
      · rw [ho] at h
        injection h with h'
        obtain ⟨m, hm, hoff⟩ := ih j' ho
        refine ⟨m, ?_, hoff⟩
        rw [← h']
        rw [List.getElem?_cons_succ]
        exact hm

theorem nodeSuccs_spec (ins : List Nat) (metas : List InstrMeta) (i : Nat)
    (m : InstrMeta) (sl : List Nat)
    (h : BytecodeLoader.nodeSuccs metas i m = .ok sl) (hi : ImmOk ins m) :
    NodeSuccsSpec metas i m sl := by
  unfold BytecodeLoader.nodeSuccs at h
  unfold NodeSuccsSpec
  unfold ImmOk at hi
  rcases hop : m.opcode <;> rw [hop] at h hi <;> dsimp only at h hi ⊢
  case jump =>
    obtain ⟨-, -, htgt⟩ := hi
    rw [htgt] at h
    dsimp only at h
    split at h
    · exact absurd h (by simp)
    next ti hti =>
      injection h with h'
      exact ⟨_, ti, htgt, hti, h'.symm⟩
  case jumpIf =>
    obtain ⟨-, -, htgt⟩ := hi
    rw [htgt] at h
    dsimp only at h
    split at h
    · exact absurd h (by simp)
    next ti hti =>
      injection h with h'
      exact ⟨_, ti, htgt, hti, by rw [← h']; rfl⟩
  case call =>
    obtain ⟨-, -, htgt⟩ := hi
    rw [htgt] at h
    dsimp only at h
    split at h
    · exact absurd h (by simp)
    next ti hti =>
      injection h with h'
      exact ⟨_, ti, htgt, hti, by rw [← h']; rfl⟩
  all_goals (injection h with h'; exact h'.symm)

theorem buildSuccsFrom_spec (ins : List Nat) (metas : List InstrMeta) :
    ∀ l i ss, BytecodeLoader.buildSuccsFrom metas i l = .ok ss →
      ss.length = l.length ∧
      (∀ j m, l[j]? = some m → ImmOk ins m →
        ∃ sl, ss[j]? = some sl ∧ NodeSuccsSpec metas (i + j) m sl) := by
  intro l
  induction l with
  | nil =>
    intro i ss h
    injection h with h'
    rw [← h']
    exact ⟨rfl, by intro j m hm; simp at hm⟩
  | cons m0 rest ih =>
    intro i ss h
    unfold BytecodeLoader.buildSuccsFrom at h
    split at h
    · exact absurd h (by simp)
    next s0 hs0 =>
      split at h
      · exact absurd h (by simp)
      next ss' hss' =>
        injection h with h'
        subst h'
        obtain ⟨hlen, hrest⟩ := ih (i + 1) ss' hss'
        refine ⟨by simp [hlen], ?_⟩
        intro j m hm hi
        cases j with
        | zero =>
          rw [List.getElem?_cons_zero] at hm
          injection hm with hm
          subst hm
          exact ⟨s0, List.getElem?_cons_zero, by rw [show i + 0 = i from rfl]; exact nodeSuccs_spec ins metas i m0 s0 hs0 hi⟩
        | succ k =>
          rw [List.getElem?_cons_succ] at hm
          obtain ⟨sl, hsl, hspec⟩ := hrest k m hm hi
          refine ⟨sl, ?_, ?_⟩
          · rw [List.getElem?_cons_succ]
            exact hsl
          · rw [show i + (k + 1) = i + 1 + k from by omega]
            exact hspec

theorem buildSuccs_succsOk (ins : List Nat) (metas : List InstrMeta)
    (succs : List (List Nat)) (h : BytecodeLoader.buildSuccs metas = .ok succs) :
    SuccsOk ins metas succs := by
  obtain ⟨hlen, hat⟩ := buildSuccsFrom_spec ins metas metas 0 succs h
  refine ⟨hlen, fun i m hm hi => ?_⟩
  obtain ⟨sl, hsl, hspec⟩ := hat i m hm hi
  exact ⟨sl, hsl, by rw [show (0 + i) = i from by omega] at hspec; exact hspec⟩

/-- C9 witness: the theorem applied to `c9Bytes` (one Call with target
0xFFFFFFFF). -/
theorem c9_witness :
    (∃ e, BytecodeLoader.load 100 c9Bytes = .error e ∧
      BytecodeLoader.loadWithOptIn 100 c9Bytes false = .error e) ∧
    (∃ caps, BytecodeLoader.loadWithOptIn 100 c9Bytes true =
      .ok ({ constants := [], instructions := [0x42, 0xFF, 0xFF, 0xFF, 0xFF],
             entryPoint := 0, caps := caps }, true)) :=
  c9_lenient_opt_in 100 c9Bytes
    { entryPoint := 0, constants := [], instructions := [0x42, 0xFF, 0xFF, 0xFF, 0xFF] }
    [{ offset := 0, opcode := .call, immLen := 4, target := some 0xFFFFFFFF }]
    { offset := 0, opcode := .call, immLen := 4, target := some 0xFFFFFFFF }
    0xFFFFFFFF (by decide) rfl rfl (by decide) rfl rfl rfl

theorem subSums_refl (a : List (Nat × Int)) : SubSums a a := fun _ _ h => h

theorem subSums_trans {a b c : List (Nat × Int)} (h1 : SubSums a b)
    (h2 : SubSums b c) : SubSums a c :=
  fun t d h => h2 t d (h1 t d h)

theorem subSums_cons_fresh {a : List (Nat × Int)} {t : Nat} {d : Int}
    (h : lookupSum a t = none) : SubSums a ((t, d) :: a) := by
  intro t' d' h'
  unfold lookupSum
  split
  · next heq =>
    rw [← heq] at h'
    rw [h'] at h
    cases h
  · exact h'

theorem certHt_set_other (H : List (Option Int)) (s : Nat) (v : Option Int)
    (j : Nat) (hj : s ≠ j) : certHt (H.set s v) j = certHt H j := by
  unfold certHt
  rw [List.getElem?_set, if_neg hj]

theorem certHt_set_self (H : List (Option Int)) (s : Nat) (x : Int)
    (hs : s < H.length) : certHt (H.set s (some x)) s = some x := by
  unfold certHt
  rw [List.getElem?_set, if_pos rfl, if_pos hs]
  rfl

theorem certHt_lt_length {H : List (Option Int)} {j : Nat} {h : Int}
    (hd : certHt H j = some h) : j < H.length := by
  by_contra hge
  unfold certHt at hd
  rw [List.getElem?_eq_none (Nat.le_of_not_lt hge)] at hd
  cases hd

/-- Everything one successor update guarantees: length preservation, queue
growth, change implies re-enqueue, beliefs only decrease and stay defined,
the updated successor is bounded, and nonnegativity is preserved. -/
theorem updateSucc_spec (H : List (Option Int)) (q : List Nat) (nh : Int)
    (s : Nat) :
    (updateSucc H q nh s).1.length = H.length ∧
    (∀ x ∈ q, x ∈ (updateSucc H q nh s).2) ∧
    (∀ j, certHt (updateSucc H q nh s).1 j ≠ certHt H j →
      j ∈ (updateSucc H q nh s).2) ∧
    (∀ j h, certHt H j = some h →
      ∃ h', certHt (updateSucc H q nh s).1 j = some h' ∧ h' ≤ h) ∧
    (s < H.length →
      ∃ h', certHt (updateSucc H q nh s).1 s = some h' ∧ h' ≤ nh) ∧
    (0 ≤ nh → (∀ j h, certHt H j = some h → 0 ≤ h) →
      ∀ j h', certHt (updateSucc H q nh s).1 j = some h' → 0 ≤ h') := by
  unfold updateSucc
  split
  next hjoin =>
    have hcs : certHt H s = none := hjoin
    refine ⟨by simp, fun x hx => List.mem_append_left _ hx, ?_, ?_, ?_, ?_⟩
    · intro j hch
      by_cases hjs : s = j
      · subst hjs
        exact List.mem_append_right _ (by simp)
      · exact absurd (certHt_set_other H s (some nh) j hjs) hch
    · intro j h hd
      by_cases hjs : s = j
      · subst hjs
        rw [hcs] at hd
        cases hd
      · exact ⟨h, by rw [certHt_set_other H s (some nh) j hjs]; exact hd, le_refl h⟩
    · intro hs
      exact ⟨nh, certHt_set_self H s nh hs, le_refl nh⟩
    · intro hnh hall j h' hd
      by_cases hjs : s = j
      · subst hjs
        by_cases hs : s < H.length
        · rw [certHt_set_self H s nh hs] at hd
          injection hd with hd
          rw [← hd]
          exact hnh
        · have : certHt (H.set s (some nh)) s = none := by
            unfold certHt
            rw [List.getElem?_set, if_pos rfl, if_neg hs]
            rfl
          rw [this] at hd
          cases hd
      · rw [certHt_set_other H s (some nh) j hjs] at hd
        exact hall j h' hd
  next ex hjoin =>
    have hcs : certHt H s = some ex := hjoin
    have hslen : s < H.length := certHt_lt_length hcs
    dsimp only
    split
    next hne =>
      have hmin : min ex nh ≤ ex := min_le_left ex nh
      refine ⟨by simp, fun x hx => List.mem_append_left _ hx, ?_, ?_, ?_, ?_⟩
      · intro j hch
        by_cases hjs : s = j
        · subst hjs
          exact List.mem_append_right _ (by simp)
        · exact absurd (certHt_set_other H s (some (min ex nh)) j hjs) hch
      · intro j h hd
        by_cases hjs : s = j
        · subst hjs
          rw [hcs] at hd
          injection hd with hd
          exact ⟨min ex nh, certHt_set_self H s (min ex nh) hslen, hd ▸ hmin⟩
        · exact ⟨h, by rw [certHt_set_other H s (some (min ex nh)) j hjs]; exact hd,
            le_refl h⟩
      · intro _
        exact ⟨min ex nh, certHt_set_self H s (min ex nh) hslen, min_le_right ex nh⟩
      · intro hnh hall j h' hd
        by_cases hjs : s = j
        · subst hjs
          rw [certHt_set_self H s (min ex nh) hslen] at hd
          injection hd with hd
          rw [← hd]
          exact le_min (hall s ex hcs) hnh
        · rw [certHt_set_other H s (some (min ex nh)) j hjs] at hd
          exact hall j h' hd
    next hne =>
      have hex : ex ≤ nh := by
        have : min ex nh = ex := by
          by_contra hc
          exact hne hc
        exact min_eq_left_iff.mp this
      exact ⟨rfl, fun x hx => hx, fun j hch => absurd rfl hch,
        fun j h hd => ⟨h, hd, le_refl h⟩,
        fun _ => ⟨ex, hcs, hex⟩,
        fun _ hall j h' hd => hall j h' hd⟩

/-- The successor-list version of `updateSucc_spec`. -/
theorem updateSuccs_spec (nh : Int) :
    ∀ (sl : List Nat) (H : List (Option Int)) (q : List Nat),
    (updateSuccs nh sl (H, q)).1.length = H.length ∧
    (∀ x ∈ q, x ∈ (updateSuccs nh sl (H, q)).2) ∧
    (∀ j, certHt (updateSuccs nh sl (H, q)).1 j ≠ certHt H j →
      j ∈ (updateSuccs nh sl (H, q)).2) ∧
    (∀ j h, certHt H j = some h →
      ∃ h', certHt (updateSuccs nh sl (H, q)).1 j = some h' ∧ h' ≤ h) ∧
    (∀ s ∈ sl, s < H.length →
      ∃ h', certHt (updateSuccs nh sl (H, q)).1 s = some h' ∧ h' ≤ nh) ∧
    (0 ≤ nh → (∀ j h, certHt H j = some h → 0 ≤ h) →
      ∀ j h', certHt (updateSuccs nh sl (H, q)).1 j = some h' → 0 ≤ h') := by
  intro sl
  induction sl with
  | nil =>
    intro H q
    exact ⟨rfl, fun x hx => hx, fun j hch => absurd rfl hch,
      fun j h hd => ⟨h, hd, le_refl h⟩, fun s hs => absurd hs (by simp),
      fun _ hall j h' hd => hall j h' hd⟩
  | cons s rest ih =>
    intro H q
    rcases hu : updateSucc H q nh s with ⟨H1, q1⟩
    have hstep := updateSucc_spec H q nh s
    rw [hu] at hstep
    obtain ⟨slen, smono, schg, sdec, starg, snn⟩ := hstep
    have heq : updateSuccs nh (s :: rest) (H, q) = updateSuccs nh rest (H1, q1) := by
      show updateSuccs nh rest (updateSucc H q nh s) = _
      rw [hu]
    obtain ⟨ilen, imono, ichg, idec, itarg, inn⟩ := ih H1 q1
    rw [heq]
    refine ⟨ilen.trans slen, fun x hx => imono x (smono x hx), ?_, ?_, ?_, ?_⟩
    · intro j hch
      by_cases h1 : certHt H1 j = certHt H j
      · exact ichg j (by rw [h1]; exact hch)
      · exact imono j (schg j h1)
    · intro j h hd
      obtain ⟨h1, hd1, hle1⟩ := sdec j h hd
      obtain ⟨h2, hd2, hle2⟩ := idec j h1 hd1
      exact ⟨h2, hd2, hle2.trans hle1⟩
    · intro s' hs' hlt
      rcases List.mem_cons.mp hs' with hse | hsr
      · subst hse
        obtain ⟨h1, hd1, hle1⟩ := starg hlt
        obtain ⟨h2, hd2, hle2⟩ := idec s' h1 hd1
        exact ⟨h2, hd2, hle2.trans hle1⟩
      · exact itarg s' hsr (slen ▸ hlt)
    · intro hnh hall j h' hd
      exact inn hnh (snn hnh hall) j h' hd

/-- With nonnegative summaries, a defined local effect from a nonnegative
height yields a nonnegative height (the guards rule the negative cases out). -/
theorem localEffect_nonneg (sums : List (Nat × Int)) (snap : List Nat)
    (m : InstrMeta) (h nh : Int) (isRet : Bool)
    (hsnn : ∀ t d, lookupSum sums t = some d → 0 ≤ d) (hh : 0 ≤ h)
    (he : localEffect sums snap m h = some (nh, isRet)) : 0 ≤ nh := by
  unfold localEffect at he
  rcases hop : m.opcode <;> rw [hop] at he <;> dsimp only at he
  case call =>
    rcases ht : m.target with _ | t
    · rw [ht] at he
      cases he
    · rw [ht] at he
      dsimp only at he
      rcases hl : lookupSum sums t with _ | d
      · rw [hl] at he
        dsimp only at he
        split at he
        · injection he with he1
          injection he1 with ha hb
          omega
        · cases he
      · rw [hl] at he
        dsimp only at he
        injection he with he1
        injection he1 with ha hb
        have := hsnn t d hl
        omega
  all_goals
    first
      | (cases he
         omega)
      | (cases he)
      | (split at he
         · cases he
         · cases he
           omega)

/-- What a terminating (ok) callee-local dataflow attempt guarantees. -/
theorem localFlow_inv (metas : List InstrMeta) (succs : List (List Nat))
    (sums : List (Nat × Int)) (snap : List Nat)
    (hsnn : ∀ t d, lookupSum sums t = some d → 0 ≤ d)
    (hrange : ∀ (j : Nat) (sl : List Nat), succs[j]? = some sl → ∀ s ∈ sl, s < metas.length) :
    ∀ fuel H q rets retsF HF,
      LInv metas succs sums snap H q rets →
      localFlow metas succs sums snap fuel H q rets = .okOut retsF HF →
      HF.length = metas.length ∧
      (∀ j h, certHt H j = some h → ∃ h', certHt HF j = some h' ∧ h' ≤ h) ∧
      (∀ j h, certHt HF j = some h → 0 ≤ h) ∧
      (∀ r ∈ retsF, 0 ≤ r) ∧
      LocalCert metas succs sums snap HF ∧
      (∀ j h m, certHt HF j = some h → metas[j]? = some m → m.opcode = .ret →
        h ∈ retsF) := by
  intro fuel
  induction fuel with
  | zero =>
    intro H q rets retsF HF hinv hrun
    unfold localFlow at hrun
    cases hrun
  | succ k ih =>
    intro H q rets retsF HF hinv hrun
    unfold localFlow at hrun
    rcases q with _ | ⟨j, qrest⟩
    · dsimp only at hrun
      injection hrun with h1 h2
      subst h1
      subst h2
      obtain ⟨hlen, hnn, hrnn, hmain, hret⟩ := hinv
      refine ⟨hlen, fun j h hd => ⟨h, hd, le_refl h⟩, hnn, hrnn, ?_, ?_⟩
      · intro j h m hd hm
        rcases hmain j h hd with hq | ⟨m', nh, isRet, hm', heff, hsucc⟩
        · cases hq
        · have hmm : m' = m := by
            rw [hm] at hm'
            injection hm' with h
            exact h.symm
          subst hmm
          exact ⟨nh, isRet, heff, hsucc⟩
      · intro j h m hd hm hopr
        rcases hret j h m hd hm hopr with hq | hr
        · cases hq
        · exact hr
    · dsimp only at hrun
      rcases hj : (H[j]?).join with _ | h <;> rcases hm : metas[j]? with _ | m <;>
        rw [hj, hm] at hrun <;> dsimp only at hrun
      case none.none => cases hrun
      case none.some => cases hrun
      case some.none => cases hrun
      case some.some =>
      have hjc : certHt H j = some h := hj
      rcases he : localEffect sums snap m h with _ | ⟨nh, isRet⟩
      · rw [he] at hrun
        cases hrun
      · rw [he] at hrun
        dsimp only at hrun
        rcases hupd : updateSuccs nh ((succs[j]?).getD []) (H, qrest) with ⟨H1, q1⟩
        rw [hupd] at hrun
        dsimp only at hrun
        have hspec := updateSuccs_spec nh ((succs[j]?).getD []) H qrest
        rw [hupd] at hspec
        obtain ⟨ulen, umono, uchg, udec, utarg, unn⟩ := hspec
        obtain ⟨hlen, hnn, hrnn, hmain, hret⟩ := hinv
        have hh0 : 0 ≤ h := hnn j h hjc
        have hnh0 : 0 ≤ nh := localEffect_nonneg sums snap m h nh isRet hsnn hh0 he
        have hsuccrange : ∀ s ∈ (succs[j]?).getD [], s < H.length := by
          intro s hs
          rw [hlen]
          rcases hsl : succs[j]? with _ | sl
          · rw [hsl] at hs
            cases hs
          · rw [hsl] at hs
            exact hrange j sl hsl s hs
        have hinv1 : LInv metas succs sums snap H1 q1
            (if isRet then rets ++ [nh] else rets) := by
          refine ⟨ulen.trans hlen, unn hnh0 hnn, ?_, ?_, ?_⟩
          · intro r hr
            rcases isRet with _ | _
            · exact hrnn r hr
            · rcases List.mem_append.mp hr with h1 | h1
              · exact hrnn r h1
              · rw [List.mem_singleton.mp h1]
                exact hnh0
          · intro j' h' hd'
            by_cases hch : certHt H1 j' = certHt H j'
            · rw [hch] at hd'
              rcases hmain j' h' hd' with hq | ⟨m', nh', isRet', hm', heff', hsucc'⟩
              · rcases List.mem_cons.mp hq with rfl | hqr
                · right
                  have hhh : h' = h := by
                    rw [hjc] at hd'
                    injection hd' with h
                    exact h.symm
                  subst hhh
                  refine ⟨m, nh, isRet, hm, he, ?_⟩
                  intro s hs
                  exact utarg s hs (hsuccrange s hs)
                · exact Or.inl (umono j' hqr)
              · right
                refine ⟨m', nh', isRet', hm', heff', ?_⟩
                intro s hs
                obtain ⟨h2, hd2, hle2⟩ := hsucc' s hs
                obtain ⟨h3, hd3, hle3⟩ := udec s h2 hd2
                exact ⟨h3, hd3, hle3.trans hle2⟩
            · exact Or.inl (uchg j' hch)
          · intro j' h' m' hd' hm' hopr
            by_cases hch : certHt H1 j' = certHt H j'
            · rw [hch] at hd'
              rcases hret j' h' m' hd' hm' hopr with hq | hr
              · rcases List.mem_cons.mp hq with rfl | hqr
                · right
                  have hmm : m' = m := by
                    rw [hm] at hm'
                    injection hm' with h
                    exact h.symm
                  subst hmm
                  have hhh : h' = h := by
                    rw [hjc] at hd'
                    injection hd' with h
                    exact h.symm
                  subst hhh
                  have hre : nh = h' ∧ isRet = true := by
                    unfold localEffect at he
                    rw [hopr] at he
                    dsimp only at he
                    injection he with he1
                    injection he1 with ha hb
                    exact ⟨ha.symm, hb.symm⟩
                  rw [hre.2, ← hre.1]
                  exact List.mem_append_right rets (by simp)
                · exact Or.inl (umono j' hqr)
              · right
                rcases isRet with _ | _
                · exact hr
                · exact List.mem_append_left _ hr
            · exact Or.inl (uchg j' hch)
        obtain ⟨flen, fdec, fnn, frnn, fcert, fret⟩ :=
          ih H1 q1 (if isRet then rets ++ [nh] else rets) retsF HF hinv1 hrun
        refine ⟨flen, ?_, fnn, frnn, fcert, fret⟩
        intro j' h' hd'
        obtain ⟨h2, hd2, hle2⟩ := udec j' h' hd'
        obtain ⟨h3, hd3, hle3⟩ := fdec j' h2 hd2
        exact ⟨h3, hd3, hle3.trans hle2⟩

/-- What a terminating (ok) global dataflow run guarantees. -/
theorem globalFlow_inv (metas : List InstrMeta) (succs : List (List Nat))
    (sums : List (Nat × Int)) (ins : List Nat)
    (hrange : ∀ (j : Nat) (sl : List Nat), succs[j]? = some sl → ∀ s ∈ sl, s < metas.length) :
    ∀ fuel H q caps capsF HF,
      GInv metas succs sums ins H q →
      globalFlow metas succs sums ins fuel H q caps = .gok capsF HF →
      HF.length = metas.length ∧
      (∀ j h, certHt H j = some h → ∃ h', certHt HF j = some h' ∧ h' ≤ h) ∧
      GlobalCert metas succs sums ins HF := by
  intro fuel
  induction fuel with
  | zero =>
    intro H q caps capsF HF hinv hrun
    unfold globalFlow at hrun
    cases hrun
  | succ k ih =>
    intro H q caps capsF HF hinv hrun
    unfold globalFlow at hrun
    rcases q with _ | ⟨j, qrest⟩
    · dsimp only at hrun
      injection hrun with h1 h2
      subst h1
      subst h2
      obtain ⟨hlen, hmain⟩ := hinv
      refine ⟨hlen, fun j h hd => ⟨h, hd, le_refl h⟩, ?_⟩
      intro j h m hd hm
      rcases hmain j h hd with hq | ⟨m', nh, cap, hm', heff, hsucc⟩
      · cases hq
      · have hmm : m' = m := by
          rw [hm] at hm'
          injection hm' with h
          exact h.symm
        subst hmm
        exact ⟨nh, cap, heff, hsucc⟩
    · dsimp only at hrun
      rcases hj : (H[j]?).join with _ | h <;> rcases hm : metas[j]? with _ | m <;>
        rw [hj, hm] at hrun <;> dsimp only at hrun
      case none.none => cases hrun
      case none.some => cases hrun
      case some.none => cases hrun
      case some.some =>
      have hjc : certHt H j = some h := hj
      rcases he : globalEffect sums ins m h with e | ⟨nh, capOpt⟩
      · rw [he] at hrun
        cases hrun
      · rw [he] at hrun
        dsimp only at hrun
        rcases hupd : updateSuccs nh ((succs[j]?).getD []) (H, qrest) with ⟨H1, q1⟩
        rw [hupd] at hrun
        dsimp only at hrun
        have hspec := updateSuccs_spec nh ((succs[j]?).getD []) H qrest
        rw [hupd] at hspec
        obtain ⟨ulen, umono, uchg, udec, utarg, unn⟩ := hspec
        obtain ⟨hlen, hmain⟩ := hinv
        have hsuccrange : ∀ s ∈ (succs[j]?).getD [], s < H.length := by
          intro s hs
          rw [hlen]
          rcases hsl : succs[j]? with _ | sl
          · rw [hsl] at hs
            cases hs
          · rw [hsl] at hs
            exact hrange j sl hsl s hs
        have hinv1 : GInv metas succs sums ins H1 q1 := by
          refine ⟨ulen.trans hlen, ?_⟩
          intro j' h' hd'
          by_cases hch : certHt H1 j' = certHt H j'
          · rw [hch] at hd'
            rcases hmain j' h' hd' with hq | ⟨m', nh', cap', hm', heff', hsucc'⟩
            · rcases List.mem_cons.mp hq with rfl | hqr
              · right
                have hhh : h' = h := by
                  rw [hjc] at hd'
                  injection hd' with h
                  exact h.symm
                subst hhh
                refine ⟨m, nh, capOpt, hm, he, ?_⟩
                intro s hs
                exact utarg s hs (hsuccrange s hs)
              · exact Or.inl (umono j' hqr)
            · right
              refine ⟨m', nh', cap', hm', heff', ?_⟩
              intro s hs
              obtain ⟨h2, hd2, hle2⟩ := hsucc' s hs
              obtain ⟨h3, hd3, hle3⟩ := udec s h2 hd2
              exact ⟨h3, hd3, hle3.trans hle2⟩
          · exact Or.inl (uchg j' hch)
        obtain ⟨flen, fdec, fcert⟩ := ih H1 q1 _ capsF HF hinv1 hrun
        refine ⟨flen, ?_, fcert⟩
        intro j' h' hd'
        obtain ⟨h2, hd2, hle2⟩ := udec j' h' hd'
        obtain ⟨h3, hd3, hle3⟩ := fdec j' h2 hd2
        exact ⟨h3, hd3, hle3.trans hle2⟩

theorem getElem_some_lt {α : Type} {l : List α} {i : Nat} {x : α}
    (h : l[i]? = some x) : i < l.length := by
  by_contra hge
  rw [List.getElem?_eq_none (Nat.le_of_not_lt hge)] at h
  cases h

theorem immOk_off_lt (ins : List Nat) (m : InstrMeta) (h : ImmOk ins m) :
    m.offset < ins.length := by
  unfold ImmOk at h
  rcases hop : m.opcode <;> rw [hop] at h <;> obtain ⟨h1, h2, h3⟩ := h <;> omega

theorem nodeSuccsSpec_range (metas : List InstrMeta) (i : Nat) (m : InstrMeta)
    (sl : List Nat) (hs : NodeSuccsSpec metas i m sl) :
    ∀ s ∈ sl, s < metas.length := by
  have hft : ∀ x ∈ ftList metas i, x < metas.length := by
    intro x hx
    unfold ftList at hx
    split at hx
    · next hlt =>
      rw [List.mem_singleton.mp hx]
      exact hlt
    · cases hx
  intro s hsm
  unfold NodeSuccsSpec at hs
  rcases hop : m.opcode <;> rw [hop] at hs <;> dsimp only at hs
  case jump =>
    obtain ⟨t, ti, hmt, hti, hsl⟩ := hs
    rw [hsl] at hsm
    rw [List.mem_singleton.mp hsm]
    obtain ⟨mt, hmt', -⟩ := offIdx_sound t metas ti hti
    exact getElem_some_lt hmt'
  case jumpIf =>
    obtain ⟨t, ti, hmt, hti, hsl⟩ := hs
    rw [hsl] at hsm
    rcases List.mem_cons.mp hsm with rfl | hx
    · obtain ⟨mt, hmt', -⟩ := offIdx_sound t metas s hti
      exact getElem_some_lt hmt'
    · exact hft s hx
  case call =>
    obtain ⟨t, ti, hmt, hti, hsl⟩ := hs
    rw [hsl] at hsm
    rcases List.mem_cons.mp hsm with rfl | hx
    · obtain ⟨mt, hmt', -⟩ := offIdx_sound t metas s hti
      exact getElem_some_lt hmt'
    · exact hft s hx
  all_goals
    first
      | (rw [hs] at hsm
         cases hsm)
      | (rw [hs] at hsm
         exact hft s hsm)

/-- All successor indices recorded by Pass 2 are in range. -/
theorem succsOk_range (ins : List Nat) (metas : List InstrMeta)
    (succs : List (List Nat)) (hD : DecodedFrom ins 0 metas)
    (hS : SuccsOk ins metas succs) :
    ∀ (j : Nat) (sl : List Nat), succs[j]? = some sl →
      ∀ s ∈ sl, s < metas.length := by
  intro j sl hsl
  obtain ⟨hlen, hat⟩ := hS
  have hj : j < metas.length := by
    rw [← hlen]
    exact getElem_some_lt hsl
  have hmj : metas[j]? = some (metas[j]) := List.getElem?_eq_getElem hj
  obtain ⟨hb, himm, hend, hnext, hlast⟩ := decodedFrom_metaAt ins metas 0 hD j _ hmj
  obtain ⟨sl', hsl', hspec⟩ := hat j _ hmj himm
  have hss : sl' = sl := by
    rw [hsl] at hsl'
    injection hsl' with h
    exact h.symm
  subst hss
  exact nodeSuccsSpec_range metas j _ sl' hspec

/-- Only believed node of the worklist's initial height vector. -/
theorem certHt_init (n : Nat) (tIdx : Nat) (j : Nat) (h : Int)
    (hd : certHt ((List.replicate n (none : Option Int)).set tIdx (some 0)) j =
      some h) : j = tIdx ∧ h = 0 := by
  unfold certHt at hd
  rw [List.getElem?_set] at hd
  split at hd
  next heq =>
    split at hd
    · injection hd with hd
      exact ⟨heq.symm, hd.symm⟩
    · cases hd
  next hne =>
    rw [List.getElem?_replicate] at hd
    split at hd
    · cases hd
    · cases hd

theorem sumsWf_nil (metas : List InstrMeta) (succs : List (List Nat)) :
    SumsWf metas succs [] := by
  intro t d h
  cases h

/-- One summarization sweep preserves summary well-formedness and only
extends the map. -/
theorem sweepAux_wf (metas : List InstrMeta) (succs : List (List Nat)) (F : Nat)
    (pendC : List Nat)
    (hrange : ∀ (j : Nat) (sl : List Nat), succs[j]? = some sl →
      ∀ s ∈ sl, s < metas.length) :
    ∀ (ts : List Nat) (sums : List (Nat × Int)) (pend : List Nat) (prog : Bool)
      (out : List (Nat × Int) × List Nat × Bool),
      SumsWf metas succs sums →
      sweepAux metas succs F pendC ts sums pend prog = some out →
      SumsWf metas succs out.1 ∧ SubSums sums out.1 := by
  intro ts
  induction ts with
  | nil =>
    intro sums pend prog out hw hrun
    unfold sweepAux at hrun
    injection hrun with h
    rw [← h]
    exact ⟨hw, subSums_refl sums⟩
  | cons t ts ih =>
    intro sums pend prog out hw hrun
    unfold sweepAux at hrun
    split at hrun
    · exact ih sums (pend.erase t) prog out hw hrun
    next hnotsome =>
      split at hrun
      · exact ih sums (pend.erase t) prog out hw hrun
      next tIdx hoff =>
        split at hrun
        · cases hrun
        · exact ih sums pend prog out hw hrun
        next rets0 HF hok =>
          rcases rets0 with _ | ⟨r0, rtl⟩
          · dsimp only at hrun
            exact ih sums pend prog out hw hrun
          · dsimp only at hrun
            split at hrun
            next hall =>
              have hfresh : lookupSum sums t = none := by
                cases hmm : lookupSum sums t
                · rfl
                · rw [hmm] at hnotsome
                  simp at hnotsome
              have hsnn : ∀ t' d', lookupSum sums t' = some d' → 0 ≤ d' :=
                fun t' d' h' => (hw t' d' h').1
              obtain ⟨mt, hmt, hmoff⟩ := offIdx_sound t metas tIdx hoff
              have htlt : tIdx < metas.length := getElem_some_lt hmt
              have hinv0 : LInv metas succs sums pendC
                  ((List.replicate metas.length (none : Option Int)).set tIdx
                    (some 0)) [tIdx] [] := by
                refine ⟨by simp, ?_, by simp, ?_, ?_⟩
                · intro j h hd
                  rw [(certHt_init metas.length tIdx j h hd).2]
                · intro j h hd
                  rw [(certHt_init metas.length tIdx j h hd).1]
                  exact Or.inl (List.mem_singleton.mpr rfl)
                · intro j h m hd hm hopr
                  rw [(certHt_init metas.length tIdx j h hd).1]
                  exact Or.inl (List.mem_singleton.mpr rfl)
              obtain ⟨flen, fdec, fnn, frnn, fcert, fret⟩ :=
                localFlow_inv metas succs sums pendC hsnn hrange F _ _ _
                  (r0 :: rtl) HF hinv0 hok
              have hstart : certHt ((List.replicate metas.length
                  (none : Option Int)).set tIdx (some 0)) tIdx = some 0 := by
                have : tIdx < (List.replicate metas.length
                    (none : Option Int)).length := by simpa using htlt
                exact certHt_set_self _ tIdx 0 this
              obtain ⟨h0, hent, hent0⟩ := fdec tIdx 0 hstart
              have hr0nn : (0 : Int) ≤ r0 := frnn r0 (List.mem_cons_self r0 rtl)
              have hretprop : ∀ j h m, certHt HF j = some h →
                  metas[j]? = some m → m.opcode = .ret → h = r0 := by
                intro j h m hd hm hopr
                have hmem := fret j h m hd hm hopr
                have := List.all_eq_true.mp hall h hmem
                exact beq_iff_eq.mp this
              have hwf' : SumsWf metas succs ((t, r0) :: sums) := by
                intro t' d' h'
                unfold lookupSum at h'
                split at h'
                next heq =>
                  injection h' with h'
                  subst h'
                  subst heq
                  exact ⟨hr0nn, sums, pendC, tIdx, HF, hoff, flen, fcert, fnn,
                    hretprop, ⟨h0, hent, hent0⟩, subSums_cons_fresh hfresh⟩
                next hne =>
                  obtain ⟨hd0, rsums, rsnap, tI, H, ho, hl, hc, hn, hrp, hent',
                    hss⟩ := hw t' d' h'
                  exact ⟨hd0, rsums, rsnap, tI, H, ho, hl, hc, hn, hrp, hent',
                    subSums_trans hss (subSums_cons_fresh hfresh)⟩
              obtain ⟨hw2, hsub2⟩ := ih ((t, r0) :: sums) (pend.erase t) true out
                hwf' hrun
              exact ⟨hw2, subSums_trans (subSums_cons_fresh hfresh) hsub2⟩
            · exact ih sums pend prog out hw hrun

/-- The inner fallback fixed point preserves summary well-formedness. -/
theorem fbLoop_wf (metas : List InstrMeta) (succs : List (List Nat)) (F : Nat)
    (hrange : ∀ (j : Nat) (sl : List Nat), succs[j]? = some sl →
      ∀ s ∈ sl, s < metas.length) :
    ∀ (n : Nat) (sums : List (Nat × Int)) (pend : List Nat)
      (out : List (Nat × Int) × List Nat),
      SumsWf metas succs sums →
      fbLoop metas succs F n sums pend = some out →
      SumsWf metas succs out.1 ∧ SubSums sums out.1 := by
  intro n
  induction n with
  | zero =>
    intro sums pend out hw hrun
    unfold fbLoop at hrun
    cases hrun
  | succ k ih =>
    intro sums pend out hw hrun
    unfold fbLoop at hrun
    split at hrun
    · cases hrun
    next sums' pend' prog hs =>
      obtain ⟨hw1, hsub1⟩ :=
        sweepAux_wf metas succs F pend hrange pend sums pend false
          (sums', pend', prog) hw hs
      split at hrun
      · obtain ⟨hw2, hsub2⟩ := ih sums' pend' out hw1 hrun
        exact ⟨hw2, subSums_trans hsub1 hsub2⟩
      · injection hrun with h
        rw [← h]
        exact ⟨hw1, hsub1⟩

/-- The outer summarization fixed point preserves summary well-formedness. -/
theorem fixLoop_wf (metas : List InstrMeta) (succs : List (List Nat)) (F : Nat)
    (hrange : ∀ (j : Nat) (sl : List Nat), succs[j]? = some sl →
      ∀ s ∈ sl, s < metas.length) :
    ∀ (n : Nat) (sums : List (Nat × Int)) (pend : List Nat)
      (out : List (Nat × Int) × List Nat),
      SumsWf metas succs sums →
      fixLoop metas succs F n sums pend = some out →
      SumsWf metas succs out.1 := by
  intro n
  induction n with
  | zero =>
    intro sums pend out hw hrun
    unfold fixLoop at hrun
    cases hrun
  | succ k ih =>
    intro sums pend out hw hrun
    unfold fixLoop at hrun
    dsimp only at hrun
    split at hrun
    · cases hrun
    next sums2 pend2 hfb =>
      have hw2 : SumsWf metas succs sums2 := by
        rcases hpe : pend.isEmpty with _ | _
        · rw [hpe, if_neg (by simp)] at hfb
          exact (fbLoop_wf metas succs F hrange F sums pend (sums2, pend2)
            hw hfb).1
        · rw [hpe, if_pos rfl] at hfb
          injection hfb with h
          rw [show sums2 = sums from (congrArg Prod.fst h).symm]
          exact hw
      split at hrun
      · cases hrun
      next sums3 pend3 prog hs =>
        obtain ⟨hw3, hsub3⟩ :=
          sweepAux_wf metas succs F [] hrange pend sums2 pend2 false
            (sums3, pend3, prog) hw2 hs
        split at hrun
        · exact ih sums3 pend3 out hw3 hrun
        · injection hrun with h
          rw [← h]
          exact hw3

/-- `decode_instrs` succeeding yields the decode contract from offset 0. -/
theorem decodeInstrs_decodedFrom (ins : List Nat) (metas : List InstrMeta)
    (h : decodeInstrs ins = .ok metas) : DecodedFrom ins 0 metas :=
  decodedFrom_of_decodeAux ins (ins.length + 1) 0 metas h

theorem decodedFrom_zero_nil (ins : List Nat) (h : DecodedFrom ins 0 []) :
    ins = [] := by
  have hle : ins.length ≤ 0 := h
  exact List.eq_nil_of_length_eq_zero (Nat.le_zero.mp hle)

/-- What a successful CFG analysis run consists of. -/
theorem analyze_ok_facts (F : Nat) (ins : List Nat) (caps : List Nat)
    (h : analyzeInstructionsCfg F ins = .ok caps) :
    ∃ metas succs sums pend,
      decodeInstrs ins = .ok metas ∧
      buildSuccs metas = .ok succs ∧
      fixLoop metas succs F F [] (callTargetOffsets metas) = some (sums, pend) ∧
      (metas = [] ∨
        ∃ HF, globalFlow metas succs sums ins F
          ((List.replicate metas.length (none : Option Int)).set 0 (some 0))
          [0] [] = .gok caps HF) := by
  unfold analyzeInstructionsCfg at h
  split at h
  · cases h
  next metas hdec =>
    split at h
    · cases h
    next succs hsuc =>
      split at h
      · cases h
      next sums pend hfix =>
        refine ⟨metas, succs, sums, pend, hdec, hsuc, hfix, ?_⟩
        split at h
        next hemp =>
          exact Or.inl (List.isEmpty_iff.mp hemp)
        next hemp =>
          split at h
          · cases h
          · cases h
          next caps' HF hglob =>
            injection h with h
            rw [← h]
            exact Or.inr ⟨HF, hglob⟩

theorem ctxOk_none {C : LoadCtx} {c : Ctx} (h : CtxOk C c) (hm : c.mode = none) :
    c.H = C.Hg ∧ c.base = 0 := by
  obtain ⟨-, h2⟩ := h
  rw [hm] at h2
  exact h2

theorem ctxOk_some {C : LoadCtx} {c : Ctx} {d : Int} (h : CtxOk C c)
    (hm : c.mode = some d) :
    0 ≤ d ∧
    ∃ rsums rsnap,
      LocalCert C.metas C.succs rsums rsnap c.H ∧
      SubSums rsums C.gsums ∧
      (∀ j h m, certHt c.H j = some h → C.metas[j]? = some m →
        m.opcode = .ret → h = d) ∧
      (∀ j h, certHt c.H j = some h → 0 ≤ h) := by
  obtain ⟨-, h2⟩ := h
  rw [hm] at h2
  exact h2

theorem chain_head_ctxOk (C : LoadCtx) (c : Ctx) (cs : List Ctx)
    (fs : List CallFrame) (h : Chain C (c :: cs) fs) : CtxOk C c := by
  rcases cs with _ | ⟨c2, cs'⟩ <;> rcases fs with _ | ⟨f, fs'⟩
  · exact h.elim
  · rcases fs' with _ | ⟨f2, fs''⟩
    · exact h.1
    · exact h.elim
  · exact h.elim
  · exact h.1

theorem chain_shape (C : LoadCtx) (c : Ctx) (cs : List Ctx)
    (fs : List CallFrame) (h : Chain C (c :: cs) fs) :
    ∃ f fs', fs = f :: fs' := by
  rcases fs with _ | ⟨f, fs'⟩
  · rcases cs with _ | ⟨c2, cs'⟩ <;> exact h.elim
  · exact ⟨f, fs', rfl⟩

theorem chain_replace_head (C : LoadCtx) (c : Ctx) (cs : List Ctx)
    (f f' : CallFrame) (fs : List CallFrame)
    (h : Chain C (c :: cs) (f :: fs)) (hr : f'.returnIp = f.returnIp) :
    Chain C (c :: cs) (f' :: fs) := by
  rcases cs with _ | ⟨c2, cs'⟩
  · rcases fs with _ | ⟨f2, fs'⟩
    · exact h
    · exact h.elim
  · obtain ⟨h1, ⟨d, hd, hlink⟩, h3⟩ := h
    exact ⟨h1, ⟨d, hd, hr ▸ hlink⟩, h3⟩

theorem chain_mode_none (C : LoadCtx) (c : Ctx) (cs : List Ctx)
    (f : CallFrame) (fs : List CallFrame)
    (h : Chain C (c :: cs) (f :: fs)) (hm : c.mode = none) :
    cs = [] ∧ fs = [] := by
  rcases cs with _ | ⟨c2, cs'⟩
  · rcases fs with _ | ⟨f2, fs'⟩
    · exact ⟨rfl, rfl⟩
    · exact h.elim
  · obtain ⟨-, ⟨d, hd, -⟩, -⟩ := h
    rw [hm] at hd
    cases hd

theorem chain_mode_some (C : LoadCtx) (c : Ctx) (cs : List Ctx)
    (f : CallFrame) (fs : List CallFrame) (D : Int)
    (h : Chain C (c :: cs) (f :: fs)) (hm : c.mode = some D) :
    ∃ c2 cs', cs = c2 :: cs' ∧ RetLink C c c2 D f.returnIp ∧
      Chain C (c2 :: cs') fs := by
  rcases cs with _ | ⟨c2, cs'⟩
  · rcases fs with _ | ⟨f2, fs'⟩
    · rw [h.2] at hm
      cases hm
    · exact h.elim
  · obtain ⟨-, ⟨d, hd, hlink⟩, h3⟩ := h
    have hdD : d = D := by
      rw [hm] at hd
      injection hd with h
      exact h.symm
    subst hdD
    exact ⟨c2, cs', rfl, hlink, h3⟩

/-- The central certificate-extraction step: at a believed node, some `nh`
bounds all successor beliefs while satisfying the opcode's guards. -/
theorem ctx_effect (C : LoadCtx) (hC : C.Ok) (c : Ctx) (hc : CtxOk C c)
    (j : Nat) (h : Int) (m : InstrMeta) (hj : certHt c.H j = some h)
    (hm : C.metas[j]? = some m) (hgj : ∃ hg, certHt C.Hg j = some hg) :
    ∃ nh, SuccsLe C.succs c.H j nh ∧ OpGuard C c m h nh := by
  obtain ⟨-, -, hWf, -, hGC, -⟩ := hC
  rcases hmode : c.mode with _ | d
  · obtain ⟨hH, hbase⟩ := ctxOk_none hc hmode
    have hjg : certHt C.Hg j = some h := by rw [← hH]; exact hj
    obtain ⟨nh, cap, heff, hsucc⟩ := hGC j h m hjg hm
    have hsucc' : SuccsLe C.succs c.H j nh := by rw [hH]; exact hsucc
    refine ⟨nh, hsucc', ?_⟩
    unfold globalEffect at heff
    unfold OpGuard
    rcases hopc : m.opcode <;> rw [hopc] at heff <;> dsimp only at heff ⊢
    case call =>
      rcases ht : m.target with _ | t
      · rw [ht] at heff
        cases heff
      · rw [ht] at heff
        dsimp only at heff
        rcases hl : lookupSum C.gsums t with _ | D
        · rw [hl] at heff
          cases heff
        · rw [hl] at heff
          injection heff with he1
          injection he1 with ha hb
          exact ⟨t, D, rfl, hl, (hWf t D hl).1, by omega⟩
    case externalCall =>
      split at heff
      · cases heff
      next hlen =>
        split at heff
        · cases heff
        next hargc =>
          injection heff with he1
          injection he1 with ha hb
          exact ⟨hmode, by omega, by omega, by omega⟩
    case ret =>
      injection heff with he1
      injection he1 with ha hb
      refine ⟨ha.symm, ?_⟩
      intro d hd
      rw [hmode] at hd
      cases hd
    all_goals
      first
        | (cases heff
           omega)
        | (split at heff
           · cases heff
           · cases heff
             omega)
  · obtain ⟨hd0, rsums, rsnap, hLC, hsub, hretp, hnn⟩ := ctxOk_some hc hmode
    obtain ⟨nh, isRet, heff, hsucc⟩ := hLC j h m hj hm
    refine ⟨nh, hsucc, ?_⟩
    unfold localEffect at heff
    unfold OpGuard
    rcases hopc : m.opcode <;> rw [hopc] at heff <;> dsimp only at heff ⊢
    case call =>
      rcases ht : m.target with _ | t
      · rw [ht] at heff
        cases heff
      · rw [ht] at heff
        dsimp only at heff
        rcases hl : lookupSum rsums t with _ | D
        · rw [hl] at heff
          dsimp only at heff
          split at heff
          next hmem =>
            injection heff with he1
            injection he1 with ha hb
            obtain ⟨hg, hjg⟩ := hgj
            obtain ⟨nh2, cap2, heff2, -⟩ := hGC j hg m hjg hm
            unfold globalEffect at heff2
            rw [hopc, ht] at heff2
            dsimp only at heff2
            rcases hl2 : lookupSum C.gsums t with _ | D2
            · rw [hl2] at heff2
              cases heff2
            · rw [hl2] at heff2
              exact ⟨t, D2, rfl, hl2, (hWf t D2 hl2).1, by
                have := (hWf t D2 hl2).1
                omega⟩
          · cases heff
        · rw [hl] at heff
          injection heff with he1
          injection he1 with ha hb
          exact ⟨t, D, rfl, hsub t D hl, (hWf t D (hsub t D hl)).1, by omega⟩
    case externalCall => cases heff
    case ret =>
      injection heff with he1
      injection he1 with ha hb
      refine ⟨ha.symm, ?_⟩
      intro d' hd'
      have hdd : d' = d := by
        rw [hmode] at hd'
        injection hd' with h
        exact h.symm
      subst hdd
      exact hretp j h m hj hm hopc
    all_goals
      first
        | (cases heff
           omega)
        | (split at heff
           · cases heff
           · cases heff
             omega)

/-! ## C1 infrastructure, part 4: runtime step shapes -/
theorem stack_pop_of_len (s : Stack) (hne : s.values ≠ []) :
    ∃ v r, s.values = v :: r ∧ s.pop = .ok (v, { s with values := r }) := by
  rcases hv : s.values with _ | ⟨v, r⟩
  · exact absurd hv hne
  · refine ⟨v, r, rfl, ?_⟩
    unfold Stack.pop
    rw [hv]

theorem stack_push_cases (s : Stack) (v : Value) :
    s.push v = .error .stackOverflow ∨
    s.push v = .ok { s with values := v :: s.values } := by
  unfold Stack.push
  split
  · exact Or.inl rfl
  · exact Or.inr rfl

theorem stack_dup_cases (s : Stack) (hne : s.values ≠ []) :
    s.dup = .error .stackOverflow ∨
    ∃ v, s.dup = .ok { s with values := v :: s.values } := by
  obtain ⟨v, r, hv, hpop⟩ := stack_pop_of_len s hne
  have hpeek : s.peek = .ok v := by
    unfold Stack.peek
    rw [hv]
  unfold Stack.dup
  rw [hpeek]
  dsimp only
  rcases stack_push_cases s v with hp | hp
  · rw [hp]
    exact Or.inl rfl
  · rw [hp]
    exact Or.inr ⟨v, rfl⟩

theorem constantPool_get_err {p : ConstantPool} {i : Nat} {e : VreError}
    (h : p.get i = .error e) : e = .invalidConstantAccess i := by
  unfold ConstantPool.get at h
  split at h
  · cases h
  · injection h with h
    exact h.symm

theorem locals_load_err {l : Locals} {i : Nat} {e : VreError}
    (h : l.load i = .error e) : e = .invalidLocalAccess i := by
  unfold Locals.load at h
  split at h
  · cases h
  · injection h with h
    exact h.symm

theorem locals_store_err {l : Locals} {i : Nat} {v : Value} {e : VreError}
    (h : l.store i v = .error e) : e = .invalidLocalAccess i := by
  unfold Locals.store at h
  split at h
  · injection h with h
    exact h.symm
  · cases h

theorem capability_check_err {r : CapabilityRegistry} {i : Nat} {e : VreError}
    (h : r.check i = some e) : e = .capabilityDenied := by
  unfold CapabilityRegistry.check at h
  split at h
  · cases h
  · injection h with h
    exact h.symm

/-- Two numeric pops and a push: never a stack underflow once two values
are on the stack, and on success the stack shrinks by one with nothing else
but the stack touched. -/
theorem binaryNumeric_spec (vm : VM) (f : Nat → Nat → Nat)
    (hlen : 2 ≤ vm.stack.values.length) :
    (∃ e, (vm.binaryNumeric f).2 = some e ∧ e ≠ .stackUnderflow) ∨
    ((vm.binaryNumeric f).2 = none ∧ Quiet vm (vm.binaryNumeric f).1 ∧
      (vm.binaryNumeric f).1.ip = vm.ip ∧
      (vm.binaryNumeric f).1.stack.values.length + 1 =
        vm.stack.values.length) := by
  rcases hv : vm.stack.values with _ | ⟨v1, r1⟩
  · rw [hv] at hlen
    simp at hlen
  rcases hr : r1 with _ | ⟨v2, r2⟩
  · rw [hv, hr] at hlen
    simp at hlen
  subst hr
  have hpop1 : vm.stack.pop = .ok (v1, { vm.stack with values := v2 :: r2 }) := by
    unfold Stack.pop
    rw [hv]
  unfold VM.binaryNumeric VM.popNumber
  rw [hpop1]
  dsimp only
  rcases v1 with _ | b1 | n1 | i1
  case num =>
    dsimp only [Stack.pop]
    rcases v2 with _ | b2 | n2 | i2 <;> dsimp only
    case num =>
      rcases stack_push_cases { vm.stack with values := r2 }
          (Value.num (f n2 n1)) with hp2 | hp2
      · rw [hp2]
        dsimp only
        exact Or.inl ⟨.stackOverflow, rfl, by intro hx; cases hx⟩
      · rw [hp2]
        dsimp only
        refine Or.inr ⟨rfl, Quiet.of_stack vm _, rfl, by simp⟩
    all_goals exact Or.inl ⟨.typeMismatch, rfl, by intro hx; cases hx⟩
  all_goals exact Or.inl ⟨.typeMismatch, rfl, by intro hx; cases hx⟩

/-- The comparison twin of `binaryNumeric_spec`. -/
theorem compare_spec (vm : VM) (f : Nat → Nat → Bool)
    (hlen : 2 ≤ vm.stack.values.length) :
    (∃ e, (vm.compare f).2 = some e ∧ e ≠ .stackUnderflow) ∨
    ((vm.compare f).2 = none ∧ Quiet vm (vm.compare f).1 ∧
      (vm.compare f).1.ip = vm.ip ∧
      (vm.compare f).1.stack.values.length + 1 =
        vm.stack.values.length) := by
  rcases hv : vm.stack.values with _ | ⟨v1, r1⟩
  · rw [hv] at hlen
    simp at hlen
  rcases hr : r1 with _ | ⟨v2, r2⟩
  · rw [hv, hr] at hlen
    simp at hlen
  subst hr
  have hpop1 : vm.stack.pop = .ok (v1, { vm.stack with values := v2 :: r2 }) := by
    unfold Stack.pop
    rw [hv]
  unfold VM.compare VM.popNumber
  rw [hpop1]
  dsimp only
  rcases v1 with _ | b1 | n1 | i1
  case num =>
    dsimp only [Stack.pop]
    rcases v2 with _ | b2 | n2 | i2 <;> dsimp only
    case num =>
      rcases stack_push_cases { vm.stack with values := r2 }
          (Value.bool (f n2 n1)) with hp2 | hp2
      · rw [hp2]
        dsimp only
        exact Or.inl ⟨.stackOverflow, rfl, by intro hx; cases hx⟩
      · rw [hp2]
        dsimp only
        refine Or.inr ⟨rfl, Quiet.of_stack vm _, rfl, by simp⟩
    all_goals exact Or.inl ⟨.typeMismatch, rfl, by intro hx; cases hx⟩
  all_goals exact Or.inl ⟨.typeMismatch, rfl, by intro hx; cases hx⟩

/-- The Div arm: like `binaryNumeric_spec`, with a division-by-zero exit. -/
theorem stepOp_div_spec (ops : NumOps) (vm : VM)
    (hlen : 2 ≤ vm.stack.values.length) :
    (∃ e, (VM.stepOp ops .div vm).2 = some e ∧ e ≠ .stackUnderflow) ∨
    ((VM.stepOp ops .div vm).2 = none ∧ Quiet vm (VM.stepOp ops .div vm).1 ∧
      (VM.stepOp ops .div vm).1.ip = vm.ip ∧
      (VM.stepOp ops .div vm).1.stack.values.length + 1 =
        vm.stack.values.length) := by
  rcases hv : vm.stack.values with _ | ⟨v1, r1⟩
  · rw [hv] at hlen
    simp at hlen
  rcases hr : r1 with _ | ⟨v2, r2⟩
  · rw [hv, hr] at hlen
    simp at hlen
  subst hr
  have hpop1 : vm.stack.pop = .ok (v1, { vm.stack with values := v2 :: r2 }) := by
    unfold Stack.pop
    rw [hv]
  simp only [VM.stepOp]
  unfold VM.popNumber
  rw [hpop1]
  dsimp only
  rcases v1 with _ | b1 | n1 | i1
  case num =>
    dsimp only
    rcases hz : ops.isZero n1 with _ | _
    · rw [if_neg (by simp [hz])]
      dsimp only [Stack.pop]
      rcases v2 with _ | b2 | n2 | i2 <;> dsimp only
      case num =>
        rcases stack_push_cases { vm.stack with values := r2 }
            (Value.num (ops.div n2 n1)) with hp2 | hp2
        · rw [hp2]
          dsimp only
          exact Or.inl ⟨.stackOverflow, rfl, by intro hx; cases hx⟩
        · rw [hp2]
          dsimp only
          refine Or.inr ⟨rfl, Quiet.of_stack vm _, rfl, by simp⟩
      all_goals exact Or.inl ⟨.typeMismatch, rfl, by intro hx; cases hx⟩
    · rw [if_pos rfl]
      exact Or.inl ⟨.divisionByZero, rfl, by intro hx; cases hx⟩
  all_goals exact Or.inl ⟨.typeMismatch, rfl, by intro hx; cases hx⟩

/-- Fall-through membership: for an opcode with a fall-through edge, the
next instruction (when it exists) is among the successors. -/
theorem nodeSuccsSpec_ft_mem (metas : List InstrMeta) (j : Nat) (m : InstrMeta)
    (sl : List Nat) (hs : NodeSuccsSpec metas j m sl)
    (hop : m.opcode ≠ .halt ∧ m.opcode ≠ .nop ∧ m.opcode ≠ .ret ∧
      m.opcode ≠ .jump)
    (hlt : j + 1 < metas.length) : j + 1 ∈ sl := by
  have hft : j + 1 ∈ ftList metas j := by
    unfold ftList
    rw [if_pos hlt]
    exact List.mem_singleton.mpr rfl
  unfold NodeSuccsSpec at hs
  rcases hopc : m.opcode <;> rw [hopc] at hs <;> dsimp only at hs
  case halt => exact absurd hopc hop.1
  case nop => exact absurd hopc hop.2.1
  case ret => exact absurd hopc hop.2.2.1
  case jump => exact absurd hopc hop.2.2.2
  case jumpIf =>
    obtain ⟨t, ti, -, -, hsl⟩ := hs
    rw [hsl]
    exact List.mem_cons_of_mem ti hft
  case call =>
    obtain ⟨t, ti, -, -, hsl⟩ := hs
    rw [hsl]
    exact List.mem_cons_of_mem ti hft
  all_goals
    rw [hs]
    exact hft

/-- Every successor of a globally believed node is globally believed. -/
theorem global_succ_defined (C : LoadCtx) (hC : C.Ok) (j : Nat) (hg : Int)
    (m : InstrMeta) (hjg : certHt C.Hg j = some hg) (hm : C.metas[j]? = some m) :
    ∀ s ∈ (C.succs[j]?).getD [], ∃ h', certHt C.Hg s = some h' := by
  obtain ⟨-, -, -, -, hGC, -⟩ := hC
  obtain ⟨nh, cap, -, hsucc⟩ := hGC j hg m hjg hm
  intro s hs
  obtain ⟨h', hd, -⟩ := hsucc s hs
  exact ⟨h', hd⟩

/-- Re-establish the simulation invariant at the fall-through successor. -/
theorem sim_fallthrough (C : LoadCtx) (hC : C.Ok) (c : Ctx) (cs : List Ctx)
    (vmp : VM) (hins : vmp.instructions = C.ins)
    (hchain : Chain C (c :: cs) vmp.callStack)
    (j : Nat) (m : InstrMeta) (hm : C.metas[j]? = some m)
    (hop : m.opcode ≠ .halt ∧ m.opcode ≠ .nop ∧ m.opcode ≠ .ret ∧
      m.opcode ≠ .jump)
    (nh : Int) (hsucc : SuccsLe C.succs c.H j nh)
    (hgj : ∃ hg, certHt C.Hg j = some hg)
    (hip : vmp.ip = m.offset + 1 + m.immLen)
    (hstk : (c.base : Int) + nh ≤ (vmp.stack.values.length : Int)) :
    SimInv C vmp := by
  have hD := hC.1
  have hS := hC.2.1
  obtain ⟨-, himm, hend, hnext, hlast⟩ :=
    decodedFrom_metaAt C.ins C.metas 0 hD j m hm
  refine ⟨hins, ?_⟩
  rcases hm1 : C.metas[j + 1]? with _ | m'
  · exact Or.inr (Or.inl (by rw [hip, hlast hm1]))
  · refine Or.inr (Or.inr ⟨c, cs, hchain, ?_⟩)
    have hlt : j + 1 < C.metas.length := getElem_some_lt hm1
    obtain ⟨sl, hsl, hspec⟩ := hS.2 j m hm himm
    have hmem : j + 1 ∈ (C.succs[j]?).getD [] := by
      rw [hsl]
      exact nodeSuccsSpec_ft_mem C.metas j m sl hspec hop hlt
    obtain ⟨h', hd', hle'⟩ := hsucc (j + 1) hmem
    obtain ⟨hg, hjg⟩ := hgj
    obtain ⟨hg', hdg'⟩ := global_succ_defined C hC j hg m hjg hm (j + 1) hmem
    exact ⟨j + 1, m', h', hm1, by rw [hip, hnext m' hm1], hd',
      by omega, ⟨hg', hdg'⟩⟩

theorem stepOp_pop_spec (ops : NumOps) (vm : VM)
    (hne : 1 ≤ vm.stack.values.length) :
    (VM.stepOp ops .pop vm).2 = none ∧ Quiet vm (VM.stepOp ops .pop vm).1 ∧
    (VM.stepOp ops .pop vm).1.ip = vm.ip ∧
    (VM.stepOp ops .pop vm).1.stack.values.length + 1 =
      vm.stack.values.length := by
  obtain ⟨v, r, hv, hpop⟩ := stack_pop_of_len vm.stack
    (by intro hnil; rw [hnil] at hne; simp at hne)
  simp only [VM.stepOp]
  rw [hpop]
  dsimp only
  exact ⟨rfl, Quiet.of_stack vm _, rfl, by rw [hv]; rfl⟩

theorem stepOp_dup_spec (ops : NumOps) (vm : VM)
    (hne : 1 ≤ vm.stack.values.length) :
    (∃ e, (VM.stepOp ops .dup vm).2 = some e ∧ e ≠ .stackUnderflow) ∨
    ((VM.stepOp ops .dup vm).2 = none ∧ Quiet vm (VM.stepOp ops .dup vm).1 ∧
      (VM.stepOp ops .dup vm).1.ip = vm.ip ∧
      (VM.stepOp ops .dup vm).1.stack.values.length =
        vm.stack.values.length + 1) := by
  rcases stack_dup_cases vm.stack
      (by intro hnil; rw [hnil] at hne; simp at hne) with hd | ⟨v, hd⟩
  · simp only [VM.stepOp]
    rw [hd]
    exact Or.inl ⟨.stackOverflow, rfl, by intro hx; cases hx⟩
  · simp only [VM.stepOp]
    rw [hd]
    dsimp only
    exact Or.inr ⟨rfl, Quiet.of_stack vm _, rfl, by simp⟩

/-- Shared glue for opcodes that only touch the operand stack: an error
other than underflow, or a fall-through with a stack delta. -/
theorem sim_quiet_op (C : LoadCtx) (hC : C.Ok) (c : Ctx) (cs : List Ctx)
    (vm : VM) (j : Nat) (m : InstrMeta) (h nh : Int) (delta : Int)
    (res : VM × Option VreError)
    (hat : AtNode C c cs vm j m h) (hsucc : SuccsLe C.succs c.H j nh)
    (hop4 : m.opcode ≠ .halt ∧ m.opcode ≠ .nop ∧ m.opcode ≠ .ret ∧
      m.opcode ≠ .jump)
    (himl : m.immLen = 0) (hdelta : nh ≤ h + delta)
    (hspec : (∃ e, res.2 = some e ∧ e ≠ .stackUnderflow) ∨
      (res.2 = none ∧ Quiet { vm with ip := vm.ip + 1 } res.1 ∧
        res.1.ip = vm.ip + 1 ∧
        (res.1.stack.values.length : Int) =
          (vm.stack.values.length : Int) + delta)) :
    (∀ e, res.2 = some e → e ≠ .stackUnderflow) ∧
    (res.2 = none → SimInv C res.1) := by
  obtain ⟨hins, hchain, hm, hoff, hj, hstk, hgj⟩ := hat
  rcases hspec with ⟨e, he, hne⟩ | ⟨hnone, hquiet, hip, hlen⟩
  · refine ⟨?_, ?_⟩
    · intro e' he'
      rw [he] at he'
      injection he' with he'
      rw [← he']
      exact hne
    · intro hn
      rw [he] at hn
      cases hn
  · refine ⟨?_, ?_⟩
    · intro e' he'
      rw [hnone] at he'
      cases he'
    · intro _
      have hq' : res.1 = { { vm with ip := vm.ip + 1 } with
          stack := res.1.stack
          ip := res.1.ip } := hquiet
      have hinst2 : res.1.instructions = vm.instructions := by rw [hq']
      have hcall2 : res.1.callStack = vm.callStack := by rw [hq']
      refine sim_fallthrough C hC c cs res.1 (hinst2.trans hins) ?_ j m hm hop4
        nh hsucc hgj ?_ ?_
      · rw [hcall2]
        exact hchain
      · rw [hip, himl]
        omega
      · omega

theorem simstep_push (C : LoadCtx) (hC : C.Ok) (ops : NumOps) (c : Ctx)
    (cs : List Ctx) (vm : VM) (j : Nat) (m : InstrMeta) (h nh : Int)
    (hat : AtNode C c cs vm j m h) (hsucc : SuccsLe C.succs c.H j nh)
    (hguard : OpGuard C c m h nh) (hopc : m.opcode = .push) :
    (∀ e, (VM.stepOp ops .push { vm with ip := vm.ip + 1 }).2 = some e →
      e ≠ .stackUnderflow) ∧
    ((VM.stepOp ops .push { vm with ip := vm.ip + 1 }).2 = none →
      SimInv C (VM.stepOp ops .push { vm with ip := vm.ip + 1 }).1) := by
  obtain ⟨hins, hchain, hm, hoff, hj, hstk, hgj⟩ := hat
  have himm := (decodedFrom_metaAt C.ins C.metas 0 hC.1 j m hm).2.1
  unfold ImmOk at himm
  rw [hopc] at himm
  obtain ⟨himl, hbound, -⟩ := himm
  unfold OpGuard at hguard
  rw [hopc] at hguard
  dsimp only at hguard
  have hop4 : m.opcode ≠ .halt ∧ m.opcode ≠ .nop ∧ m.opcode ≠ .ret ∧
      m.opcode ≠ .jump := by
    refine ⟨?_, ?_, ?_, ?_⟩ <;> (rw [hopc]; intro hx; cases hx)
  obtain ⟨ib, hib⟩ : ∃ ib, C.ins[m.offset + 1]? = some ib :=
    ⟨C.ins[m.offset + 1], List.getElem?_eq_getElem hbound⟩
  have hread : ({ vm with ip := vm.ip + 1 } : VM).readU8 =
      .ok (ib, { vm with ip := vm.ip + 1 + 1 }) := by
    refine VM.readU8_ok { vm with ip := vm.ip + 1 } ?_
    show vm.instructions[vm.ip + 1]? = some ib
    rw [hins, ← hoff]
    exact hib
  simp only [VM.stepOp]
  rw [hread]
  dsimp only
  rcases hget : vm.constants.get ib with e | v
  · refine ⟨?_, ?_⟩
    · intro e' he'
      injection he' with he'
      rw [← he', constantPool_get_err hget]
      intro hx
      cases hx
    · intro hn
      cases hn
  · dsimp only
    rcases stack_push_cases vm.stack v with hp | hp
    · rw [hp]
      refine ⟨?_, ?_⟩
      · intro e' he'
        injection he' with he'
        rw [← he']
        intro hx
        cases hx
      · intro hn
        cases hn
    · rw [hp]
      dsimp only
      refine ⟨fun e' he' => Option.noConfusion he', fun _ => ?_⟩
      refine sim_fallthrough C hC c cs _ hins hchain j m hm hop4 nh hsucc hgj
        ?_ ?_
      · show vm.ip + 1 + 1 = m.offset + 1 + m.immLen
        omega
      · show (c.base : Int) + nh ≤ ((v :: vm.stack.values).length : Int)
        simp only [List.length_cons]
        omega

theorem simstep_loadLocal (C : LoadCtx) (hC : C.Ok) (ops : NumOps) (c : Ctx)
    (cs : List Ctx) (vm : VM) (j : Nat) (m : InstrMeta) (h nh : Int)
    (hat : AtNode C c cs vm j m h) (hsucc : SuccsLe C.succs c.H j nh)
    (hguard : OpGuard C c m h nh) (hopc : m.opcode = .loadLocal) :
    (∀ e, (VM.stepOp ops .loadLocal { vm with ip := vm.ip + 1 }).2 = some e →
      e ≠ .stackUnderflow) ∧
    ((VM.stepOp ops .loadLocal { vm with ip := vm.ip + 1 }).2 = none →
      SimInv C (VM.stepOp ops .loadLocal { vm with ip := vm.ip + 1 }).1) := by
  obtain ⟨hins, hchain, hm, hoff, hj, hstk, hgj⟩ := hat
  have himm := (decodedFrom_metaAt C.ins C.metas 0 hC.1 j m hm).2.1
  unfold ImmOk at himm
  rw [hopc] at himm
  obtain ⟨himl, hbound, -⟩ := himm
  unfold OpGuard at hguard
  rw [hopc] at hguard
  dsimp only at hguard
  have hop4 : m.opcode ≠ .halt ∧ m.opcode ≠ .nop ∧ m.opcode ≠ .ret ∧
      m.opcode ≠ .jump := by
    refine ⟨?_, ?_, ?_, ?_⟩ <;> (rw [hopc]; intro hx; cases hx)
  obtain ⟨ib, hib⟩ : ∃ ib, C.ins[m.offset + 1]? = some ib :=
    ⟨C.ins[m.offset + 1], List.getElem?_eq_getElem hbound⟩
  have hread : ({ vm with ip := vm.ip + 1 } : VM).readU8 =
      .ok (ib, { vm with ip := vm.ip + 1 + 1 }) := by
    refine VM.readU8_ok { vm with ip := vm.ip + 1 } ?_
    show vm.instructions[vm.ip + 1]? = some ib
    rw [hins, ← hoff]
    exact hib
  simp only [VM.stepOp]
  rw [hread]
  dsimp only
  rcases hcs : vm.callStack with _ | ⟨f, rest⟩
  · refine ⟨?_, ?_⟩
    · intro e' he'
      injection he' with he'
      rw [← he']
      intro hx
      cases hx
    · intro hn
      cases hn
  · dsimp only
    rcases hld : f.locals.load ib with e | v
    · refine ⟨?_, ?_⟩
      · intro e' he'
        injection he' with he'
        rw [← he', locals_load_err hld]
        intro hx
        cases hx
      · intro hn
        cases hn
    · dsimp only
      rcases stack_push_cases vm.stack v with hp | hp
      · rw [hp]
        refine ⟨?_, ?_⟩
        · intro e' he'
          injection he' with he'
          rw [← he']
          intro hx
          cases hx
        · intro hn
          cases hn
      · rw [hp]
        dsimp only
        refine ⟨fun e' he' => Option.noConfusion he', fun _ => ?_⟩
        rw [hcs] at hchain
        refine sim_fallthrough C hC c cs _ hins hchain j m hm hop4 nh hsucc hgj
          ?_ ?_
        · show vm.ip + 1 + 1 = m.offset + 1 + m.immLen
          omega
        · show (c.base : Int) + nh ≤ ((v :: vm.stack.values).length : Int)
          simp only [List.length_cons]
          omega

theorem simstep_storeLocal (C : LoadCtx) (hC : C.Ok) (ops : NumOps) (c : Ctx)
    (cs : List Ctx) (vm : VM) (j : Nat) (m : InstrMeta) (h nh : Int)
    (hat : AtNode C c cs vm j m h) (hsucc : SuccsLe C.succs c.H j nh)
    (hguard : OpGuard C c m h nh) (hopc : m.opcode = .storeLocal) :
    (∀ e, (VM.stepOp ops .storeLocal { vm with ip := vm.ip + 1 }).2 = some e →
      e ≠ .stackUnderflow) ∧
    ((VM.stepOp ops .storeLocal { vm with ip := vm.ip + 1 }).2 = none →
      SimInv C (VM.stepOp ops .storeLocal { vm with ip := vm.ip + 1 }).1) := by
  obtain ⟨hins, hchain, hm, hoff, hj, hstk, hgj⟩ := hat
  have himm := (decodedFrom_metaAt C.ins C.metas 0 hC.1 j m hm).2.1
  unfold ImmOk at himm
  rw [hopc] at himm
  obtain ⟨himl, hbound, -⟩ := himm
  unfold OpGuard at hguard
  rw [hopc] at hguard
  dsimp only at hguard
  obtain ⟨hg1, hg2⟩ := hguard
  have hop4 : m.opcode ≠ .halt ∧ m.opcode ≠ .nop ∧ m.opcode ≠ .ret ∧
      m.opcode ≠ .jump := by
    refine ⟨?_, ?_, ?_, ?_⟩ <;> (rw [hopc]; intro hx; cases hx)
  obtain ⟨ib, hib⟩ : ∃ ib, C.ins[m.offset + 1]? = some ib :=
    ⟨C.ins[m.offset + 1], List.getElem?_eq_getElem hbound⟩
  have hread : ({ vm with ip := vm.ip + 1 } : VM).readU8 =
      .ok (ib, { vm with ip := vm.ip + 1 + 1 }) := by
    refine VM.readU8_ok { vm with ip := vm.ip + 1 } ?_
    show vm.instructions[vm.ip + 1]? = some ib
    rw [hins, ← hoff]
    exact hib
  have hne : vm.stack.values ≠ [] := by
    intro hnil
    rw [hnil] at hstk
    simp at hstk
    omega
  obtain ⟨v, r, hv, hpop⟩ := stack_pop_of_len vm.stack hne
  simp only [VM.stepOp]
  rw [hread]
  dsimp only
  rw [hpop]
  dsimp only
  rcases hcs : vm.callStack with _ | ⟨f, rest⟩
  · refine ⟨?_, ?_⟩
    · intro e' he'
      injection he' with he'
      rw [← he']
      intro hx
      cases hx
    · intro hn
      cases hn
  · dsimp only
    rcases hst : f.locals.store ib v with e | l2
    · refine ⟨?_, ?_⟩
      · intro e' he'
        injection he' with he'
        rw [← he', locals_store_err hst]
        intro hx
        cases hx
      · intro hn
        cases hn
    · dsimp only
      refine ⟨fun e' he' => Option.noConfusion he', fun _ => ?_⟩
      rw [hcs] at hchain
      have hchain' : Chain C (c :: cs) ({ f with locals := l2 } :: rest) :=
        chain_replace_head C c cs f { f with locals := l2 } rest hchain rfl
      refine sim_fallthrough C hC c cs _ hins hchain' j m hm hop4 nh hsucc hgj
        ?_ ?_
      · show vm.ip + 1 + 1 = m.offset + 1 + m.immLen
        omega
      · show (c.base : Int) + nh ≤ ((r : List Value).length : Int)
        have : vm.stack.values.length = r.length + 1 := by
          rw [hv]
          rfl
        omega

theorem simstep_externalCall (C : LoadCtx) (_hC : C.Ok) (ops : NumOps) (c : Ctx)
    (cs : List Ctx) (vm : VM) (j : Nat) (m : InstrMeta) (h nh : Int)
    (hat : AtNode C c cs vm j m h) (hguard : OpGuard C c m h nh)
    (hopc : m.opcode = .externalCall) :
    (∀ e, (VM.stepOp ops .externalCall { vm with ip := vm.ip + 1 }).2 = some e →
      e ≠ .stackUnderflow) ∧
    ((VM.stepOp ops .externalCall { vm with ip := vm.ip + 1 }).2 = none →
      SimInv C (VM.stepOp ops .externalCall { vm with ip := vm.ip + 1 }).1) := by
  obtain ⟨hins, hchain, hm, hoff, hj, hstk, hgj⟩ := hat
  unfold OpGuard at hguard
  rw [hopc] at hguard
  dsimp only at hguard
  obtain ⟨hmode, hb2, hargle, hnh⟩ := hguard
  obtain ⟨b1, hb1⟩ : ∃ x, C.ins[m.offset + 1]? = some x :=
    ⟨C.ins[m.offset + 1], List.getElem?_eq_getElem (by omega)⟩
  obtain ⟨b2v, hb2v⟩ : ∃ x, C.ins[m.offset + 2]? = some x :=
    ⟨C.ins[m.offset + 2], List.getElem?_eq_getElem hb2⟩
  have hread1 : ({ vm with ip := vm.ip + 1 } : VM).readU8 =
      .ok (b1, { vm with ip := vm.ip + 1 + 1 }) := by
    refine VM.readU8_ok _ ?_
    show vm.instructions[vm.ip + 1]? = some b1
    rw [hins, ← hoff]
    exact hb1
  have hread2 : ({ vm with ip := vm.ip + 1 + 1 } : VM).readU8 =
      .ok (b2v, { vm with ip := vm.ip + 1 + 1 + 1 }) := by
    refine VM.readU8_ok _ ?_
    show vm.instructions[vm.ip + 1 + 1]? = some b2v
    rw [hins, ← hoff]
    rw [show m.offset + 1 + 1 = m.offset + 2 from rfl]
    exact hb2v
  have hgetd : (C.ins[m.offset + 2]?).getD 0 = b2v := by
    rw [hb2v]
    rfl
  have hargc : b2v ≤ vm.stack.values.length := by
    rw [hgetd] at hargle
    omega
  have hpa := popArgs_ok b2v { vm with ip := vm.ip + 1 + 1 + 1 } [] hargc
  simp only [VM.stepOp]
  rw [hread1]
  dsimp only
  rw [hread2]
  dsimp only
  rw [hpa]
  dsimp only
  rcases hchk : vm.capabilities.check b1 with _ | e
  · refine ⟨fun e' he' => Option.noConfusion he', fun _ => ?_⟩
    exact ⟨hins, Or.inl rfl⟩
  · refine ⟨?_, ?_⟩
    · intro e' he'
      injection he' with he'
      rw [← he', capability_check_err hchk]
      intro hx
      cases hx
    · intro hn
      cases hn

theorem simstep_call (C : LoadCtx) (hC : C.Ok) (ops : NumOps) (c : Ctx)
    (cs : List Ctx) (vm : VM) (j : Nat) (m : InstrMeta) (h nh : Int)
    (hat : AtNode C c cs vm j m h) (hsucc : SuccsLe C.succs c.H j nh)
    (hguard : OpGuard C c m h nh) (hopc : m.opcode = .call) :
    (∀ e, (VM.stepOp ops .call { vm with ip := vm.ip + 1 }).2 = some e →
      e ≠ .stackUnderflow) ∧
    ((VM.stepOp ops .call { vm with ip := vm.ip + 1 }).2 = none →
      SimInv C (VM.stepOp ops .call { vm with ip := vm.ip + 1 }).1) := by
  obtain ⟨hins, hchain, hm, hoff, hj, hstk, hgj⟩ := hat
  obtain ⟨-, himm, hend2, hnext, hlast⟩ :=
    decodedFrom_metaAt C.ins C.metas 0 hC.1 j m hm
  have himmC := himm
  unfold ImmOk at himmC
  rw [hopc] at himmC
  obtain ⟨himl, hbound, htgtbe⟩ := himmC
  unfold OpGuard at hguard
  rw [hopc] at hguard
  dsimp only at hguard
  obtain ⟨t, D, htgt, hlook, hD0, hnhle⟩ := hguard
  have htbe : be32 C.ins (m.offset + 1) = t := by
    rw [htgt] at htgtbe
    injection htgtbe with h
    exact h.symm
  have hread : ({ vm with ip := vm.ip + 1 } : VM).readU32 =
      .ok (be32 vm.instructions (vm.ip + 1), { vm with ip := vm.ip + 1 + 4 }) := by
    refine VM.readU32_ok _ ?_
    show vm.ip + 1 + 4 ≤ vm.instructions.length
    rw [hins]
    omega
  have hbeq : be32 vm.instructions (vm.ip + 1) = t := by
    rw [hins, ← hoff]
    exact htbe
  -- the successor list at the call node
  obtain ⟨sl, hsl, hspec⟩ := hC.2.1.2 j m hm himm
  have hspecC := hspec
  unfold NodeSuccsSpec at hspecC
  rw [hopc] at hspecC
  dsimp only at hspecC
  obtain ⟨t2, ti, htgt2, hti, hsleq⟩ := hspecC
  have ht2 : t = t2 := by
    rw [htgt] at htgt2
    exact Option.some.inj htgt2
  subst ht2
  -- the summary certificate
  obtain ⟨hD0', rsums, rsnap, tIdx, Ht, hofft, hlent, hLC, hnns, hretp, hentE,
    hss⟩ := hC.2.2.1 t D hlook
  obtain ⟨h0, hent, hent0⟩ := hentE
  have hti2 : tIdx = ti := by
    rw [hofft] at hti
    exact Option.some.inj hti
  subst hti2
  obtain ⟨mt, hmt, hmtoff⟩ := offIdx_sound t C.metas tIdx hofft
  obtain ⟨hg, hjg⟩ := hgj
  have hgsucc := global_succ_defined C hC j hg m hjg hm
  have htiMem : tIdx ∈ (C.succs[j]?).getD [] := by
    rw [hsl, hsleq]
    exact List.mem_cons_self tIdx _
  simp only [VM.stepOp]
  rw [hread]
  dsimp only
  rw [hbeq]
  split
  next hge =>
    refine ⟨?_, ?_⟩
    · intro e' he'
      injection he' with he'
      rw [← he']
      intro hx
      cases hx
    · intro hn
      cases hn
  next hge =>
    refine ⟨fun e' he' => Option.noConfusion he', fun _ => ?_⟩
    have hcnewOk : CtxOk C
        (⟨Ht, vm.stack.values.length, some D⟩ : Ctx) := by
      refine ⟨hlent, ?_⟩
      show 0 ≤ D ∧ ∃ rsums rsnap,
        LocalCert C.metas C.succs rsums rsnap Ht ∧ SubSums rsums C.gsums ∧
        (∀ j h m, certHt Ht j = some h → C.metas[j]? = some m →
          m.opcode = .ret → h = D) ∧
        (∀ j h, certHt Ht j = some h → 0 ≤ h)
      exact ⟨hD0', rsums, rsnap, hLC, hss, hretp, hnns⟩
    have hlink : RetLink C (⟨Ht, vm.stack.values.length, some D⟩ : Ctx) c D
        (vm.ip + 1 + 4) := by
      rcases hm2 : C.metas[j + 1]? with _ | m2
      · left
        have := hlast hm2
        rw [himl] at this
        omega
      · right
        have hm2lt : j + 1 < C.metas.length := getElem_some_lt hm2
        have hftmem : j + 1 ∈ (C.succs[j]?).getD [] := by
          rw [hsl, hsleq]
          refine List.mem_cons_of_mem tIdx ?_
          unfold ftList
          rw [if_pos hm2lt]
          exact List.mem_singleton.mpr rfl
        obtain ⟨h', hd', hle'⟩ := hsucc (j + 1) hftmem
        obtain ⟨hg', hdg'⟩ := hgsucc (j + 1) hftmem
        refine ⟨j + 1, m2, h', hm2, ?_, hd', by
          show (c.base : Int) + h' ≤ ((vm.stack.values.length : Nat) : Int) + D
          omega, ⟨hg', hdg'⟩⟩
        have := hnext m2 hm2
        rw [himl] at this
        omega
    have hchainNew : Chain C
        ((⟨Ht, vm.stack.values.length, some D⟩ : Ctx) :: c :: cs)
        ({ returnIp := vm.ip + 1 + 4,
           locals := Locals.new vm.config.maxLocals } :: vm.callStack) := by
      refine ⟨hcnewOk, ⟨D, rfl, ?_⟩, hchain⟩
      exact hlink
    have hcurNew : Cur C (⟨Ht, vm.stack.values.length, some D⟩ : Ctx)
        { vm with
            ip := t
            callStack := { returnIp := vm.ip + 1 + 4, locals := Locals.new vm.config.maxLocals } :: vm.callStack } := by
      refine ⟨tIdx, mt, h0, hmt, hmtoff, hent, ?_, ?_⟩
      · show ((vm.stack.values.length : Nat) : Int) + h0 ≤
          (vm.stack.values.length : Int)
        omega
      · obtain ⟨hg', hdg'⟩ := hgsucc tIdx htiMem
        exact ⟨hg', hdg'⟩
    exact ⟨hins, Or.inr (Or.inr
      ⟨⟨Ht, vm.stack.values.length, some D⟩, c :: cs, hchainNew, hcurNew⟩)⟩

theorem simstep_ret (C : LoadCtx) (_hC : C.Ok) (ops : NumOps) (c : Ctx)
    (cs : List Ctx) (vm : VM) (j : Nat) (m : InstrMeta) (h nh : Int)
    (hat : AtNode C c cs vm j m h) (hguard : OpGuard C c m h nh)
    (hopc : m.opcode = .ret) :
    (∀ e, (VM.stepOp ops .ret { vm with ip := vm.ip + 1 }).2 = some e →
      e ≠ .stackUnderflow) ∧
    ((VM.stepOp ops .ret { vm with ip := vm.ip + 1 }).2 = none →
      SimInv C (VM.stepOp ops .ret { vm with ip := vm.ip + 1 }).1) := by
  obtain ⟨hins, hchain, hm, hoff, hj, hstk, hgj⟩ := hat
  unfold OpGuard at hguard
  rw [hopc] at hguard
  dsimp only at hguard
  obtain ⟨hnh, hretd⟩ := hguard
  simp only [VM.stepOp]
  obtain ⟨f, fs, hcs⟩ := chain_shape C c cs vm.callStack hchain
  rw [hcs] at hchain
  rcases hmode : c.mode with _ | D
  · obtain ⟨hnil1, hnil2⟩ := chain_mode_none C c cs f fs hchain hmode
    subst hnil2
    have hlen1 : ({ vm with ip := vm.ip + 1 } : VM).callStack.length ≤ 1 := by
      show vm.callStack.length ≤ 1
      rw [hcs]
      rfl
    rw [if_pos hlen1]
    refine ⟨?_, ?_⟩
    · intro e' he'
      injection he' with he'
      rw [← he']
      intro hx
      cases hx
    · intro hn
      cases hn
  · obtain ⟨c2, cs', hcseq, hlink, hchain2⟩ :=
      chain_mode_some C c cs f fs D hchain hmode
    obtain ⟨f2, fs2, hfs2⟩ := chain_shape C c2 cs' fs hchain2
    have hlen2 : ¬ ({ vm with ip := vm.ip + 1 } : VM).callStack.length ≤ 1 := by
      show ¬ vm.callStack.length ≤ 1
      rw [hcs, hfs2]
      simp
    rw [if_neg hlen2]
    have hcsm : ({ vm with ip := vm.ip + 1 } : VM).callStack = f :: fs := hcs
    rw [hcsm]
    dsimp only
    have hD : h = D := hretd D hmode
    split
    next hgt =>
      refine ⟨?_, ?_⟩
      · intro e' he'
        injection he' with he'
        rw [← he']
        intro hx
        cases hx
      · intro hn
        cases hn
    next hgt =>
      refine ⟨fun e' he' => Option.noConfusion he', fun _ => ?_⟩
      refine ⟨hins, ?_⟩
      rcases hlink with hrend | ⟨j2, m2, h2, hm2, hoff2, hd2, hineq, hgj2⟩
      · refine Or.inr (Or.inl ?_)
        show C.ins.length ≤ f.returnIp
        omega
      · refine Or.inr (Or.inr ⟨c2, cs', ?_, ?_⟩)
        · show Chain C (c2 :: cs') fs
          exact hchain2
        · refine ⟨j2, m2, h2, hm2, hoff2, hd2, ?_, hgj2⟩
          show (c2.base : Int) + h2 ≤ (vm.stack.values.length : Int)
          omega

theorem opcode_ne4 {m : InstrMeta} {o : OpCode} (hopc : m.opcode = o)
    (h1 : o ≠ .halt) (h2 : o ≠ .nop) (h3 : o ≠ .ret) (h4 : o ≠ .jump) :
    m.opcode ≠ .halt ∧ m.opcode ≠ .nop ∧ m.opcode ≠ .ret ∧
      m.opcode ≠ .jump := by
  rw [hopc]
  exact ⟨h1, h2, h3, h4⟩

/-- One VM step from a certified, running, in-range state: the step cannot
underflow the operand stack, and a quiet step preserves the invariant. -/
theorem sim_step (C : LoadCtx) (hC : C.Ok) (ops : NumOps) (vm : VM)
    (hsim : SimInv C vm) (hha : vm.halted = false)
    (hip : vm.ip < C.ins.length) :
    (∀ e, (VM.step ops vm).2 = some e → e ≠ .stackUnderflow) ∧
    ((VM.step ops vm).2 = none → SimInv C (VM.step ops vm).1) := by
  obtain ⟨hins, hdisj⟩ := hsim
  rcases hdisj with hhalt | hend | ⟨c, cs, hchain, hcur⟩
  · rw [hhalt] at hha
    cases hha
  · omega
  obtain ⟨j, m, h, hm, hoff, hj, hstk, hgj⟩ := hcur
  obtain ⟨⟨b, hbyte, hbop⟩, himm, hend2, hnext, hlast⟩ :=
    decodedFrom_metaAt C.ins C.metas 0 hC.1 j m hm
  have hbyte' : vm.instructions[vm.ip]? = some b := by
    rw [hins, ← hoff]
    exact hbyte
  rw [VM.step_eq ops vm hbyte' hbop]
  have hat : AtNode C c cs vm j m h := ⟨hins, hchain, hm, hoff, hj, hstk, hgj⟩
  have hcok : CtxOk C c := chain_head_ctxOk C c cs vm.callStack hchain
  obtain ⟨nh, hsucc, hguard⟩ := ctx_effect C hC c hcok j h m hj hm hgj
  rcases hopc : m.opcode
  case halt =>
    simp only [VM.stepOp]
    exact ⟨fun e' he' => Option.noConfusion he', fun _ => ⟨hins, Or.inl rfl⟩⟩
  case push =>
    exact simstep_push C hC ops c cs vm j m h nh hat hsucc hguard hopc
  case loadLocal =>
    exact simstep_loadLocal C hC ops c cs vm j m h nh hat hsucc hguard hopc
  case storeLocal =>
    exact simstep_storeLocal C hC ops c cs vm j m h nh hat hsucc hguard hopc
  case externalCall =>
    exact simstep_externalCall C hC ops c cs vm j m h nh hat hguard hopc
  case call =>
    exact simstep_call C hC ops c cs vm j m h nh hat hsucc hguard hopc
  case ret =>
    exact simstep_ret C hC ops c cs vm j m h nh hat hguard hopc
  case pop =>
    have hg := hguard
    unfold OpGuard at hg
    rw [hopc] at hg
    dsimp only at hg
    obtain ⟨hg1, hg2⟩ := hg
    have himl : m.immLen = 0 := by
      have h2 := himm
      unfold ImmOk at h2
      rw [hopc] at h2
      exact h2.1
    have hlen1 : 1 ≤ ({ vm with ip := vm.ip + 1 } : VM).stack.values.length := by
      show 1 ≤ vm.stack.values.length
      omega
    have hs := stepOp_pop_spec ops { vm with ip := vm.ip + 1 } hlen1
    refine sim_quiet_op C hC c cs vm j m h nh (-1) _ hat hsucc
      (opcode_ne4 hopc (by decide) (by decide) (by decide) (by decide)) himl
      (by omega) (Or.inr ⟨hs.1, hs.2.1, hs.2.2.1, ?_⟩)
    have h4 := hs.2.2.2
    show ((VM.stepOp ops .pop { vm with ip := vm.ip + 1 }).1.stack.values.length : Int) =
      ((vm.stack.values.length : Nat) : Int) + (-1)
    have h5 : ({ vm with ip := vm.ip + 1 } : VM).stack.values.length =
      vm.stack.values.length := rfl
    omega
  case dup =>
    have hg := hguard
    unfold OpGuard at hg
    rw [hopc] at hg
    dsimp only at hg
    obtain ⟨hg1, hg2⟩ := hg
    have himl : m.immLen = 0 := by
      have h2 := himm
      unfold ImmOk at h2
      rw [hopc] at h2
      exact h2.1
    have hlen1 : 1 ≤ ({ vm with ip := vm.ip + 1 } : VM).stack.values.length := by
      show 1 ≤ vm.stack.values.length
      omega
    rcases stepOp_dup_spec ops { vm with ip := vm.ip + 1 } hlen1 with he | ⟨h1, h2, h3, h4⟩
    · exact sim_quiet_op C hC c cs vm j m h nh 1 _ hat hsucc
        (opcode_ne4 hopc (by decide) (by decide) (by decide) (by decide)) himl
        (by omega) (Or.inl he)
    · refine sim_quiet_op C hC c cs vm j m h nh 1 _ hat hsucc
        (opcode_ne4 hopc (by decide) (by decide) (by decide) (by decide)) himl
        (by omega) (Or.inr ⟨h1, h2, h3, ?_⟩)
      have h5 : ({ vm with ip := vm.ip + 1 } : VM).stack.values.length =
        vm.stack.values.length := rfl
      omega
  case add =>
    have hg := hguard
    unfold OpGuard at hg
    rw [hopc] at hg
    dsimp only at hg
    obtain ⟨hg1, hg2⟩ := hg
    have himl : m.immLen = 0 := by
      have h2 := himm
      unfold ImmOk at h2
      rw [hopc] at h2
      exact h2.1
    have hlen2 : 2 ≤ ({ vm with ip := vm.ip + 1 } : VM).stack.values.length := by
      show 2 ≤ vm.stack.values.length
      omega
    rcases binaryNumeric_spec { vm with ip := vm.ip + 1 } ops.add hlen2 with he | ⟨h1, h2, h3, h4⟩
    · exact sim_quiet_op C hC c cs vm j m h nh (-1) _ hat hsucc
        (opcode_ne4 hopc (by decide) (by decide) (by decide) (by decide)) himl
        (by omega) (Or.inl he)
    · refine sim_quiet_op C hC c cs vm j m h nh (-1) _ hat hsucc
        (opcode_ne4 hopc (by decide) (by decide) (by decide) (by decide)) himl
        (by omega) (Or.inr ⟨h1, h2, h3, ?_⟩)
      have h5 : ({ vm with ip := vm.ip + 1 } : VM).stack.values.length =
        vm.stack.values.length := rfl
      show (((({ vm with ip := vm.ip + 1 } : VM).binaryNumeric ops.add).1.stack.values.length : Nat) : Int) =
        ((vm.stack.values.length : Nat) : Int) + (-1)
      omega
  case sub =>
    have hg := hguard
    unfold OpGuard at hg
    rw [hopc] at hg
    dsimp only at hg
    obtain ⟨hg1, hg2⟩ := hg
    have himl : m.immLen = 0 := by
      have h2 := himm
      unfold ImmOk at h2
      rw [hopc] at h2
      exact h2.1
    have hlen2 : 2 ≤ ({ vm with ip := vm.ip + 1 } : VM).stack.values.length := by
      show 2 ≤ vm.stack.values.length
      omega
    rcases binaryNumeric_spec { vm with ip := vm.ip + 1 } ops.sub hlen2 with he | ⟨h1, h2, h3, h4⟩
    · exact sim_quiet_op C hC c cs vm j m h nh (-1) _ hat hsucc
        (opcode_ne4 hopc (by decide) (by decide) (by decide) (by decide)) himl
        (by omega) (Or.inl he)
    · refine sim_quiet_op C hC c cs vm j m h nh (-1) _ hat hsucc
        (opcode_ne4 hopc (by decide) (by decide) (by decide) (by decide)) himl
        (by omega) (Or.inr ⟨h1, h2, h3, ?_⟩)
      have h5 : ({ vm with ip := vm.ip + 1 } : VM).stack.values.length =
        vm.stack.values.length := rfl
      show (((({ vm with ip := vm.ip + 1 } : VM).binaryNumeric ops.sub).1.stack.values.length : Nat) : Int) =
        ((vm.stack.values.length : Nat) : Int) + (-1)
      omega
  case mul =>
    have hg := hguard
    unfold OpGuard at hg
    rw [hopc] at hg
    dsimp only at hg
    obtain ⟨hg1, hg2⟩ := hg
    have himl : m.immLen = 0 := by
      have h2 := himm
      unfold ImmOk at h2
      rw [hopc] at h2
      exact h2.1
    have hlen2 : 2 ≤ ({ vm with ip := vm.ip + 1 } : VM).stack.values.length := by
      show 2 ≤ vm.stack.values.length
      omega
    rcases binaryNumeric_spec { vm with ip := vm.ip + 1 } ops.mul hlen2 with he | ⟨h1, h2, h3, h4⟩
    · exact sim_quiet_op C hC c cs vm j m h nh (-1) _ hat hsucc
        (opcode_ne4 hopc (by decide) (by decide) (by decide) (by decide)) himl
        (by omega) (Or.inl he)
    · refine sim_quiet_op C hC c cs vm j m h nh (-1) _ hat hsucc
        (opcode_ne4 hopc (by decide) (by decide) (by decide) (by decide)) himl
        (by omega) (Or.inr ⟨h1, h2, h3, ?_⟩)
      have h5 : ({ vm with ip := vm.ip + 1 } : VM).stack.values.length =
        vm.stack.values.length := rfl
      show (((({ vm with ip := vm.ip + 1 } : VM).binaryNumeric ops.mul).1.stack.values.length : Nat) : Int) =
        ((vm.stack.values.length : Nat) : Int) + (-1)
      omega
  case div =>
    have hg := hguard
    unfold OpGuard at hg
    rw [hopc] at hg
    dsimp only at hg
    obtain ⟨hg1, hg2⟩ := hg
    have himl : m.immLen = 0 := by
      have h2 := himm
      unfold ImmOk at h2
      rw [hopc] at h2
      exact h2.1
    have hlen2 : 2 ≤ ({ vm with ip := vm.ip + 1 } : VM).stack.values.length := by
      show 2 ≤ vm.stack.values.length
      omega
    rcases stepOp_div_spec ops { vm with ip := vm.ip + 1 } hlen2 with he | ⟨h1, h2, h3, h4⟩
    · exact sim_quiet_op C hC c cs vm j m h nh (-1) _ hat hsucc
        (opcode_ne4 hopc (by decide) (by decide) (by decide) (by decide)) himl
        (by omega) (Or.inl he)
    · refine sim_quiet_op C hC c cs vm j m h nh (-1) _ hat hsucc
        (opcode_ne4 hopc (by decide) (by decide) (by decide) (by decide)) himl
        (by omega) (Or.inr ⟨h1, h2, h3, ?_⟩)
      have h5 : ({ vm with ip := vm.ip + 1 } : VM).stack.values.length =
        vm.stack.values.length := rfl
      omega
  case equal =>
    have hg := hguard
    unfold OpGuard at hg
    rw [hopc] at hg
    dsimp only at hg
    obtain ⟨hg1, hg2⟩ := hg
    have himl : m.immLen = 0 := by
      have h2 := himm
      unfold ImmOk at h2
      rw [hopc] at h2
      exact h2.1
    have hlen2 : 2 ≤ ({ vm with ip := vm.ip + 1 } : VM).stack.values.length := by
      show 2 ≤ vm.stack.values.length
      omega
    rcases compare_spec { vm with ip := vm.ip + 1 } ops.beq hlen2 with he | ⟨h1, h2, h3, h4⟩
    · exact sim_quiet_op C hC c cs vm j m h nh (-1) _ hat hsucc
        (opcode_ne4 hopc (by decide) (by decide) (by decide) (by decide)) himl
        (by omega) (Or.inl he)
    · refine sim_quiet_op C hC c cs vm j m h nh (-1) _ hat hsucc
        (opcode_ne4 hopc (by decide) (by decide) (by decide) (by decide)) himl
        (by omega) (Or.inr ⟨h1, h2, h3, ?_⟩)
      have h5 : ({ vm with ip := vm.ip + 1 } : VM).stack.values.length =
        vm.stack.values.length := rfl
      show (((({ vm with ip := vm.ip + 1 } : VM).compare ops.beq).1.stack.values.length : Nat) : Int) =
        ((vm.stack.values.length : Nat) : Int) + (-1)
      omega
  case notEqual =>
    have hg := hguard
    unfold OpGuard at hg
    rw [hopc] at hg
    dsimp only at hg
    obtain ⟨hg1, hg2⟩ := hg
    have himl : m.immLen = 0 := by
      have h2 := himm
      unfold ImmOk at h2
      rw [hopc] at h2
      exact h2.1
    have hlen2 : 2 ≤ ({ vm with ip := vm.ip + 1 } : VM).stack.values.length := by
      show 2 ≤ vm.stack.values.length
      omega
    rcases compare_spec { vm with ip := vm.ip + 1 } ops.bne hlen2 with he | ⟨h1, h2, h3, h4⟩
    · exact sim_quiet_op C hC c cs vm j m h nh (-1) _ hat hsucc
        (opcode_ne4 hopc (by decide) (by decide) (by decide) (by decide)) himl
        (by omega) (Or.inl he)
    · refine sim_quiet_op C hC c cs vm j m h nh (-1) _ hat hsucc
        (opcode_ne4 hopc (by decide) (by decide) (by decide) (by decide)) himl
        (by omega) (Or.inr ⟨h1, h2, h3, ?_⟩)
      have h5 : ({ vm with ip := vm.ip + 1 } : VM).stack.values.length =
        vm.stack.values.length := rfl
      show (((({ vm with ip := vm.ip + 1 } : VM).compare ops.bne).1.stack.values.length : Nat) : Int) =
        ((vm.stack.values.length : Nat) : Int) + (-1)
      omega
  case less =>
    have hg := hguard
    unfold OpGuard at hg
    rw [hopc] at hg
    dsimp only at hg
    obtain ⟨hg1, hg2⟩ := hg
    have himl : m.immLen = 0 := by
      have h2 := himm
      unfold ImmOk at h2
      rw [hopc] at h2
      exact h2.1
    have hlen2 : 2 ≤ ({ vm with ip := vm.ip + 1 } : VM).stack.values.length := by
      show 2 ≤ vm.stack.values.length
      omega
    rcases compare_spec { vm with ip := vm.ip + 1 } ops.blt hlen2 with he | ⟨h1, h2, h3, h4⟩
    · exact sim_quiet_op C hC c cs vm j m h nh (-1) _ hat hsucc
        (opcode_ne4 hopc (by decide) (by decide) (by decide) (by decide)) himl
        (by omega) (Or.inl he)
    · refine sim_quiet_op C hC c cs vm j m h nh (-1) _ hat hsucc
        (opcode_ne4 hopc (by decide) (by decide) (by decide) (by decide)) himl
        (by omega) (Or.inr ⟨h1, h2, h3, ?_⟩)
      have h5 : ({ vm with ip := vm.ip + 1 } : VM).stack.values.length =
        vm.stack.values.length := rfl
      show (((({ vm with ip := vm.ip + 1 } : VM).compare ops.blt).1.stack.values.length : Nat) : Int) =
        ((vm.stack.values.length : Nat) : Int) + (-1)
      omega
  case greater =>
    have hg := hguard
    unfold OpGuard at hg
    rw [hopc] at hg
    dsimp only at hg
    obtain ⟨hg1, hg2⟩ := hg
    have himl : m.immLen = 0 := by
      have h2 := himm
      unfold ImmOk at h2
      rw [hopc] at h2
      exact h2.1
    have hlen2 : 2 ≤ ({ vm with ip := vm.ip + 1 } : VM).stack.values.length := by
      show 2 ≤ vm.stack.values.length
      omega
    rcases compare_spec { vm with ip := vm.ip + 1 } ops.bgt hlen2 with he | ⟨h1, h2, h3, h4⟩
    · exact sim_quiet_op C hC c cs vm j m h nh (-1) _ hat hsucc
        (opcode_ne4 hopc (by decide) (by decide) (by decide) (by decide)) himl
        (by omega) (Or.inl he)
    · refine sim_quiet_op C hC c cs vm j m h nh (-1) _ hat hsucc
        (opcode_ne4 hopc (by decide) (by decide) (by decide) (by decide)) himl
        (by omega) (Or.inr ⟨h1, h2, h3, ?_⟩)
      have h5 : ({ vm with ip := vm.ip + 1 } : VM).stack.values.length =
        vm.stack.values.length := rfl
      show (((({ vm with ip := vm.ip + 1 } : VM).compare ops.bgt).1.stack.values.length : Nat) : Int) =
        ((vm.stack.values.length : Nat) : Int) + (-1)
      omega
  all_goals
    simp only [VM.stepOp]
    refine ⟨?_, ?_⟩
    · intro e' he'
      injection he' with he'
      rw [← he']
      intro hx
      cases hx
    · intro hn
      cases hn

/-- Fuelled `execute()` from a certified state never reports a stack
underflow. -/
theorem execN_no_underflow (C : LoadCtx) (hC : C.Ok) (ops : NumOps) :
    ∀ (n : Nat) (vm : VM), SimInv C vm →
      (VM.execN ops n vm).2 ≠ .err .stackUnderflow := by
  intro n
  induction n with
  | zero =>
    intro vm hsim
    unfold VM.execN
    split
    · intro hx
      cases hx
    · intro hx
      cases hx
  | succ k ih =>
    intro vm hsim
    unfold VM.execN
    split
    · intro hx
      cases hx
    next hrun =>
      have hha : vm.halted = false := by
        cases hb : vm.halted
        · rfl
        · exact absurd (Or.inl hb) hrun
      have hip : vm.ip < C.ins.length := by
        rcases Nat.lt_or_ge vm.ip vm.instructions.length with h1 | h1
        · rw [hsim.1] at h1
          exact h1
        · exact absurd (Or.inr h1) hrun
      have hstep := sim_step C hC ops vm hsim hha hip
      split
      next vm' heq =>
        refine ih vm' ?_
        have h2 := hstep.2
        rw [heq] at h2
        exact h2 rfl
      next vm' e heq =>
        intro hx
        injection hx with hx
        exact hstep.1 e (by rw [heq]) hx

theorem decodedFrom_head_offset {ins : List Nat} {idx : Nat}
    {metas : List InstrMeta} (hD : DecodedFrom ins idx metas) {m0 : InstrMeta}
    (h : metas[0]? = some m0) : m0.offset = idx := by
  rcases metas with _ | ⟨mm, rest⟩
  · simp at h
  · rw [List.getElem?_cons_zero] at h
    rw [← Option.some.inj h]
    exact hD.1

/-- C1: for every bytecode buffer accepted by the strict loader, running
`execute()` (fuelled here) on the loaded constants and instructions from
the initial state never returns StackUnderflow — the CFG stack-height
validator excludes every underflow, for any fuel, configuration, global
count, and numeric semantics. -/
theorem c1_no_stack_underflow (F : Nat) (bytes : List Nat)
    (lb : LoadedBytecode) (hload : BytecodeLoader.load F bytes = .ok lb)
    (ops : NumOps) (n : Nat) (cfg : VreConfig) (g : Nat) :
    (VM.execN ops n (VM.new cfg lb.constants lb.instructions g)).2 ≠
      .err .stackUnderflow := by
  unfold BytecodeLoader.load at hload
  split at hload
  · cases hload
  next hlen16 =>
    split at hload
    · cases hload
    next pt hpt =>
      split at hload
      · cases hload
      next caps hana =>
        injection hload with hload
        have hins : lb.instructions = pt.instructions := by
          rw [← hload]
        obtain ⟨metas, succs, sums, pend, hdec, hsuc, hfix, hglob⟩ :=
          analyze_ok_facts F pt.instructions caps hana
        have hD := decodeInstrs_decodedFrom pt.instructions metas hdec
        by_cases hins0 : pt.instructions = []
        · have hlen0 : (VM.new cfg lb.constants lb.instructions g).instructions.length ≤
              (VM.new cfg lb.constants lb.instructions g).ip := by
            show lb.instructions.length ≤ 0
            rw [hins, hins0]
            exact Nat.le_refl 0
          cases n <;>
            (unfold VM.execN
             rw [if_pos (Or.inr hlen0)]
             intro hx
             cases hx)
        · have hmetne : metas ≠ [] := by
            intro hmet
            rw [hmet] at hD
            exact hins0 (decodedFrom_zero_nil pt.instructions hD)
          rcases hglob with hmet | ⟨HF, hgl⟩
          · exact absurd hmet hmetne
          have hS : SuccsOk pt.instructions metas succs :=
            buildSuccs_succsOk pt.instructions metas succs hsuc
          have hrange := succsOk_range pt.instructions metas succs hD hS
          have hWf : SumsWf metas succs sums :=
            fixLoop_wf metas succs F hrange F [] (callTargetOffsets metas)
              (sums, pend) (sumsWf_nil metas succs) hfix
          have h0lt : 0 < metas.length := by
            rcases metas with _ | ⟨mm, mrest⟩
            · exact absurd rfl hmetne
            · simp
          have hGinv0 : GInv metas succs sums pt.instructions
              ((List.replicate metas.length (none : Option Int)).set 0 (some 0))
              [0] := by
            refine ⟨by simp, ?_⟩
            intro j h hd
            rw [(certHt_init metas.length 0 j h hd).1]
            exact Or.inl (List.mem_singleton.mpr rfl)
          obtain ⟨hflen, hfdec, hfcert⟩ :=
            globalFlow_inv metas succs sums pt.instructions hrange F _ _ []
              caps HF hGinv0 hgl
          have hstart : certHt ((List.replicate metas.length
              (none : Option Int)).set 0 (some 0)) 0 = some 0 :=
            certHt_set_self _ 0 0 (by simpa using h0lt)
          obtain ⟨h0, hent, hent0⟩ := hfdec 0 0 hstart
          have hCok : LoadCtx.Ok ⟨pt.instructions, metas, succs, sums, HF⟩ :=
            ⟨hD, hS, hWf, hflen, hfcert, ⟨h0, hent, hent0⟩⟩
          obtain ⟨m0, hm0⟩ : ∃ m0, metas[0]? = some m0 :=
            ⟨metas[0], List.getElem?_eq_getElem h0lt⟩
          have hm0off : m0.offset = 0 := decodedFrom_head_offset hD hm0
          have hsim0 : SimInv ⟨pt.instructions, metas, succs, sums, HF⟩
              (VM.new cfg lb.constants lb.instructions g) := by
            refine ⟨by show lb.instructions = pt.instructions; exact hins, ?_⟩
            refine Or.inr (Or.inr ⟨⟨HF, 0, none⟩, [], ?_, ?_⟩)
            · show CtxOk _ ⟨HF, 0, none⟩ ∧ (⟨HF, 0, none⟩ : Ctx).mode = none
              exact ⟨⟨hflen, rfl, rfl⟩, rfl⟩
            · refine ⟨0, m0, h0, hm0, hm0off, hent, ?_, ⟨h0, hent⟩⟩
              show ((0 : Nat) : Int) + h0 ≤ ((0 : Nat) : Int)
              omega
          exact execN_no_underflow ⟨pt.instructions, metas, succs, sums, HF⟩
            hCok ops n _ hsim0

set_option maxRecDepth 4000 in
/-- C1 witness: the theorem applied to the concrete accepted buffer
`c1Bytes`. -/
theorem c1_witness :
    BytecodeLoader.load 12 c1Bytes = .ok c1Lb ∧
    (VM.execN arbNumOps 3 (VM.new VreConfig.default c1Lb.constants
      c1Lb.instructions 0)).2 ≠ .err .stackUnderflow :=
  ⟨by decide, c1_no_stack_underflow 12 c1Bytes c1Lb (by decide) arbNumOps 3
    VreConfig.default 0⟩

end Vre
